import Mathlib

/-!
Shallow embedding of the voxels-rs core (`src/core/src/common.rs`,
`src/core/src/store/blockstore.rs`, `src/core/src/store/paging.rs`,
`src/core/src/stream/vxl_writer.rs`, `src/core/src/stream/vxl_reader.rs`,
`src/core/src/stream/mojang_reader.rs`) together with proofs settling the
spec claims C1-C10.

Modelling conventions:
* Rust `String` / `&str` values are embedded as `List Char` (`Str`); all
  strings relevant to the claims are ASCII, where Rust's byte-wise string
  operations agree with character-wise ones.
* Machine integers (`i32`, `i64`, `usize`) are embedded as `Int` / `Nat`;
  the lossy casts that the source performs (`as usize`, `as i32`) are made
  explicit via `usizeOfInt`, `i32OfNat`, ... with the wrap-around modulus.
* `HashMap` values are embedded as insertion-ordered association lists.
  The only place where the unspecified iteration order of a `HashMap` is
  observable is `VXLSchematicOutputStream::find_closest_state`, which is
  modelled as scanning the palette in insertion order.
* Fallible Rust functions returning `Result<_, String>` become
  `Except Str _`.  Places where the source would panic (index out of
  bounds, integer underflow, infinite loops on negative var-int input)
  are modelled as `Except.error` values whose message starts with
  `panic:`.
-/

namespace Voxels

/-- Rust strings, embedded as character lists. -/
abbrev Str : Type := List Char

/-- Coerce a Lean string literal into the embedding's string type. -/
def str (s : String) : Str := s.data

/-- Rust's `char::is_whitespace` (the inputs relevant to the claims are
ASCII, where this agrees with Lean's `Char.isWhitespace`). -/
def isWS (c : Char) : Bool := c.isWhitespace

/-- `str.trim()`. -/
def trimStr (s : Str) : Str :=
  ((s.dropWhile isWS).reverse.dropWhile isWS).reverse

/-- `i32 as usize` (sign extension to 64 bits, then reinterpretation). -/
def usizeOfInt (v : Int) : Nat := (v % (2 ^ 64)).toNat

/-- `usize as i32` (truncation to the low 32 bits, reinterpreted signed). -/
def i32OfNat (n : Nat) : Int :=
  let m : Nat := n % 2 ^ 32
  if m < 2 ^ 31 then (m : Int) else (m : Int) - 2 ^ 32

/-! ### Axes and axis orders (`common.rs` lines 10-29, 130-163) -/

/-- `Axis` from `common.rs`. -/
inductive Axis : Type
| X
| Y
| Z
deriving DecidableEq, Repr

/-- `AxisOrder` from `common.rs`. -/
inductive AxisOrder : Type
| XYZ
| XZY
| YXZ
| YZX
| ZXY
| ZYX
deriving DecidableEq, Repr

/-- `AxisOrder::axis`, returning the `[Axis; 3]` array as a triple
(outermost, middle, innermost). -/
def AxisOrder.axisTriple : AxisOrder → Axis × Axis × Axis
| .XYZ => (.X, .Y, .Z)
| .XZY => (.X, .Z, .Y)
| .YXZ => (.Y, .X, .Z)
| .YZX => (.Y, .Z, .X)
| .ZXY => (.Z, .X, .Y)
| .ZYX => (.Z, .Y, .X)

/-! ### Positions and boundaries (`common.rs` lines 31-39, 165-392) -/

/-- `BlockPosition` (three `i32` coordinates). -/
structure BlockPosition : Type where
  x : Int
  y : Int
  z : Int
deriving DecidableEq, Repr

/-- `Boundary` (origin plus extents, all `i32`). -/
structure Boundary : Type where
  min_x : Int
  min_y : Int
  min_z : Int
  d_x : Int
  d_y : Int
  d_z : Int
deriving DecidableEq, Repr

/-- `BlockPosition::select`. -/
def BlockPosition.select (p : BlockPosition) : Axis → Int
| .X => p.x
| .Y => p.y
| .Z => p.z

/-- `BlockPosition::select_set`. -/
def BlockPosition.selectSet (p : BlockPosition) : Axis → Int → BlockPosition
| .X, v => { p with x := v }
| .Y, v => { p with y := v }
| .Z, v => { p with z := v }

/-- `Boundary::new_from_min_max`. -/
def Boundary.newFromMinMax (min_x min_y min_z max_x max_y max_z : Int) : Boundary :=
  ⟨min_x, min_y, min_z, max_x - min_x + 1, max_y - min_y + 1, max_z - min_z + 1⟩

/-- `Boundary::volume`: `(d_x * d_y * d_z) as usize`.  The product is
`i32` arithmetic in the source; the claims below keep it within range. -/
def Boundary.volume (b : Boundary) : Nat :=
  usizeOfInt (b.d_x * b.d_y * b.d_z)

/-- `Boundary::select_min`. -/
def Boundary.selectMin (b : Boundary) : Axis → Int
| .X => b.min_x
| .Y => b.min_y
| .Z => b.min_z

/-- `Boundary::max_x` etc. -/
def Boundary.max_x (b : Boundary) : Int := b.min_x + b.d_x - 1

def Boundary.max_y (b : Boundary) : Int := b.min_y + b.d_y - 1

def Boundary.max_z (b : Boundary) : Int := b.min_z + b.d_z - 1

/-- `Boundary::select_max`. -/
def Boundary.selectMax (b : Boundary) : Axis → Int
| .X => b.max_x
| .Y => b.max_y
| .Z => b.max_z

/-- `Boundary::contains`. -/
def Boundary.containsPos (b : Boundary) (p : BlockPosition) : Prop :=
  b.min_x ≤ p.x ∧ p.x < b.min_x + b.d_x ∧
  b.min_y ≤ p.y ∧ p.y < b.min_y + b.d_y ∧
  b.min_z ≤ p.z ∧ p.z < b.min_z + b.d_z

instance (b : Boundary) (p : BlockPosition) : Decidable (b.containsPos p) := by
  unfold Boundary.containsPos; infer_instance

/-- `Boundary::expand_to_include`. -/
def Boundary.expandToInclude (b : Boundary) (p : BlockPosition) : Boundary :=
  if b.containsPos p then b
  else
    Boundary.newFromMinMax (min b.min_x p.x) (min b.min_y p.y) (min b.min_z p.z)
      (max b.max_x p.x) (max b.max_y p.y) (max b.max_z p.z)

/-- `AxisOrder::index` (pure `i32` arithmetic in the source; kept as exact
integer arithmetic here, the claims stay within `i32` range). -/
def AxisOrder.index (o : AxisOrder) (p : BlockPosition) (b : Boundary) : Int :=
  let step := fun (acc : Int) (a : Axis) =>
    acc * (match a with
           | .X => b.d_x
           | .Y => b.d_y
           | .Z => b.d_z)
      + (match a with
         | .X => p.x - b.min_x
         | .Y => p.y - b.min_y
         | .Z => p.z - b.min_z)
  let (a0, a1, a2) := o.axisTriple
  step (step (step 0 a0) a1) a2

/-! ### Block states (`common.rs` lines 41-60, 394-495) -/

/-- `BlockState` sans its `cached_hash` field: every `BlockState` the
program constructs goes through `BlockState::new`, which computes
`cached_hash` as a function of `(name, properties)`, so the cache carries
no extra information and is reintroduced below via an arbitrary hash
function parameter where equality is concerned. -/
structure BlockState : Type where
  name : Str
  properties : List (Str × Str)
deriving DecidableEq, Repr

/-- `impl PartialEq for BlockState` (`common.rs` lines 54-60), with the
cached hash spelled out as `h self.name self.properties` for an arbitrary
hash function `h` (the source uses `DefaultHasher` over name then each
key/value in order). -/
def BlockState.beq (h : Str → List (Str × Str) → Nat) (a b : BlockState) : Bool :=
  (h a.name a.properties == h b.name b.properties)
    && (a.name == b.name) && (a.properties == b.properties)

/-- `BlockState::air`. -/
def BlockState.air : BlockState := ⟨str ("minecraft:air"), []⟩

/-- `BlockState::is_air`. -/
def BlockState.is_air (s : BlockState) : Bool :=
  s.name == str ("minecraft:air") || s.name == str ("minecraft:cave_air")
    || s.name == str ("minecraft:void_air")

/-- `Block`. -/
structure Block : Type where
  position : BlockPosition
  state : BlockState
deriving DecidableEq, Repr

/-! ### String helpers shared by the `BlockState` string functions -/

/-- `s.find(':')`-style index of the first occurrence of a character. -/
def findCharIdx (c : Char) (s : Str) : Option Nat :=
  s.findIdx? (fun d => d == c)

/-- `name.split(':').next().unwrap_or("")`: the prefix before the first
`':'`, or the whole string when there is none (a split always yields at
least one piece). -/
def splitColonFirst (s : Str) : Str :=
  match findCharIdx ':' s with
  | some i => s.take i
  | none => s

/-- `name.split(':').last().unwrap_or("")`: the suffix after the last
`':'`, or the whole string when there is none. -/
def splitColonLast (s : Str) : Str :=
  match findCharIdx ':' s.reverse with
  | some i => (s.reverse.take i).reverse
  | none => s

/-- Namespace component used by `BlockState::difference`
(`&name[..idx]` for the first `':'` at `idx`, else `""`). -/
def nsOf (s : Str) : Str :=
  match findCharIdx ':' s with
  | some i => s.take i
  | none => []

/-- Type component used by `BlockState::difference`
(`&name[idx + 1..]` for the first `':'` at `idx`, else the whole name). -/
def tyOf (s : Str) : Str :=
  match findCharIdx ':' s with
  | some i => s.drop (i + 1)
  | none => s

/-- Rust `String` ordering on ASCII strings (byte-wise lexicographic). -/
def strLe : Str → Str → Bool
| [], _ => true
| _ :: _, [] => false
| a :: as, b :: bs => if a = b then strLe as bs else decide (a.toNat < b.toNat)

/-! ### `BlockState::to_string` (`common.rs` lines 482-495) -/

/-- `BlockState::to_string`: bare name when there are no properties, else
`name[k1=v1,...]` with the `k=v` fragments sorted (`props.sort()` on the
formatted fragments; `Vec::sort` is modelled as an insertion sort, which
produces the same result on the claims' duplicate-free ASCII inputs). -/
def BlockState.to_string (s : BlockState) : Str :=
  if s.properties.isEmpty then s.name
  else
    let props := s.properties.map (fun kv => kv.1 ++ '=' :: kv.2)
    let sorted := List.insertionSort (fun a b => strLe a b) props
    s.name ++ '[' :: List.intercalate [','] sorted ++ [']']

/-! ### `BlockState::from_string` (`common.rs` lines 659-757) -/

/-- Character set accepted for the resource-location part of
`from_string` (`a-z 0-9 _ / :`). -/
def isResourceChar (c : Char) : Bool :=
  c.isLower || c.isDigit || c == '_' || c == '/' || c == ':'

/-- Character set accepted for property keys and values in `from_string`
(`is_ascii_alphanumeric` plus `_ + -`). -/
def isPropChar (c : Char) : Bool :=
  c.isAlphanum || c == '_' || c == '+' || c == '-'

/-- The `kv` → `(key, value)` step of `from_string`: empty or `=`-free
fragments become `("", "")` (rejected later); otherwise the first and
second pieces of `kv.split('=')`, trimmed. -/
def parsePropPair (kv : Str) : Str × Str :=
  if kv.isEmpty || !kv.contains '=' then ([], [])
  else
    let pieces := kv.splitOn '='
    (trimStr (pieces.getD 0 []), trimStr (pieces.getD 1 []))

/-- `BlockState::from_string`. -/
def BlockState.from_string (input : Str) : Except Str BlockState :=
  if !input.contains '[' then
    if input.contains ']' then
      .error (str ("Malformed BlockState string: missing bracket"))
    else if (trimStr input).isEmpty then
      .error (str ("Malformed BlockState string: empty input"))
    else .ok ⟨trimStr input, []⟩
  else if input.count ':' ≠ 1 then
    .error (str ("Malformed BlockState string: must contain exactly one colon"))
  else
    let splitIndex := (findCharIdx '[' input).getD 0
    let resourceLocation := input.take splitIndex
    if !resourceLocation.all isResourceChar then
      .error (str ("Malformed BlockState string: illegal character"))
    else
      let namespacePart := trimStr (splitColonFirst resourceLocation)
      let typeName := trimStr (splitColonLast resourceLocation)
      if namespacePart.isEmpty then
        .error (str ("Malformed BlockState string: missing namespace"))
      else if namespacePart ≠ str ("minecraft") then
        .error (str ("Malformed BlockState string: unsupported namespace"))
      else if typeName.isEmpty then
        .error (str ("Malformed BlockState string: missing type name"))
      else
        let typePropertiesString := input.drop (splitIndex + 1)
        match typePropertiesString with
        | [] =>
          -- `type_properties_string[0..len - 1]` underflows on empty input
          .error (str ("panic: slice index underflow in from_string"))
        | _ :: _ =>
          let propertyMap : List (Str × Str) :=
            if typePropertiesString = [']'] then []
            else (typePropertiesString.dropLast.splitOn ',').map parsePropPair
          if propertyMap.any (fun kv => kv.1.isEmpty || kv.2.isEmpty) then
            .error (str ("Malformed BlockState string: empty property key or value"))
          else if propertyMap.any (fun kv => !kv.1.all isPropChar) then
            .error (str ("Malformed BlockState string: illegal character in property key"))
          else if propertyMap.any (fun kv => !kv.2.all isPropChar) then
            .error (str ("Malformed BlockState string: illegal character in property value"))
          else .ok ⟨trimStr resourceLocation, propertyMap⟩

/-! ### `BlockState::difference` (`common.rs` lines 586-649) -/

/-- Properties of `other` that are new or changed with respect to `self`
(the `+` section of a diff, in `other`'s order). -/
def diffAdds (a b : BlockState) : List (Str × Str) :=
  b.properties.filter fun kv =>
    match a.properties.find? (fun p => p.1 == kv.1) with
    | none => true
    | some p => decide (p.2 ≠ kv.2)

/-- Keys of `self` absent from `other` (the `-` section of a diff, in
`self`'s order). -/
def diffRemoves (a b : BlockState) : List Str :=
  (a.properties.filter fun kv => !b.properties.any (fun p => p.1 == kv.1)).map (fun kv => kv.1)

/-- The name component of `BlockState::difference`. -/
def diffNamePart (a b : BlockState) : Str :=
  if a.name = b.name then []
  else
    (if nsOf b.name ≠ nsOf a.name then nsOf b.name else [])
      ++ (if nsOf b.name ≠ nsOf a.name ∨ tyOf b.name ≠ tyOf a.name then [':'] else [])
      ++ (if tyOf b.name ≠ tyOf a.name then tyOf b.name else [])

/-- `BlockState::difference`. -/
def BlockState.difference (a b : BlockState) : Str :=
  let adds := diffAdds a b
  let removes := diffRemoves a b
  diffNamePart a b
    ++ (if adds.isEmpty then []
        else '+' :: List.intercalate [','] (adds.map (fun kv => kv.1 ++ '=' :: kv.2)))
    ++ (if removes.isEmpty then [] else '-' :: List.intercalate [','] removes)

/-! ### `BlockState::update` (`common.rs` lines 499-584) -/

/-- Characters accepted inside a difference string
(`is_ascii_alphanumeric` plus `_ + - = : ,`). -/
def isLegalDiffChar (c : Char) : Bool :=
  c.isAlphanum || c == '_' || c == '+' || c == '-' || c == '=' || c == ':' || c == ','

/-- `'+'` or `'-'`. -/
def isSignChar (c : Char) : Bool := c == '+' || c == '-'

/-- The `+`-segment loop body of `update`: split the segment on `,`,
keep fragments containing `=` (split once at the first `=`), failing
when the accumulated list exceeds 256 entries. -/
def pushAdds (toAdd : List (Str × Str)) : List Str → Except Str (List (Str × Str))
| [] => .ok toAdd
| kv :: rest =>
  match findCharIdx '=' kv with
  | none => pushAdds toAdd rest
  | some i =>
    let toAdd' := toAdd ++ [(kv.take i, kv.drop (i + 1))]
    if toAdd'.length > 256 then
      .error (str ("Malformed difference string: too many properties to add"))
    else pushAdds toAdd' rest

/-- The `-`-segment loop body of `update`. -/
def pushRemoves (toRemove : List Str) : List Str → Except Str (List Str)
| [] => .ok toRemove
| p :: rest =>
  let toRemove' := toRemove ++ [p]
  if toRemove'.length > 256 then
    .error (str ("Malformed difference string: too many properties to remove"))
  else pushRemoves toRemove' rest

/-- The `while !remaining.is_empty()` segment loop of `update`.  The
`remaining` string always starts with the sign character of the current
segment; `next_sign` is the index of the following sign character (or
the end). -/
def parseSegs (remaining : Str) (toAdd : List (Str × Str)) (toRemove : List Str) :
    Except Str (List (Str × Str) × List Str) :=
  match remaining with
  | [] => .ok (toAdd, toRemove)
  | sign :: rest =>
    let nextSign := match rest.findIdx? isSignChar with
      | some i => i + 1
      | none => rest.length + 1
    let segment := rest.take (nextSign - 1)
    let cont := rest.drop (nextSign - 1)
    if sign = '+' then
      match pushAdds toAdd (segment.splitOn ',') with
      | .error e => .error e
      | .ok toAdd' => parseSegs cont toAdd' toRemove
    else if sign = '-' then
      match pushRemoves toRemove (segment.splitOn ',') with
      | .error e => .error e
      | .ok toRemove' => parseSegs cont toAdd toRemove'
    else parseSegs cont toAdd toRemove
termination_by remaining.length
decreasing_by
  all_goals simp_all [List.length_drop]
  all_goals omega

/-- `BlockState::update` (the `?`-style error propagation of the Rust code
is written with `Except.bind`; a returned pair is consumed through its
projections). -/
def BlockState.update (a : BlockState) (difference : Str) : Except Str BlockState :=
  if (trimStr difference).isEmpty then .ok a
  else if difference.length > 4096 then
    .error (str ("Malformed difference string: length exceeds maximum"))
  else
    let d := difference.filter (fun c => !isWS c)
    if !d.all isLegalDiffChar then
      .error (str ("Malformed difference string: illegal character"))
    else
      let firstSign := (d.findIdx? isSignChar).getD d.length
      let namePart := d.take firstSign
      let nameRes : Except Str Str :=
        if namePart.isEmpty then .ok a.name
        else if namePart.count ':' > 1 then
          .error (str ("Malformed difference string: at most one colon"))
        else
          let n1 := if namePart.head? = some ':' then splitColonFirst a.name ++ namePart
                    else namePart
          .ok (if n1.getLast? = some ':' then n1 ++ splitColonLast a.name else n1)
      Except.bind nameRes (fun newName =>
        if newName.length > 64 then
          .error (str ("Malformed difference string: new type name too long"))
        else
          Except.bind (parseSegs (d.drop firstSign) [] []) (fun pr =>
            let newProperties :=
              a.properties.filter (fun kv =>
                !pr.2.contains kv.1 && !pr.1.any (fun ak => ak.1 == kv.1)) ++ pr.1
            .ok ⟨newName, newProperties⟩))

/-! ### Claim C4: block-state equality and hashing -/

theorem beq_iff (h : Str → List (Str × Str) → Nat) (a b : BlockState) :
    BlockState.beq h a b = true ↔ a = b := by
  cases a with
  | mk an ap =>
    cases b with
    | mk bn bp =>
      simp only [BlockState.beq, Bool.and_eq_true, beq_iff_eq, BlockState.mk.injEq]
      constructor
      · rintro ⟨⟨-, h1⟩, h2⟩; exact ⟨h1, h2⟩
      · rintro ⟨h1, h2⟩; subst h1; subst h2; simp

/-- C4 (corrected): `a == b` holds under `impl PartialEq for BlockState`
iff the names are equal and the property *lists* are equal (same pairs in
the same order), for every possible cached-hash function; equality is not
computed over the multiset of pairs. -/
theorem C4_partialEq_is_list_equality (h : Str → List (Str × Str) → Nat)
    (a b : BlockState) :
    BlockState.beq h a b = true ↔ (a.name = b.name ∧ a.properties = b.properties) := by
  rw [beq_iff]
  cases a; cases b; simp [BlockState.mk.injEq]

/-- C4 counterexample: two states with the same name and the same multiset
of `(key, value)` pairs in different insertion orders are *not* equal under
the program's `PartialEq` (here instantiated with the constant-zero hash
function, for which they do hash identically, so the inequality is due to
the ordered property comparison alone). -/
theorem C4_counterexample :
    BlockState.beq (fun _ _ => 0)
        ⟨str ("minecraft:stone"), [(str ("a"), str ("1")), (str ("b"), str ("2"))]⟩
        ⟨str ("minecraft:stone"), [(str ("b"), str ("2")), (str ("a"), str ("1"))]⟩ = false ∧
      (⟨str ("minecraft:stone"), [(str ("a"), str ("1")), (str ("b"), str ("2"))]⟩ :
          BlockState).name =
        (⟨str ("minecraft:stone"), [(str ("b"), str ("2")), (str ("a"), str ("1"))]⟩ :
          BlockState).name ∧
      (⟨str ("minecraft:stone"), [(str ("a"), str ("1")), (str ("b"), str ("2"))]⟩ :
            BlockState).properties.Perm
        (⟨str ("minecraft:stone"), [(str ("b"), str ("2")), (str ("a"), str ("1"))]⟩ :
            BlockState).properties := by
  refine ⟨by decide, by decide, ?_⟩
  decide

/-! ### Claim C9: `expand_to_include` -/

theorem containsPos_newFromMinMax (ax ay az bx by_ bz : Int) (q : BlockPosition) :
    (Boundary.newFromMinMax ax ay az bx by_ bz).containsPos q ↔
      (ax ≤ q.x ∧ q.x ≤ bx ∧ ay ≤ q.y ∧ q.y ≤ by_ ∧ az ≤ q.z ∧ q.z ≤ bz) := by
  simp only [Boundary.newFromMinMax, Boundary.containsPos]
  omega

theorem expandToInclude_contains (b : Boundary) (p : BlockPosition) :
    (b.expandToInclude p).containsPos p := by
  by_cases hc : b.containsPos p
  · simp [Boundary.expandToInclude, hc]
  · simp only [Boundary.expandToInclude, hc, if_false, containsPos_newFromMinMax,
      Boundary.max_x, Boundary.max_y, Boundary.max_z]
    omega

theorem expandToInclude_mono (b : Boundary) (p : BlockPosition) :
    ∀ q, b.containsPos q → (b.expandToInclude p).containsPos q := by
  intro q hq
  by_cases hc : b.containsPos p
  · simpa [Boundary.expandToInclude, hc] using hq
  · simp only [Boundary.containsPos] at hq
    simp only [Boundary.expandToInclude, hc, if_false, containsPos_newFromMinMax,
      Boundary.max_x, Boundary.max_y, Boundary.max_z]
    omega

/-- C9 (corrected): `expand_to_include` is the identity when the position
is already contained, always contains the new position, and always
contains every position of the original boundary; it is the *smallest*
boundary containing `B ∪ {p}` only when every extent of `B` is positive
(for a zero-volume `B` the result still spans from `B`'s phantom corner,
see the counterexample). -/
theorem C9_expandToInclude_correct (b : Boundary) (p : BlockPosition) :
    (b.containsPos p → b.expandToInclude p = b) ∧
    (b.expandToInclude p).containsPos p ∧
    (∀ q, b.containsPos q → (b.expandToInclude p).containsPos q) ∧
    (1 ≤ b.d_x → 1 ≤ b.d_y → 1 ≤ b.d_z →
      ∀ c : Boundary, (∀ q, b.containsPos q → c.containsPos q) → c.containsPos p →
        ∀ q, (b.expandToInclude p).containsPos q → c.containsPos q) := by
  refine ⟨fun hc => by simp [Boundary.expandToInclude, hc],
    expandToInclude_contains b p, expandToInclude_mono b p, ?_⟩
  · intro hx hy hz c hsub hp q hq
    by_cases hc : b.containsPos p
    · rw [Boundary.expandToInclude, if_pos hc] at hq
      exact hsub q hq
    · have h1 := hsub ⟨b.min_x, b.min_y, b.min_z⟩ (by simp [Boundary.containsPos]; omega)
      have h2 := hsub ⟨b.min_x + b.d_x - 1, b.min_y + b.d_y - 1, b.min_z + b.d_z - 1⟩
        (by simp [Boundary.containsPos]; omega)
      rw [Boundary.expandToInclude, if_neg hc] at hq
      rw [containsPos_newFromMinMax] at hq
      simp only [Boundary.containsPos] at h1 h2 hp ⊢
      simp only [Boundary.max_x, Boundary.max_y, Boundary.max_z] at hq
      omega

/-- C9 witness: the theorem applied at a concrete boundary and position,
discharging its hypotheses there. -/
theorem C9_witness :
    (Boundary.expandToInclude ⟨0, 0, 0, 2, 2, 2⟩ ⟨5, 1, 1⟩).containsPos ⟨5, 1, 1⟩ ∧
      (Boundary.expandToInclude ⟨0, 0, 0, 2, 2, 2⟩ ⟨5, 1, 1⟩).containsPos ⟨0, 0, 0⟩ ∧
      (⟨0, 0, 0, 6, 2, 2⟩ : Boundary).containsPos ⟨3, 0, 0⟩ :=
  ⟨(C9_expandToInclude_correct ⟨0, 0, 0, 2, 2, 2⟩ ⟨5, 1, 1⟩).2.1,
   (C9_expandToInclude_correct ⟨0, 0, 0, 2, 2, 2⟩ ⟨5, 1, 1⟩).2.2.1 ⟨0, 0, 0⟩ (by decide),
   (C9_expandToInclude_correct ⟨0, 0, 0, 2, 2, 2⟩ ⟨5, 1, 1⟩).2.2.2 (by decide) (by decide)
     (by decide) ⟨0, 0, 0, 6, 2, 2⟩
     (fun q hq => by
       revert hq; simp only [Boundary.containsPos]; omega)
     (by decide) ⟨3, 0, 0⟩ (by decide)⟩

/-- C9 counterexample: for the zero-volume boundary at the origin and
`p = (3,0,0)`, the boundary `[3,3]×[0,0]×[0,0]` contains every position of
`B` (there are none) and contains `p`, yet `B.expand_to_include(p)` also
contains `(0,0,0)`, which that smaller boundary does not — so the result
is not the smallest boundary containing `B ∪ {p}`. -/
theorem C9_counterexample :
    (∀ q, (⟨0, 0, 0, 0, 0, 0⟩ : Boundary).containsPos q →
        (⟨3, 0, 0, 1, 1, 1⟩ : Boundary).containsPos q) ∧
      (⟨3, 0, 0, 1, 1, 1⟩ : Boundary).containsPos ⟨3, 0, 0⟩ ∧
      (Boundary.expandToInclude ⟨0, 0, 0, 0, 0, 0⟩ ⟨3, 0, 0⟩).containsPos ⟨0, 0, 0⟩ ∧
      ¬ (⟨3, 0, 0, 1, 1, 1⟩ : Boundary).containsPos ⟨0, 0, 0⟩ := by
  refine ⟨fun q hq => ?_, by decide, by decide, by decide⟩
  exact absurd hq (by simp only [Boundary.containsPos]; omega)

/-! ### Claim C7: `from_string` failure conditions -/

theorem trimStr_eq_nil_imp {s : Str} (h : trimStr s = []) : ∀ c ∈ s, isWS c = true := by
  unfold trimStr at h
  rw [List.reverse_eq_nil_iff, List.dropWhile_eq_nil_iff] at h
  intro c hc
  rw [← List.takeWhile_append_dropWhile (p := isWS) (l := s), List.mem_append] at hc
  rcases hc with hc | hc
  · exact List.mem_takeWhile_imp hc
  · exact h c (List.mem_reverse.mpr hc)

/-- C7 (corrected): `from_string` fails on empty (or all-whitespace)
input; *unbracketed* input otherwise succeeds as a bare trimmed name (it
fails only when a `]` appears without `[`); for bracketed input it fails
whenever the input does not contain exactly one `:` or the namespace
before the first `:` of the name portion is not `minecraft`. -/
theorem C7_from_string_failures :
    (∀ s : Str, trimStr s = [] → (BlockState.from_string s).isOk = false) ∧
    (∀ s : Str, '[' ∉ s → ']' ∉ s → trimStr s ≠ [] →
      BlockState.from_string s = .ok ⟨trimStr s, []⟩) ∧
    (∀ s : Str, '[' ∈ s → s.count ':' ≠ 1 →
      (BlockState.from_string s).isOk = false) ∧
    (∀ s : Str, '[' ∈ s →
      trimStr (splitColonFirst (s.take ((findCharIdx '[' s).getD 0))) ≠ str ("minecraft") →
      (BlockState.from_string s).isOk = false) := by
  refine ⟨?_, ?_, ?_, ?_⟩
  · intro s hs
    have hmem : '[' ∉ s := fun hm => by
      have := trimStr_eq_nil_imp hs '[' hm
      simp [isWS] at this
    rw [BlockState.from_string]
    simp only [List.elem_eq_mem, decide_eq_true_eq]
    rw [if_pos (by simpa using hmem)]
    split
    · simp [Except.isOk, Except.toBool]
    · rw [if_pos (by simp [hs])]
      simp [Except.isOk, Except.toBool]
  · intro s h1 h2 h3
    rw [BlockState.from_string]
    simp only [List.elem_eq_mem, decide_eq_true_eq]
    rw [if_pos (by simpa using h1), if_neg (by simpa using h2),
      if_neg (by simpa using h3)]
  · intro s h1 h2
    rw [BlockState.from_string]
    simp only [List.elem_eq_mem, decide_eq_true_eq]
    rw [if_neg (by simpa using h1), if_pos h2]
    simp [Except.isOk, Except.toBool]
  · intro s h1 h2
    rw [BlockState.from_string]
    simp only [List.elem_eq_mem, decide_eq_true_eq]
    rw [if_neg (by simpa using h1)]
    split
    · rfl
    · split_ifs <;> rfl

/-- C7 witness: the theorem applied to concrete inputs, discharging the
hypotheses of each conjunct there. -/
theorem C7_witness :
    (BlockState.from_string (str ("  "))).isOk = false ∧
      BlockState.from_string (str ("stone")) = .ok ⟨str ("stone"), []⟩ ∧
      (BlockState.from_string (str ("a:b:c[x=1]"))).isOk = false ∧
      (BlockState.from_string (str ("other:stone[x=1]"))).isOk = false :=
  ⟨C7_from_string_failures.1 (str ("  ")) (by decide),
   C7_from_string_failures.2.1 (str ("stone")) (by decide) (by decide) (by decide),
   C7_from_string_failures.2.2.1 (str ("a:b:c[x=1]")) (by decide) (by decide),
   C7_from_string_failures.2.2.2 (str ("other:stone[x=1]")) (by decide) (by decide)⟩

/-- C7 counterexample: the unbracketed input `minecraft:stone` parses
successfully, refuting the claim that `from_string` fails on any
unbracketed input. -/
theorem C7_counterexample :
    BlockState.from_string (str ("minecraft:stone")) =
      .ok ⟨str ("minecraft:stone"), []⟩ := by
  rfl

/-! ### Pages (`paging.rs`) -/

/-- `i32 as u32` (reinterpretation of the two's-complement bits). -/
def u32OfInt (v : Int) : Nat := (v % (2 ^ 32)).toNat

/-- `u64` bit pattern reinterpreted as `i64`. -/
def i64OfNat (n : Nat) : Int :=
  let m : Nat := n % 2 ^ 64
  if m < 2 ^ 63 then (m : Int) else (m : Int) - 2 ^ 64

/-- `ArrayPage` from `paging.rs`. -/
structure ArrayPage : Type where
  size_x : Nat
  size_y : Nat
  size_z : Nat
  axisOrder : AxisOrder
  data : List Nat
  nnz : Nat
deriving DecidableEq, Repr

/-- `ArrayPage::new`. -/
def ArrayPage.new (size_x size_y size_z : Nat) (axisOrder : AxisOrder) : ArrayPage :=
  ⟨size_x, size_y, size_z, axisOrder, List.replicate (size_x * size_y * size_z) 0, 0⟩

/-- `ArrayPage::index` (the source computes the flat index in `i32`
arithmetic; the stores below keep page sizes small enough that the exact
integer arithmetic used here coincides). -/
def ArrayPage.pageIndex (p : ArrayPage) (x y z : Int) : Option Nat :=
  let sx : Int := p.size_x
  let sy : Int := p.size_y
  let sz : Int := p.size_z
  let idx : Int := match p.axisOrder with
    | .XYZ => x + y * sx + z * sx * sy
    | .XZY => x + z * sx + y * sx * sz
    | .YXZ => y + x * sy + z * sy * sx
    | .YZX => y + z * sy + x * sy * sz
    | .ZXY => z + x * sz + y * sz * sx
    | .ZYX => z + y * sz + x * sz * sy
  if idx < 0 ∨ sx * sy * sz ≤ idx then none else some idx.toNat

/-- `ArrayPage::load`.  `self.data[idx]` is modelled with a default of
`0`; for pages built by `ArrayPage::new` the index is always in range. -/
def ArrayPage.load (p : ArrayPage) (x y z : Int) : Option Nat :=
  match p.pageIndex x y z with
  | none => none
  | some idx =>
    match p.data.getD idx 0 with
    | 0 => none
    | st + 1 => some st

/-- `ArrayPage::store`. -/
def ArrayPage.store (p : ArrayPage) (x y z : Int) (state : Nat) : Except Str ArrayPage :=
  match p.pageIndex x y z with
  | none => .error (str ("Index out of bounds"))
  | some idx =>
    let current := p.data.getD idx 0
    .ok { p with
          data := p.data.set idx (state + 1),
          nnz := if current = 0 then p.nnz + 1 else p.nnz }

/-- `ArrayPage::erase`. -/
def ArrayPage.erase (p : ArrayPage) (x y z : Int) : Except Str ArrayPage :=
  match p.pageIndex x y z with
  | none => .error (str ("Index out of bounds"))
  | some idx =>
    let current := p.data.getD idx 0
    if current ≠ 0 then
      .ok { p with nnz := p.nnz - 1, data := p.data.set idx 0 }
    else .error (str ("No block to erase at given coordinates"))

/-! ### Block stores (`blockstore.rs`) -/

/-- `BlockStore::_expand_or_throw` (`blockstore.rs` lines 37-49),
returning the (possibly expanded) boundary. -/
def expandOrThrow (bdry : Boundary) (resizable : Bool) (pos : BlockPosition) :
    Except Str Boundary :=
  if resizable = false ∧ ¬ bdry.containsPos pos then
    .error (str ("Position out of bounds and store is not resizable"))
  else if ¬ bdry.containsPos pos then
    let nb := bdry.expandToInclude pos
    if 1024 < nb.d_x ∨ 1024 < nb.d_y ∨ 1024 < nb.d_z then
      .error (str ("Cannot expand boundary beyond 1024 in any dimension"))
    else .ok nb
  else .ok bdry

/-- `get_or_add_palette_index`: the reverse palette always maps exactly
the palette's entries to their indices, so the lookup is modelled as a
scan of the palette vector. -/
def getOrAddPaletteIndex (palette : List BlockState) (st : BlockState) :
    Nat × List BlockState :=
  match palette.findIdx? (fun t => t == st) with
  | some i => (i, palette)
  | none => (palette.length, palette ++ [st])

/-- Replace-or-append update of an association list (`HashMap::insert` /
`Entry::or_insert_with` followed by mutation). -/
def assocSet {α : Type} [BEq α] {β : Type} (l : List (α × β)) (k : α) (v : β) :
    List (α × β) :=
  if l.any (fun e => e.1 == k) then l.map (fun e => if e.1 == k then (k, v) else e)
  else l ++ [(k, v)]

/-- `SparseBlockStore`. -/
structure SparseBlockStore : Type where
  data : List (BlockPosition × Nat)
  palette : List BlockState
  boundary : Boundary
  fixedSize : Bool
deriving DecidableEq, Repr

/-- `SparseBlockStore::set_block_at`.  `&mut self` methods are modelled
in state-passing style: the second component is the store after the
call, which is unchanged whenever the source returns early with `?`. -/
def SparseBlockStore.set_block_at (s : SparseBlockStore) (pos : BlockPosition)
    (st : BlockState) : Except Str Unit × SparseBlockStore :=
  match expandOrThrow s.boundary (!s.fixedSize) pos with
  | .error e => (.error e, s)
  | .ok bdry =>
    let (index, pal) := getOrAddPaletteIndex s.palette st
    (.ok (), { s with boundary := bdry, palette := pal,
                      data := assocSet s.data pos index })

/-- `PagedBlockStore`.  The source redundantly stores `page_size_*` and
`mask_*` alongside `bits_*`; `PagedBlockStore::new` always derives them
as `2 ^ bits` and `2 ^ bits - 1`, so only the bit counts are kept and
the sizes/masks are recomputed. -/
structure PagedBlockStore : Type where
  pages : List (Int × ArrayPage)
  palette : List BlockState
  bits_x : Nat
  bits_y : Nat
  bits_z : Nat
  boundary : Boundary
  fixedSize : Bool
deriving DecidableEq, Repr

/-- The packed page key
`((page_x as i64) << 40) | ((page_y as i64) << 20) | (page_z as i64)`. -/
def PagedBlockStore.pageKey (s : PagedBlockStore) (pos : BlockPosition) : Int :=
  let px := u32OfInt pos.x >>> s.bits_x
  let py := u32OfInt pos.y >>> s.bits_y
  let pz := u32OfInt pos.z >>> s.bits_z
  i64OfNat ((px <<< 40) % 2 ^ 64 ||| (py <<< 20) % 2 ^ 64 ||| pz)

/-- `(pos.x as u32) & self.mask_x`. -/
def PagedBlockStore.localX (s : PagedBlockStore) (pos : BlockPosition) : Nat :=
  u32OfInt pos.x &&& (2 ^ s.bits_x - 1)

def PagedBlockStore.localY (s : PagedBlockStore) (pos : BlockPosition) : Nat :=
  u32OfInt pos.y &&& (2 ^ s.bits_y - 1)

def PagedBlockStore.localZ (s : PagedBlockStore) (pos : BlockPosition) : Nat :=
  u32OfInt pos.z &&& (2 ^ s.bits_z - 1)

/-- `PagedBlockStore::block_at`. -/
def PagedBlockStore.block_at (s : PagedBlockStore) (pos : BlockPosition) :
    Except Str (Option BlockState) :=
  if ¬ s.boundary.containsPos pos then .error (str ("Position out of bounds"))
  else
    match s.pages.find? (fun e => e.1 == s.pageKey pos) with
    | none => .ok none
    | some e =>
      match e.2.load (s.localX pos) (s.localY pos) (s.localZ pos) with
      | some index => .ok (s.palette.get? index)
      | none => .ok none

/-- `PagedBlockStore::set_block_at` (state-passing, see
`SparseBlockStore.set_block_at`).  The page key, locals and palette
lookup only read fields the boundary update does not touch, so they are
computed from `s` directly. -/
def PagedBlockStore.set_block_at (s : PagedBlockStore) (pos : BlockPosition)
    (st : BlockState) : Except Str Unit × PagedBlockStore :=
  match expandOrThrow s.boundary (!s.fixedSize) pos with
  | .error e => (.error e, s)
  | .ok bdry =>
    let key := s.pageKey pos
    let index := (getOrAddPaletteIndex s.palette st).1
    let pal := (getOrAddPaletteIndex s.palette st).2
    let page := match s.pages.find? (fun e => e.1 == key) with
      | some e => e.2
      | none => ArrayPage.new (2 ^ s.bits_x) (2 ^ s.bits_y) (2 ^ s.bits_z) .XYZ
    match page.store (s.localX pos) (s.localY pos) (s.localZ pos) index with
    | .error e => (.error e, { s with boundary := bdry, palette := pal })
    | .ok page' =>
      (.ok (), { s with boundary := bdry, palette := pal,
                        pages := assocSet s.pages key page' })

/-- `PagedBlockStore::remove_block_at` (state-passing). -/
def PagedBlockStore.remove_block_at (s : PagedBlockStore) (pos : BlockPosition) :
    Except Str Unit × PagedBlockStore :=
  match expandOrThrow s.boundary (!s.fixedSize) pos with
  | .error e => (.error e, s)
  | .ok bdry =>
    match s.pages.find? (fun e => e.1 == s.pageKey pos) with
    | none => (.ok (), { s with boundary := bdry })
    | some e =>
      match e.2.erase (s.localX pos) (s.localY pos) (s.localZ pos) with
      | .error er => (.error er, { s with boundary := bdry })
      | .ok page' =>
        (.ok (), { s with boundary := bdry,
                          pages := assocSet s.pages (s.pageKey pos) page' })

/-! ### Claim C8: out-of-boundary writes -/

theorem mixed3_lt {a b c na nb nc : Nat} (ha : a < na) (hb : b < nb) (hc : c < nc) :
    a + b * na + c * (na * nb) < na * nb * nc := by
  have h1 : a + b * na < (b + 1) * na := by
    rw [Nat.add_mul, Nat.one_mul]; omega
  have h2 : (b + 1) * na ≤ nb * na := Nat.mul_le_mul_right na hb
  have h3 : a + b * na + c * (na * nb) < na * nb + c * (na * nb) := by
    have : nb * na = na * nb := Nat.mul_comm nb na
    omega
  calc a + b * na + c * (na * nb) < (c + 1) * (na * nb) := by
        rw [Nat.add_mul, Nat.one_mul]; omega
    _ ≤ nc * (na * nb) := Nat.mul_le_mul_right _ hc
    _ = na * nb * nc := by ring

/-- For a page with in-range local coordinates, `ArrayPage::index`
returns an index. -/
theorem pageIndex_some (p : ArrayPage) (x y z : Nat)
    (hx : x < p.size_x) (hy : y < p.size_y) (hz : z < p.size_z) :
    ∃ idx, p.pageIndex (x : Int) (y : Int) (z : Int) = some idx := by
  have hax := mixed3_lt hx hy hz
  have hab := mixed3_lt hx hz hy
  have hba := mixed3_lt hy hx hz
  have hbc := mixed3_lt hy hz hx
  have hca := mixed3_lt hz hx hy
  have hcb := mixed3_lt hz hy hx
  zify at hax hab hba hbc hca hcb
  cases ho : p.axisOrder <;>
    · simp only [ArrayPage.pageIndex, ho]
      rw [if_neg (by push_neg; exact ⟨by positivity, by linarith⟩)]
      exact ⟨_, rfl⟩

/-- For a page with positive dimensions, `ArrayPage::store` at in-range
local coordinates always succeeds. -/
theorem store_ok_of_local (p : ArrayPage) (x y z : Nat)
    (hx : x < p.size_x) (hy : y < p.size_y) (hz : z < p.size_z) (st : Nat) :
    ∃ p', p.store (x : Int) (y : Int) (z : Int) st = .ok p' := by
  obtain ⟨idx, hidx⟩ := pageIndex_some p x y z hx hy hz
  rw [ArrayPage.store, hidx]
  exact ⟨_, rfl⟩

theorem localX_lt (s : PagedBlockStore) (pos : BlockPosition) :
    s.localX pos < 2 ^ s.bits_x := by
  rw [PagedBlockStore.localX, Nat.and_pow_two_sub_one_eq_mod]
  exact Nat.mod_lt _ (Nat.pos_pow_of_pos _ (by omega))

theorem localY_lt (s : PagedBlockStore) (pos : BlockPosition) :
    s.localY pos < 2 ^ s.bits_y := by
  rw [PagedBlockStore.localY, Nat.and_pow_two_sub_one_eq_mod]
  exact Nat.mod_lt _ (Nat.pos_pow_of_pos _ (by omega))

theorem localZ_lt (s : PagedBlockStore) (pos : BlockPosition) :
    s.localZ pos < 2 ^ s.bits_z := by
  rw [PagedBlockStore.localZ, Nat.and_pow_two_sub_one_eq_mod]
  exact Nat.mod_lt _ (Nat.pos_pow_of_pos _ (by omega))

theorem expandOrThrow_fixed {bdry : Boundary} {pos : BlockPosition}
    (h : ¬ bdry.containsPos pos) :
    expandOrThrow bdry false pos =
      .error (str ("Position out of bounds and store is not resizable")) := by
  rw [expandOrThrow, if_pos ⟨rfl, h⟩]

theorem expandOrThrow_cap {bdry : Boundary} {pos : BlockPosition}
    (h : ¬ bdry.containsPos pos)
    (hcap : 1024 < (bdry.expandToInclude pos).d_x ∨
      1024 < (bdry.expandToInclude pos).d_y ∨ 1024 < (bdry.expandToInclude pos).d_z) :
    expandOrThrow bdry true pos =
      .error (str ("Cannot expand boundary beyond 1024 in any dimension")) := by
  rw [expandOrThrow, if_neg (by simp), if_pos h, if_pos hcap]

theorem expandOrThrow_grow {bdry : Boundary} {pos : BlockPosition}
    (h : ¬ bdry.containsPos pos)
    (hcap : ¬ (1024 < (bdry.expandToInclude pos).d_x ∨
      1024 < (bdry.expandToInclude pos).d_y ∨ 1024 < (bdry.expandToInclude pos).d_z)) :
    expandOrThrow bdry true pos = .ok (bdry.expandToInclude pos) := by
  rw [expandOrThrow, if_neg (by simp), if_pos h, if_neg hcap]

/-- C8 (confirmed): for both store flavours, `set_block_at` at a position
outside the current boundary (i) fails and leaves the store untouched
when the store is not resizable; (ii) when resizable, fails and leaves
the store untouched if some axis of the expanded boundary would exceed
1024; (iii) otherwise succeeds with the boundary expanded to include the
position.  For the paged store, the pages are assumed to have the page
dimensions the store's constructor gives them. -/
theorem C8_out_of_bounds_writes :
    (∀ (s : SparseBlockStore) (pos : BlockPosition) (st : BlockState),
      ¬ s.boundary.containsPos pos →
      (s.fixedSize = true →
        s.set_block_at pos st =
          (.error (str ("Position out of bounds and store is not resizable")), s)) ∧
      (s.fixedSize = false →
        (1024 < (s.boundary.expandToInclude pos).d_x ∨
            1024 < (s.boundary.expandToInclude pos).d_y ∨
            1024 < (s.boundary.expandToInclude pos).d_z →
          s.set_block_at pos st =
            (.error (str ("Cannot expand boundary beyond 1024 in any dimension")), s)) ∧
        (¬ (1024 < (s.boundary.expandToInclude pos).d_x ∨
            1024 < (s.boundary.expandToInclude pos).d_y ∨
            1024 < (s.boundary.expandToInclude pos).d_z) →
          ∃ s', s.set_block_at pos st = (.ok (), s') ∧
            s'.boundary = s.boundary.expandToInclude pos ∧
            s'.boundary.containsPos pos))) ∧
    (∀ (s : PagedBlockStore) (pos : BlockPosition) (st : BlockState),
      (∀ e ∈ s.pages, e.2.size_x = 2 ^ s.bits_x ∧ e.2.size_y = 2 ^ s.bits_y ∧
        e.2.size_z = 2 ^ s.bits_z) →
      ¬ s.boundary.containsPos pos →
      (s.fixedSize = true →
        s.set_block_at pos st =
          (.error (str ("Position out of bounds and store is not resizable")), s)) ∧
      (s.fixedSize = false →
        (1024 < (s.boundary.expandToInclude pos).d_x ∨
            1024 < (s.boundary.expandToInclude pos).d_y ∨
            1024 < (s.boundary.expandToInclude pos).d_z →
          s.set_block_at pos st =
            (.error (str ("Cannot expand boundary beyond 1024 in any dimension")), s)) ∧
        (¬ (1024 < (s.boundary.expandToInclude pos).d_x ∨
            1024 < (s.boundary.expandToInclude pos).d_y ∨
            1024 < (s.boundary.expandToInclude pos).d_z) →
          ∃ s', s.set_block_at pos st = (.ok (), s') ∧
            s'.boundary = s.boundary.expandToInclude pos ∧
            s'.boundary.containsPos pos))) := by
  constructor
  · intro s pos st hout
    refine ⟨fun hf => ?_, fun hf => ⟨fun hcap => ?_, fun hcap => ?_⟩⟩
    · rw [SparseBlockStore.set_block_at, hf]
      rw [show (!true) = false from rfl, expandOrThrow_fixed hout]
    · rw [SparseBlockStore.set_block_at, hf]
      rw [show (!false) = true from rfl, expandOrThrow_cap hout hcap]
    · rw [SparseBlockStore.set_block_at, hf]
      rw [show (!false) = true from rfl, expandOrThrow_grow hout hcap]
      exact ⟨_, rfl, rfl, expandToInclude_contains s.boundary pos⟩
  · intro s pos st hpages hout
    refine ⟨fun hf => ?_, fun hf => ⟨fun hcap => ?_, fun hcap => ?_⟩⟩
    · rw [PagedBlockStore.set_block_at, hf]
      rw [show (!true) = false from rfl, expandOrThrow_fixed hout]
    · rw [PagedBlockStore.set_block_at, hf]
      rw [show (!false) = true from rfl, expandOrThrow_cap hout hcap]
    · rw [PagedBlockStore.set_block_at, hf]
      rw [show (!false) = true from rfl, expandOrThrow_grow hout hcap]
      simp only
      have hsz : ∀ pg : ArrayPage,
          (pg = match s.pages.find? (fun e => e.1 == s.pageKey pos) with
                | some e => e.2
                | none => ArrayPage.new (2 ^ s.bits_x) (2 ^ s.bits_y) (2 ^ s.bits_z) .XYZ) →
          pg.size_x = 2 ^ s.bits_x ∧ pg.size_y = 2 ^ s.bits_y ∧ pg.size_z = 2 ^ s.bits_z := by
        intro pg hpg
        rcases hfind : s.pages.find? (fun e => e.1 == s.pageKey pos) with _ | e
        · rw [hfind] at hpg
          simp [hpg, ArrayPage.new]
        · rw [hfind] at hpg
          exact hpg ▸ hpages e (List.mem_of_find?_eq_some hfind)
      obtain ⟨hsx, hsy, hsz'⟩ := hsz _ rfl
      obtain ⟨p', hp'⟩ := store_ok_of_local _ (s.localX pos) (s.localY pos) (s.localZ pos)
        (by rw [hsx]; exact localX_lt s pos)
        (by rw [hsy]; exact localY_lt s pos)
        (by rw [hsz']; exact localZ_lt s pos)
        (getOrAddPaletteIndex s.palette st).1
      rw [hp']
      exact ⟨_, rfl, rfl, expandToInclude_contains s.boundary pos⟩

/-- C8 witness: the theorem applied to concrete sparse and paged stores,
discharging every hypothesis at concrete inputs. -/
theorem C8_witness :
    (SparseBlockStore.set_block_at ⟨[], [], ⟨0, 0, 0, 2, 2, 2⟩, true⟩ ⟨5, 0, 0⟩
        BlockState.air =
      (.error (str ("Position out of bounds and store is not resizable")),
        ⟨[], [], ⟨0, 0, 0, 2, 2, 2⟩, true⟩)) ∧
    (PagedBlockStore.set_block_at ⟨[], [], 3, 3, 3, ⟨0, 0, 0, 1024, 1, 1⟩, false⟩
        ⟨1024, 0, 0⟩ BlockState.air =
      (.error (str ("Cannot expand boundary beyond 1024 in any dimension")),
        ⟨[], [], 3, 3, 3, ⟨0, 0, 0, 1024, 1, 1⟩, false⟩)) ∧
    (∃ s', PagedBlockStore.set_block_at ⟨[], [], 3, 3, 3, ⟨0, 0, 0, 2, 2, 2⟩, false⟩
        ⟨5, 0, 0⟩ BlockState.air = (.ok (), s') ∧
      s'.boundary = Boundary.expandToInclude ⟨0, 0, 0, 2, 2, 2⟩ ⟨5, 0, 0⟩ ∧
      s'.boundary.containsPos ⟨5, 0, 0⟩) :=
  ⟨(C8_out_of_bounds_writes.1 ⟨[], [], ⟨0, 0, 0, 2, 2, 2⟩, true⟩ ⟨5, 0, 0⟩
      BlockState.air (by decide)).1 rfl,
   ((C8_out_of_bounds_writes.2 ⟨[], [], 3, 3, 3, ⟨0, 0, 0, 1024, 1, 1⟩, false⟩ ⟨1024, 0, 0⟩
      BlockState.air (by intro e he; cases he) (by decide)).2 rfl).1 (by decide),
   ((C8_out_of_bounds_writes.2 ⟨[], [], 3, 3, 3, ⟨0, 0, 0, 2, 2, 2⟩, false⟩ ⟨5, 0, 0⟩
      BlockState.air (by intro e he; cases he) (by decide)).2 rfl).2 (by decide)⟩

/-! ### Claim C10: `remove_block_at` on an empty in-bounds cell -/

theorem expandOrThrow_contains {bdry : Boundary} {pos : BlockPosition} (r : Bool)
    (h : bdry.containsPos pos) :
    expandOrThrow bdry r pos = .ok bdry := by
  rw [expandOrThrow, if_neg (by simp [h]), if_neg (by simp [h])]

/-- C10 (confirmed): `remove_block_at` at an in-bounds position holding
no block returns `Ok(())` when no page covers the position, but returns
an error (`ArrayPage::erase` on a zero cell) when the covering page has
already been allocated.  Pages are assumed to have the dimensions the
store's constructor gives them. -/
theorem C10_remove_empty_cell :
    (∀ (s : PagedBlockStore) (pos : BlockPosition),
      s.boundary.containsPos pos →
      s.pages.find? (fun e => e.1 == s.pageKey pos) = none →
      s.remove_block_at pos = (.ok (), s)) ∧
    (∀ (s : PagedBlockStore) (pos : BlockPosition) (e : Int × ArrayPage),
      s.boundary.containsPos pos →
      s.pages.find? (fun e => e.1 == s.pageKey pos) = some e →
      e.2.size_x = 2 ^ s.bits_x → e.2.size_y = 2 ^ s.bits_y → e.2.size_z = 2 ^ s.bits_z →
      e.2.load (s.localX pos) (s.localY pos) (s.localZ pos) = none →
      s.remove_block_at pos =
        (.error (str ("No block to erase at given coordinates")), s)) := by
  constructor
  · intro s pos hin hfind
    rw [PagedBlockStore.remove_block_at, expandOrThrow_contains _ hin]
    simp only [hfind]
  · intro s pos e hin hfind hsx hsy hsz hload
    rw [PagedBlockStore.remove_block_at, expandOrThrow_contains _ hin]
    simp only [hfind]
    obtain ⟨idx, hidx⟩ := pageIndex_some e.2 (s.localX pos) (s.localY pos) (s.localZ pos)
      (by rw [hsx]; exact localX_lt s pos)
      (by rw [hsy]; exact localY_lt s pos)
      (by rw [hsz]; exact localZ_lt s pos)
    rw [ArrayPage.load, hidx] at hload
    have hload2 : (match e.2.data.getD idx 0 with
        | 0 => (none : Option Nat)
        | Nat.succ st => some st) = none := hload
    have hzero : e.2.data.getD idx 0 = 0 := by
      rcases hv : e.2.data.getD idx 0 with _ | v
      · rfl
      · rw [hv] at hload2; simp at hload2
    rw [ArrayPage.erase, hidx]
    simp only [hzero]
    rfl

/-- C10 witness: the theorem applied to two concrete stores. -/
theorem C10_witness :
    PagedBlockStore.remove_block_at ⟨[], [], 0, 0, 0, ⟨0, 0, 0, 1, 1, 1⟩, true⟩ ⟨0, 0, 0⟩ =
      (.ok (), ⟨[], [], 0, 0, 0, ⟨0, 0, 0, 1, 1, 1⟩, true⟩) ∧
    PagedBlockStore.remove_block_at
        ⟨[(0, ⟨1, 1, 1, .XYZ, [0], 0⟩)], [], 0, 0, 0, ⟨0, 0, 0, 1, 1, 1⟩, true⟩ ⟨0, 0, 0⟩ =
      (.error (str ("No block to erase at given coordinates")),
        ⟨[(0, ⟨1, 1, 1, .XYZ, [0], 0⟩)], [], 0, 0, 0, ⟨0, 0, 0, 1, 1, 1⟩, true⟩) :=
  ⟨C10_remove_empty_cell.1 ⟨[], [], 0, 0, 0, ⟨0, 0, 0, 1, 1, 1⟩, true⟩ ⟨0, 0, 0⟩
      (by decide) (by decide),
   C10_remove_empty_cell.2
      ⟨[(0, ⟨1, 1, 1, .XYZ, [0], 0⟩)], [], 0, 0, 0, ⟨0, 0, 0, 1, 1, 1⟩, true⟩ ⟨0, 0, 0⟩
      (0, ⟨1, 1, 1, .XYZ, [0], 0⟩)
      (by decide) (by decide) (by decide) (by decide) (by decide) (by decide)⟩

/-! ### Boundary iterator (`common.rs` lines 781-886) -/

/-- `BoundaryIterator`. -/
structure BIter : Type where
  boundary : Boundary
  axisOrder : AxisOrder
  current : BlockPosition
  done : Bool
deriving DecidableEq, Repr

/-- `Boundary::iter` (`impl Region for Boundary`). -/
def iterInit (b : Boundary) (o : AxisOrder) : BIter :=
  ⟨b, o, ⟨b.min_x, b.min_y, b.min_z⟩, false⟩

/-- `BoundaryIterator::next`, with the carry loop over the remaining two
axes unrolled: the loop runs over `[a1, a0]` and `last_axis` is `a0`
(so the `axis == last_axis` test in the first round compares `a1` with
`a0`, which never match, but the test is kept faithfully). -/
def iterNext (s : BIter) : Option BlockPosition × BIter :=
  if s.done then (none, s)
  else
    let result := s.current
    let a0 := s.axisOrder.axisTriple.1
    let a1 := s.axisOrder.axisTriple.2.1
    let a2 := s.axisOrder.axisTriple.2.2
    let nextVal := s.current.select a2 + 1
    if nextVal ≤ s.boundary.selectMax a2 then
      (some result, { s with current := s.current.selectSet a2 nextVal })
    else
      let cur1 := s.current.selectSet a2 (s.boundary.selectMin a2)
      let n1 := cur1.select a1 + 1
      if n1 ≤ s.boundary.selectMax a1 then
        (some result, { s with current := cur1.selectSet a1 n1 })
      else if a1 = a0 then
        (some result, { s with current := cur1, done := true })
      else
        let cur2 := cur1.selectSet a1 (s.boundary.selectMin a1)
        let n0 := cur2.select a0 + 1
        if n0 ≤ s.boundary.selectMax a0 then
          (some result, { s with current := cur2.selectSet a0 n0 })
        else
          (some result, { s with current := cur2, done := true })

/-- `BoundaryIterator::nth`: the O(1) mixed-radix skip.  `usize`
arithmetic is wrapped mod `2^64`; a division by a zero stride (possible
only for zero-extent axes, where the source would panic) is Nat
division. -/
def iterNth (s : BIter) (n : Nat) : Option BlockPosition × BIter :=
  if s.done then (none, s)
  else
    let a0 := s.axisOrder.axisTriple.1
    let a1 := s.axisOrder.axisTriple.2.1
    let a2 := s.axisOrder.axisTriple.2.2
    let min0 := s.boundary.selectMin a0
    let min1 := s.boundary.selectMin a1
    let min2 := s.boundary.selectMin a2
    let len0 := usizeOfInt (s.boundary.selectMax a0 - min0 + 1)
    let len1 := usizeOfInt (s.boundary.selectMax a1 - min1 + 1)
    let len2 := usizeOfInt (s.boundary.selectMax a2 - min2 + 1)
    let stride1 := 1 * len2 % 2 ^ 64
    let stride0 := stride1 * len1 % 2 ^ 64
    let totalSize := stride0 * len0 % 2 ^ 64
    let currentIndex :=
      (usizeOfInt (s.current.select a0 - min0) * stride0 +
        usizeOfInt (s.current.select a1 - min1) * stride1 +
        usizeOfInt (s.current.select a2 - min2) * 1) % 2 ^ 64
    let targetIndex := (currentIndex + n) % 2 ^ 64
    if totalSize ≤ targetIndex then (none, { s with done := true })
    else
      let reconstruct := fun (idx : Nat) =>
        let c0 := idx / stride0
        let r0 := idx % stride0
        let c1 := r0 / stride1
        let r1 := r0 % stride1
        let c2 := r1 / 1
        ((s.current.selectSet a0 (i32OfNat c0 + min0)).selectSet a1
          (i32OfNat c1 + min1)).selectSet a2 (i32OfNat c2 + min2)
      let result := reconstruct targetIndex
      if totalSize ≤ targetIndex + 1 then (some result, { s with done := true })
      else (some result, { s with current := reconstruct (targetIndex + 1) })

/-- Output list of the first `fuel` calls to `next`. -/
def iterList (s : BIter) : Nat → List BlockPosition
| 0 => []
| fuel + 1 =>
  match iterNext s with
  | (none, _) => []
  | (some p, s') => p :: iterList s' fuel

/-- Iterator state after `n` calls to `next`. -/
def iterSteps (s : BIter) : Nat → BIter
| 0 => s
| n + 1 => iterSteps (iterNext s).2 n

/-- Observational equivalence of iterator states: once `done` is set the
`current` field is never read again. -/
def iterEquiv (s t : BIter) : Prop :=
  s.boundary = t.boundary ∧ s.axisOrder = t.axisOrder ∧ s.done = t.done ∧
    (s.done = false → s.current = t.current)

/-! ### Mixed-radix view of the traversal -/

/-- Extent of the boundary along one axis. -/
def dimOf (b : Boundary) : Axis → Int
| .X => b.d_x
| .Y => b.d_y
| .Z => b.d_z

/-- The position whose coordinates along `o.axisTriple` are
`(v0, v1, v2)` (outermost first). -/
def mkPosOrd (o : AxisOrder) (v0 v1 v2 : Int) : BlockPosition :=
  match o with
  | .XYZ => ⟨v0, v1, v2⟩
  | .XZY => ⟨v0, v2, v1⟩
  | .YXZ => ⟨v1, v0, v2⟩
  | .YZX => ⟨v2, v0, v1⟩
  | .ZXY => ⟨v1, v2, v0⟩
  | .ZYX => ⟨v2, v1, v0⟩

/-- The `k`-th position of the traversal of `b` in order `o` (innermost
axis fastest): the mixed-radix digits of `k` offset by the minima. -/
def posAt (b : Boundary) (o : AxisOrder) (k : Nat) : BlockPosition :=
  let n1 := (dimOf b o.axisTriple.2.1).toNat
  let n2 := (dimOf b o.axisTriple.2.2).toNat
  mkPosOrd o
    (b.selectMin o.axisTriple.1 + (k / n2 / n1 : Nat))
    (b.selectMin o.axisTriple.2.1 + (k / n2 % n1 : Nat))
    (b.selectMin o.axisTriple.2.2 + (k % n2 : Nat))

theorem select_mkPosOrd_a0 (o : AxisOrder) (v0 v1 v2 : Int) :
    (mkPosOrd o v0 v1 v2).select o.axisTriple.1 = v0 := by
  cases o <;> rfl

theorem select_mkPosOrd_a1 (o : AxisOrder) (v0 v1 v2 : Int) :
    (mkPosOrd o v0 v1 v2).select o.axisTriple.2.1 = v1 := by
  cases o <;> rfl

theorem select_mkPosOrd_a2 (o : AxisOrder) (v0 v1 v2 : Int) :
    (mkPosOrd o v0 v1 v2).select o.axisTriple.2.2 = v2 := by
  cases o <;> rfl

theorem selectSet_mkPosOrd_a0 (o : AxisOrder) (v0 v1 v2 w : Int) :
    (mkPosOrd o v0 v1 v2).selectSet o.axisTriple.1 w = mkPosOrd o w v1 v2 := by
  cases o <;> rfl

theorem selectSet_mkPosOrd_a1 (o : AxisOrder) (v0 v1 v2 w : Int) :
    (mkPosOrd o v0 v1 v2).selectSet o.axisTriple.2.1 w = mkPosOrd o v0 w v2 := by
  cases o <;> rfl

theorem selectSet_mkPosOrd_a2 (o : AxisOrder) (v0 v1 v2 w : Int) :
    (mkPosOrd o v0 v1 v2).selectSet o.axisTriple.2.2 w = mkPosOrd o v0 v1 w := by
  cases o <;> rfl

theorem mkPosOrd_min (b : Boundary) (o : AxisOrder) :
    mkPosOrd o (b.selectMin o.axisTriple.1) (b.selectMin o.axisTriple.2.1)
      (b.selectMin o.axisTriple.2.2) = ⟨b.min_x, b.min_y, b.min_z⟩ := by
  cases o <;> rfl

theorem mkPosOrd_inj (o : AxisOrder) {v0 v1 v2 w0 w1 w2 : Int}
    (h : mkPosOrd o v0 v1 v2 = mkPosOrd o w0 w1 w2) : v0 = w0 ∧ v1 = w1 ∧ v2 = w2 := by
  cases o <;> · simp only [mkPosOrd, BlockPosition.mk.injEq] at h; tauto

theorem selectMax_eq (b : Boundary) (a : Axis) :
    b.selectMax a = b.selectMin a + dimOf b a - 1 := by
  cases a <;> rfl

theorem dimOf_prod (b : Boundary) (o : AxisOrder) :
    dimOf b o.axisTriple.1 * dimOf b o.axisTriple.2.1 * dimOf b o.axisTriple.2.2 =
      b.d_x * b.d_y * b.d_z := by
  cases o <;> simp only [AxisOrder.axisTriple, dimOf] <;> ring

/-- The generic single-step characterisation of `BoundaryIterator::next`
in axis-order coordinates. -/
theorem iterNext_mk (b : Boundary) (o : AxisOrder) (i j l : Int) :
    iterNext ⟨b, o, mkPosOrd o i j l, false⟩ =
      if l + 1 ≤ b.selectMax o.axisTriple.2.2 then
        (some (mkPosOrd o i j l), ⟨b, o, mkPosOrd o i j (l + 1), false⟩)
      else if j + 1 ≤ b.selectMax o.axisTriple.2.1 then
        (some (mkPosOrd o i j l),
          ⟨b, o, mkPosOrd o i (j + 1) (b.selectMin o.axisTriple.2.2), false⟩)
      else if i + 1 ≤ b.selectMax o.axisTriple.1 then
        (some (mkPosOrd o i j l),
          ⟨b, o, mkPosOrd o (i + 1) (b.selectMin o.axisTriple.2.1)
            (b.selectMin o.axisTriple.2.2), false⟩)
      else
        (some (mkPosOrd o i j l),
          ⟨b, o, mkPosOrd o i (b.selectMin o.axisTriple.2.1)
            (b.selectMin o.axisTriple.2.2), true⟩) := by
  cases o <;>
    simp only [iterNext, AxisOrder.axisTriple, mkPosOrd, BlockPosition.select,
      BlockPosition.selectSet, Boundary.selectMax, Boundary.selectMin,
      if_false, Bool.false_eq_true, reduceCtorEq, reduceIte]

/-- Outermost, middle and innermost extents as naturals. -/
def dim0 (b : Boundary) (o : AxisOrder) : Nat := (dimOf b o.axisTriple.1).toNat

def dim1 (b : Boundary) (o : AxisOrder) : Nat := (dimOf b o.axisTriple.2.1).toNat

def dim2 (b : Boundary) (o : AxisOrder) : Nat := (dimOf b o.axisTriple.2.2).toNat

theorem digits_of_decomp {n1 n2 : Nat} (i : Nat) {j l : Nat} (hj : j < n1) (hl : l < n2) :
    ((i * n1 + j) * n2 + l) % n2 = l ∧
    ((i * n1 + j) * n2 + l) / n2 / n1 = i ∧
    ((i * n1 + j) * n2 + l) / n2 % n1 = j := by
  have h2 : 0 < n2 := by omega
  have h1 : 0 < n1 := by omega
  have hdiv : ((i * n1 + j) * n2 + l) / n2 = i * n1 + j := by
    rw [Nat.add_comm, Nat.add_mul_div_right _ _ h2, Nat.div_eq_of_lt hl, Nat.zero_add]
  have hmod : ((i * n1 + j) * n2 + l) % n2 = l := by
    rw [Nat.add_comm, Nat.add_mul_mod_self_right, Nat.mod_eq_of_lt hl]
  refine ⟨hmod, ?_, ?_⟩
  · rw [hdiv, Nat.add_comm, Nat.add_mul_div_right _ _ h1, Nat.div_eq_of_lt hj,
      Nat.zero_add]
  · rw [hdiv, Nat.add_comm, Nat.add_mul_mod_self_right, Nat.mod_eq_of_lt hj]

theorem digits_lt_N {n0 n1 n2 i j l : Nat} (hi : i < n0) (hj : j < n1) (hl : l < n2) :
    (i * n1 + j) * n2 + l < n0 * n1 * n2 := by
  have h := mixed3_lt hl hj hi
  calc (i * n1 + j) * n2 + l = l + j * n2 + i * (n2 * n1) := by ring
    _ < n2 * n1 * n0 := h
    _ = n0 * n1 * n2 := by ring

theorem k_decomp (n1 n2 k : Nat) :
    k = (k / n2 / n1 * n1 + k / n2 % n1) * n2 + k % n2 := by
  have d1 := Nat.div_add_mod k n2
  have d2 := Nat.div_add_mod (k / n2) n1
  calc k = n2 * (k / n2) + k % n2 := d1.symm
    _ = n2 * (n1 * (k / n2 / n1) + k / n2 % n1) + k % n2 := by rw [d2]
    _ = (k / n2 / n1 * n1 + k / n2 % n1) * n2 + k % n2 := by ring

/-- Single-step characterisation of `next` on the `k`-th traversal
position (positive extents). -/
theorem posAt_step (b : Boundary) (o : AxisOrder)
    (h0 : 0 < dimOf b o.axisTriple.1) (h1 : 0 < dimOf b o.axisTriple.2.1)
    (h2 : 0 < dimOf b o.axisTriple.2.2)
    (k : Nat) (hk : k < dim0 b o * dim1 b o * dim2 b o) :
    iterNext ⟨b, o, posAt b o k, false⟩ =
      (some (posAt b o k),
        if k + 1 < dim0 b o * dim1 b o * dim2 b o then ⟨b, o, posAt b o (k + 1), false⟩
        else ⟨b, o, mkPosOrd o
          (b.selectMin o.axisTriple.1 + ((k / dim2 b o / dim1 b o : Nat) : Int))
          (b.selectMin o.axisTriple.2.1) (b.selectMin o.axisTriple.2.2), true⟩) := by
  have hd0 : dimOf b o.axisTriple.1 = (dim0 b o : Int) :=
    (Int.toNat_of_nonneg h0.le).symm
  have hd1 : dimOf b o.axisTriple.2.1 = (dim1 b o : Int) :=
    (Int.toNat_of_nonneg h1.le).symm
  have hd2 : dimOf b o.axisTriple.2.2 = (dim2 b o : Int) :=
    (Int.toNat_of_nonneg h2.le).symm
  have hn0 : 0 < dim0 b o := by rw [hd0] at h0; exact_mod_cast h0
  have hn1 : 0 < dim1 b o := by rw [hd1] at h1; exact_mod_cast h1
  have hn2 : 0 < dim2 b o := by rw [hd2] at h2; exact_mod_cast h2
  set n0 := dim0 b o with hn0def
  set n1 := dim1 b o with hn1def
  set n2 := dim2 b o with hn2def
  set i := k / n2 / n1 with hidef
  set j := k / n2 % n1 with hjdef
  set l := k % n2 with hldef
  have hl : l < n2 := Nat.mod_lt _ hn2
  have hj : j < n1 := Nat.mod_lt _ hn1
  have hi : i < n0 := by
    rw [hidef, Nat.div_div_eq_div_mul]
    rw [Nat.div_lt_iff_lt_mul (Nat.mul_pos hn2 hn1)]
    calc k < n0 * n1 * n2 := hk
      _ = n0 * (n2 * n1) := by ring
  have hdec : k = (i * n1 + j) * n2 + l := k_decomp n1 n2 k
  have hposk : posAt b o k = mkPosOrd o
      (b.selectMin o.axisTriple.1 + (i : Int))
      (b.selectMin o.axisTriple.2.1 + (j : Int))
      (b.selectMin o.axisTriple.2.2 + (l : Int)) := rfl
  rw [hposk, iterNext_mk]
  have hc2 : (b.selectMin o.axisTriple.2.2 + (l : Int) + 1 ≤
      b.selectMax o.axisTriple.2.2) ↔ l + 1 < n2 := by
    rw [selectMax_eq, hd2]; omega
  by_cases hA : l + 1 < n2
  · rw [if_pos (hc2.mpr hA)]
    have hk1 : k + 1 = (i * n1 + j) * n2 + (l + 1) := by omega
    have hlt : k + 1 < n0 * n1 * n2 := hk1 ▸ digits_lt_N hi hj hA
    rw [if_pos hlt]
    obtain ⟨e1, e2, e3⟩ := digits_of_decomp i hj hA
    have : posAt b o (k + 1) = mkPosOrd o
        (b.selectMin o.axisTriple.1 + (i : Int))
        (b.selectMin o.axisTriple.2.1 + (j : Int))
        (b.selectMin o.axisTriple.2.2 + ((l + 1 : Nat) : Int)) := by
      rw [posAt]
      rw [hk1]
      rw [show (dimOf b o.axisTriple.2.2).toNat = n2 from rfl,
        show (dimOf b o.axisTriple.2.1).toNat = n1 from rfl, e1, e2, e3]
    rw [this]
    push_cast
    ring_nf
  · rw [if_neg (fun hcon => hA (hc2.mp hcon))]
    have hl1 : l + 1 = n2 := by omega
    have hc1 : (b.selectMin o.axisTriple.2.1 + (j : Int) + 1 ≤
        b.selectMax o.axisTriple.2.1) ↔ j + 1 < n1 := by
      rw [selectMax_eq, hd1]; omega
    by_cases hB : j + 1 < n1
    · rw [if_pos (hc1.mpr hB)]
      have hk1 : k + 1 = (i * n1 + (j + 1)) * n2 + 0 := by
        calc k + 1 = (i * n1 + j) * n2 + n2 := by omega
          _ = (i * n1 + (j + 1)) * n2 + 0 := by ring
      have hlt : k + 1 < n0 * n1 * n2 := hk1 ▸ digits_lt_N hi hB hn2
      rw [if_pos hlt]
      obtain ⟨e1, e2, e3⟩ := digits_of_decomp i hB hn2
      have : posAt b o (k + 1) = mkPosOrd o
          (b.selectMin o.axisTriple.1 + (i : Int))
          (b.selectMin o.axisTriple.2.1 + ((j + 1 : Nat) : Int))
          (b.selectMin o.axisTriple.2.2 + ((0 : Nat) : Int)) := by
        rw [posAt, hk1]
        rw [show (dimOf b o.axisTriple.2.2).toNat = n2 from rfl,
          show (dimOf b o.axisTriple.2.1).toNat = n1 from rfl, e1, e2, e3]
      rw [this]
      push_cast
      ring_nf
    · rw [if_neg (fun hcon => hB (hc1.mp hcon))]
      have hj1 : j + 1 = n1 := by omega
      have hc0 : (b.selectMin o.axisTriple.1 + (i : Int) + 1 ≤
          b.selectMax o.axisTriple.1) ↔ i + 1 < n0 := by
        rw [selectMax_eq, hd0]; omega
      by_cases hC : i + 1 < n0
      · rw [if_pos (hc0.mpr hC)]
        have hk1 : k + 1 = ((i + 1) * n1 + 0) * n2 + 0 := by
          calc k + 1 = (i * n1 + j) * n2 + n2 := by omega
            _ = (i * n1 + (j + 1)) * n2 := by ring
            _ = (i * n1 + n1) * n2 := by rw [hj1]
            _ = ((i + 1) * n1 + 0) * n2 + 0 := by ring
        have hlt : k + 1 < n0 * n1 * n2 := hk1 ▸ digits_lt_N hC hn1 hn2
        rw [if_pos hlt]
        obtain ⟨e1, e2, e3⟩ := digits_of_decomp (i + 1) hn1 hn2
        have : posAt b o (k + 1) = mkPosOrd o
            (b.selectMin o.axisTriple.1 + ((i + 1 : Nat) : Int))
            (b.selectMin o.axisTriple.2.1 + ((0 : Nat) : Int))
            (b.selectMin o.axisTriple.2.2 + ((0 : Nat) : Int)) := by
          rw [posAt, hk1]
          rw [show (dimOf b o.axisTriple.2.2).toNat = n2 from rfl,
            show (dimOf b o.axisTriple.2.1).toNat = n1 from rfl, e1, e2, e3]
        rw [this]
        push_cast
        ring_nf
      · rw [if_neg (fun hcon => hC (hc0.mp hcon))]
        have hi1 : i + 1 = n0 := by omega
        have hk1 : k + 1 = n0 * n1 * n2 := by
          calc k + 1 = (i * n1 + j) * n2 + n2 := by omega
            _ = (i * n1 + (j + 1)) * n2 := by ring
            _ = (i * n1 + n1) * n2 := by rw [hj1]
            _ = ((i + 1) * n1) * n2 := by ring
            _ = (n0 * n1) * n2 := by rw [hi1]
            _ = n0 * n1 * n2 := by ring
        rw [if_neg (by omega)]

theorem posAt_zero (b : Boundary) (o : AxisOrder) :
    posAt b o 0 = ⟨b.min_x, b.min_y, b.min_z⟩ := by
  rw [posAt]
  simp only [Nat.zero_div, Nat.zero_mod, Nat.cast_zero, add_zero]
  exact mkPosOrd_min b o

theorem iterList_done (s : BIter) (h : s.done = true) : ∀ fuel, iterList s fuel = [] := by
  intro fuel
  cases fuel with
  | zero => rfl
  | succ n =>
    rw [iterList, iterNext, if_pos h]

theorem iterList_cons (s : BIter) (fuel : Nat) (p : BlockPosition) (s' : BIter)
    (h : iterNext s = (some p, s')) :
    iterList s (fuel + 1) = p :: iterList s' fuel := by
  rw [iterList, h]

theorem iterList_from (b : Boundary) (o : AxisOrder)
    (h0 : 0 < dimOf b o.axisTriple.1) (h1 : 0 < dimOf b o.axisTriple.2.1)
    (h2 : 0 < dimOf b o.axisTriple.2.2) :
    ∀ (m k : Nat), k + m = dim0 b o * dim1 b o * dim2 b o → 0 < m →
      iterList ⟨b, o, posAt b o k, false⟩ (m + 1) = (List.range' k m).map (posAt b o) := by
  intro m
  induction m with
  | zero => intro k _ hm; omega
  | succ m ih =>
    intro k hk _
    have hklt : k < dim0 b o * dim1 b o * dim2 b o := by omega
    have hstep := posAt_step b o h0 h1 h2 k hklt
    rcases Nat.eq_zero_or_pos m with hm | hm
    · subst hm
      have hnot : ¬ (k + 1 < dim0 b o * dim1 b o * dim2 b o) := by omega
      rw [if_neg hnot] at hstep
      rw [iterList_cons _ _ _ _ hstep]
      rw [iterList_done _ rfl]
      simp [List.range']
    · have hlt1 : k + 1 < dim0 b o * dim1 b o * dim2 b o := by omega
      rw [if_pos hlt1] at hstep
      rw [iterList_cons _ _ _ _ hstep]
      rw [ih (k + 1) (by omega) hm]
      simp [List.range']

theorem usizeOfInt_natCast (n : Nat) (h : n < 2 ^ 64) : usizeOfInt (n : Int) = n := by
  rw [usizeOfInt, Int.emod_eq_of_lt (by positivity) (by exact_mod_cast h)]
  exact Int.toNat_natCast n

theorem dims_natCast (b : Boundary) (o : AxisOrder)
    (hx : 0 ≤ b.d_x) (hy : 0 ≤ b.d_y) (hz : 0 ≤ b.d_z) :
    b.d_x * b.d_y * b.d_z = ((dim0 b o * dim1 b o * dim2 b o : Nat) : Int) := by
  have hd0 : dimOf b o.axisTriple.1 = (dim0 b o : Int) := by
    rw [dim0, Int.toNat_of_nonneg]
    cases o <;> simpa [AxisOrder.axisTriple, dimOf]
  have hd1 : dimOf b o.axisTriple.2.1 = (dim1 b o : Int) := by
    rw [dim1, Int.toNat_of_nonneg]
    cases o <;> simpa [AxisOrder.axisTriple, dimOf]
  have hd2 : dimOf b o.axisTriple.2.2 = (dim2 b o : Int) := by
    rw [dim2, Int.toNat_of_nonneg]
    cases o <;> simpa [AxisOrder.axisTriple, dimOf]
  rw [← dimOf_prod b o, hd0, hd1, hd2]
  push_cast
  ring

theorem volume_eq (b : Boundary) (hx : 0 ≤ b.d_x) (hy : 0 ≤ b.d_y) (hz : 0 ≤ b.d_z)
    (hbound : b.d_x * b.d_y * b.d_z < 2 ^ 31) (o : AxisOrder) :
    b.volume = dim0 b o * dim1 b o * dim2 b o := by
  have hprod := dims_natCast b o hx hy hz
  rw [Boundary.volume, hprod, usizeOfInt_natCast]
  have : ((dim0 b o * dim1 b o * dim2 b o : Nat) : Int) < 2 ^ 31 := hprod ▸ hbound
  calc dim0 b o * dim1 b o * dim2 b o < 2 ^ 31 := by exact_mod_cast this
    _ < 2 ^ 64 := by norm_num

theorem dimsN_lt (b : Boundary) (o : AxisOrder)
    (hx : 0 ≤ b.d_x) (hy : 0 ≤ b.d_y) (hz : 0 ≤ b.d_z)
    (hbound : b.d_x * b.d_y * b.d_z < 2 ^ 31) :
    dim0 b o * dim1 b o * dim2 b o < 2 ^ 31 := by
  have hprod := dims_natCast b o hx hy hz
  have : ((dim0 b o * dim1 b o * dim2 b o : Nat) : Int) < 2 ^ 31 := hprod ▸ hbound
  exact_mod_cast this
theorem corner_select (b : Boundary) (a : Axis) :
    (⟨b.min_x, b.min_y, b.min_z⟩ : BlockPosition).select a = b.selectMin a := by
  cases a <;> rfl

theorem i32OfNat_small {n : Nat} (h : n < 2 ^ 31) : i32OfNat n = (n : Int) := by
  rw [i32OfNat]
  have h32 : n % 2 ^ 32 = n := Nat.mod_eq_of_lt (by omega)
  simp only [h32]
  rw [if_pos (by exact_mod_cast h)]

theorem usizeOfInt_zero : usizeOfInt 0 = 0 := rfl

/-- Evaluation of `BoundaryIterator::nth` on a fresh iterator over a
boundary with positive extents. -/
theorem iterNth_fresh (b : Boundary) (o : AxisOrder)
    (h0 : 0 < dimOf b o.axisTriple.1) (h1 : 0 < dimOf b o.axisTriple.2.1)
    (h2 : 0 < dimOf b o.axisTriple.2.2)
    (hN : dim0 b o * dim1 b o * dim2 b o < 2 ^ 31)
    (k : Nat) (hk : k < dim0 b o * dim1 b o * dim2 b o) :
    iterNth (iterInit b o) k =
      (some (posAt b o k),
        if k + 1 < dim0 b o * dim1 b o * dim2 b o then ⟨b, o, posAt b o (k + 1), false⟩
        else ⟨b, o, ⟨b.min_x, b.min_y, b.min_z⟩, true⟩) := by
  have hd0 : dimOf b o.axisTriple.1 = (dim0 b o : Int) := (Int.toNat_of_nonneg h0.le).symm
  have hd1 : dimOf b o.axisTriple.2.1 = (dim1 b o : Int) := (Int.toNat_of_nonneg h1.le).symm
  have hd2 : dimOf b o.axisTriple.2.2 = (dim2 b o : Int) := (Int.toNat_of_nonneg h2.le).symm
  have hn0 : 0 < dim0 b o := by rw [hd0] at h0; exact_mod_cast h0
  have hn1 : 0 < dim1 b o := by rw [hd1] at h1; exact_mod_cast h1
  have hn2 : 0 < dim2 b o := by rw [hd2] at h2; exact_mod_cast h2
  set n0 := dim0 b o
  set n1 := dim1 b o
  set n2 := dim2 b o
  have hb0 : n0 < 2 ^ 31 := lt_of_le_of_lt (Nat.le_of_dvd (by positivity) ⟨n1 * n2, by ring⟩) hN
  have hb1 : n1 < 2 ^ 31 := lt_of_le_of_lt (Nat.le_of_dvd (by positivity) ⟨n0 * n2, by ring⟩) hN
  have hb2 : n2 < 2 ^ 31 := lt_of_le_of_lt (Nat.le_of_dvd (by positivity) ⟨n0 * n1, by ring⟩) hN
  have hlen0 : usizeOfInt (b.selectMax o.axisTriple.1 - b.selectMin o.axisTriple.1 + 1) = n0 := by
    rw [show b.selectMax o.axisTriple.1 - b.selectMin o.axisTriple.1 + 1 = ((n0 : Nat) : Int) by
      rw [selectMax_eq, hd0]; ring]
    exact usizeOfInt_natCast _ (by omega)
  have hlen1 : usizeOfInt (b.selectMax o.axisTriple.2.1 - b.selectMin o.axisTriple.2.1 + 1) = n1 := by
    rw [show b.selectMax o.axisTriple.2.1 - b.selectMin o.axisTriple.2.1 + 1 = ((n1 : Nat) : Int) by
      rw [selectMax_eq, hd1]; ring]
    exact usizeOfInt_natCast _ (by omega)
  have hlen2 : usizeOfInt (b.selectMax o.axisTriple.2.2 - b.selectMin o.axisTriple.2.2 + 1) = n2 := by
    rw [show b.selectMax o.axisTriple.2.2 - b.selectMin o.axisTriple.2.2 + 1 = ((n2 : Nat) : Int) by
      rw [selectMax_eq, hd2]; ring]
    exact usizeOfInt_natCast _ (by omega)
  have hs1 : 1 * n2 % 2 ^ 64 = n2 := by
    rw [Nat.one_mul]; exact Nat.mod_eq_of_lt (by omega)
  have hs0 : n2 * n1 % 2 ^ 64 = n2 * n1 := Nat.mod_eq_of_lt (by
    calc n2 * n1 < 2 ^ 31 * 2 ^ 31 := Nat.mul_lt_mul_of_lt_of_lt hb2 hb1
      _ ≤ 2 ^ 64 := by norm_num)
  have hNlt : n2 * n1 * n0 < 2 ^ 31 := by
    calc n2 * n1 * n0 = n0 * n1 * n2 := by ring
      _ < 2 ^ 31 := hN
  have htot : n2 * n1 * n0 % 2 ^ 64 = n2 * n1 * n0 := Nat.mod_eq_of_lt (by omega)
  have hrec : ∀ idx : Nat, idx < n0 * n1 * n2 →
      ((((⟨b.min_x, b.min_y, b.min_z⟩ : BlockPosition).selectSet o.axisTriple.1
          (i32OfNat (idx / (n2 * n1)) + b.selectMin o.axisTriple.1)).selectSet o.axisTriple.2.1
          (i32OfNat (idx % (n2 * n1) / n2) + b.selectMin o.axisTriple.2.1)).selectSet
          o.axisTriple.2.2
          (i32OfNat (idx % (n2 * n1) % n2 / 1) + b.selectMin o.axisTriple.2.2))
        = posAt b o idx := by
    intro idx hidx
    have e0 : idx / (n2 * n1) = idx / n2 / n1 := (Nat.div_div_eq_div_mul idx n2 n1).symm
    have e1 : idx % (n2 * n1) / n2 = idx / n2 % n1 := Nat.mod_mul_right_div_self idx n2 n1
    have e2 : idx % (n2 * n1) % n2 / 1 = idx % n2 := by
      rw [Nat.div_one, Nat.mod_mod_of_dvd idx ⟨n1, rfl⟩]
    have hc0 : idx / (n2 * n1) < 2 ^ 31 := by
      have : idx / (n2 * n1) ≤ idx := Nat.div_le_self _ _
      omega
    have hc1 : idx % (n2 * n1) / n2 < 2 ^ 31 := by
      rw [e1]
      have : idx / n2 % n1 < n1 := Nat.mod_lt _ hn1
      omega
    have hc2 : idx % (n2 * n1) % n2 / 1 < 2 ^ 31 := by
      rw [e2]
      have : idx % n2 < n2 := Nat.mod_lt _ hn2
      omega
    rw [← mkPosOrd_min b o, selectSet_mkPosOrd_a0, selectSet_mkPosOrd_a1,
      selectSet_mkPosOrd_a2, i32OfNat_small hc0, i32OfNat_small hc1, i32OfNat_small hc2,
      e0, e1, e2, posAt]
    rw [show (dimOf b o.axisTriple.2.2).toNat = n2 from rfl,
      show (dimOf b o.axisTriple.2.1).toNat = n1 from rfl]
    rw [add_comm (b.selectMin o.axisTriple.1), add_comm (b.selectMin o.axisTriple.2.1),
      add_comm (b.selectMin o.axisTriple.2.2)]
  simp only [iterNth, iterInit, Bool.false_eq_true, if_false, corner_select]
  rw [hlen0, hlen1, hlen2, hs1]
  rw [hs0, htot]
  simp only [sub_self, usizeOfInt_zero, Nat.zero_mul, Nat.mul_zero, Nat.add_zero,
    Nat.zero_add, Nat.zero_mod, Nat.mul_one]
  rw [Nat.mod_eq_of_lt (show k < 2 ^ 64 by omega)]
  rw [if_neg (show ¬ n2 * n1 * n0 ≤ k by
    have : k < n2 * n1 * n0 := by calc k < n0 * n1 * n2 := hk
                                      _ = n2 * n1 * n0 := by ring
    omega)]
  rw [hrec k hk]
  by_cases hk1 : k + 1 < n0 * n1 * n2
  · rw [if_neg (show ¬ n2 * n1 * n0 ≤ k + 1 by
      have : k + 1 < n2 * n1 * n0 := by calc k + 1 < n0 * n1 * n2 := hk1
                                            _ = n2 * n1 * n0 := by ring
      omega)]
    rw [hrec (k + 1) hk1, if_pos hk1]
  · rw [if_pos (show n2 * n1 * n0 ≤ k + 1 by
      have : n0 * n1 * n2 ≤ k + 1 := by omega
      calc n2 * n1 * n0 = n0 * n1 * n2 := by ring
        _ ≤ k + 1 := this)]
    rw [if_neg hk1]
theorem iterSteps_succ_last (s : BIter) (n : Nat) :
    iterSteps s (n + 1) = (iterNext (iterSteps s n)).2 := by
  induction n generalizing s with
  | zero => rfl
  | succ n ih =>
    show iterSteps (iterNext s).2 (n + 1) = _
    rw [ih]
    rfl

theorem iterSteps_state (b : Boundary) (o : AxisOrder)
    (h0 : 0 < dimOf b o.axisTriple.1) (h1 : 0 < dimOf b o.axisTriple.2.1)
    (h2 : 0 < dimOf b o.axisTriple.2.2) :
    ∀ k, k < dim0 b o * dim1 b o * dim2 b o →
      iterSteps (iterInit b o) k = ⟨b, o, posAt b o k, false⟩ := by
  intro k
  induction k with
  | zero =>
    intro _
    rw [show iterSteps (iterInit b o) 0 = iterInit b o from rfl, iterInit, posAt_zero]
  | succ k ih =>
    intro hk1
    have hk : k < dim0 b o * dim1 b o * dim2 b o := by omega
    rw [iterSteps_succ_last, ih hk, posAt_step b o h0 h1 h2 k hk, if_pos hk1]

theorem containsPos_ord (b : Boundary) (o : AxisOrder) (p : BlockPosition) :
    b.containsPos p ↔
      ((b.selectMin o.axisTriple.1 ≤ p.select o.axisTriple.1 ∧
        p.select o.axisTriple.1 < b.selectMin o.axisTriple.1 + dimOf b o.axisTriple.1) ∧
      (b.selectMin o.axisTriple.2.1 ≤ p.select o.axisTriple.2.1 ∧
        p.select o.axisTriple.2.1 < b.selectMin o.axisTriple.2.1 + dimOf b o.axisTriple.2.1) ∧
      (b.selectMin o.axisTriple.2.2 ≤ p.select o.axisTriple.2.2 ∧
        p.select o.axisTriple.2.2 < b.selectMin o.axisTriple.2.2 + dimOf b o.axisTriple.2.2)) := by
  cases o <;>
    · simp only [Boundary.containsPos, AxisOrder.axisTriple, BlockPosition.select,
        Boundary.selectMin, dimOf]
      tauto

theorem mkPosOrd_select_self (o : AxisOrder) (p : BlockPosition) :
    mkPosOrd o (p.select o.axisTriple.1) (p.select o.axisTriple.2.1)
      (p.select o.axisTriple.2.2) = p := by
  cases o <;> rfl

theorem posAt_contains (b : Boundary) (o : AxisOrder)
    (h0 : 0 < dimOf b o.axisTriple.1) (h1 : 0 < dimOf b o.axisTriple.2.1)
    (h2 : 0 < dimOf b o.axisTriple.2.2)
    (k : Nat) (hk : k < dim0 b o * dim1 b o * dim2 b o) :
    b.containsPos (posAt b o k) := by
  have hd0 : dimOf b o.axisTriple.1 = (dim0 b o : Int) := (Int.toNat_of_nonneg h0.le).symm
  have hd1 : dimOf b o.axisTriple.2.1 = (dim1 b o : Int) := (Int.toNat_of_nonneg h1.le).symm
  have hd2 : dimOf b o.axisTriple.2.2 = (dim2 b o : Int) := (Int.toNat_of_nonneg h2.le).symm
  have hn1 : 0 < dim1 b o := by rw [hd1] at h1; exact_mod_cast h1
  have hn2 : 0 < dim2 b o := by rw [hd2] at h2; exact_mod_cast h2
  have hi : k / dim2 b o / dim1 b o < dim0 b o := by
    rw [Nat.div_div_eq_div_mul, Nat.div_lt_iff_lt_mul (Nat.mul_pos hn2 hn1)]
    calc k < dim0 b o * dim1 b o * dim2 b o := hk
      _ = dim0 b o * (dim2 b o * dim1 b o) := by ring
  have hj : k / dim2 b o % dim1 b o < dim1 b o := Nat.mod_lt _ hn1
  have hl : k % dim2 b o < dim2 b o := Nat.mod_lt _ hn2
  rw [containsPos_ord b o]
  rw [show posAt b o k = mkPosOrd o
    (b.selectMin o.axisTriple.1 + ((k / dim2 b o / dim1 b o : Nat) : Int))
    (b.selectMin o.axisTriple.2.1 + ((k / dim2 b o % dim1 b o : Nat) : Int))
    (b.selectMin o.axisTriple.2.2 + ((k % dim2 b o : Nat) : Int)) from rfl]
  rw [select_mkPosOrd_a0, select_mkPosOrd_a1, select_mkPosOrd_a2, hd0, hd1, hd2]
  exact ⟨⟨le_add_of_nonneg_right (Int.natCast_nonneg _),
      add_lt_add_left (by exact_mod_cast hi) _⟩,
    ⟨le_add_of_nonneg_right (Int.natCast_nonneg _),
      add_lt_add_left (by exact_mod_cast hj) _⟩,
    ⟨le_add_of_nonneg_right (Int.natCast_nonneg _),
      add_lt_add_left (by exact_mod_cast hl) _⟩⟩

theorem posAt_surj (b : Boundary) (o : AxisOrder)
    (h0 : 0 < dimOf b o.axisTriple.1) (h1 : 0 < dimOf b o.axisTriple.2.1)
    (h2 : 0 < dimOf b o.axisTriple.2.2)
    (p : BlockPosition) (hp : b.containsPos p) :
    ∃ k, k < dim0 b o * dim1 b o * dim2 b o ∧ posAt b o k = p := by
  rw [containsPos_ord b o] at hp
  obtain ⟨⟨hp0l, hp0u⟩, ⟨hp1l, hp1u⟩, ⟨hp2l, hp2u⟩⟩ := hp
  have hd0 : dimOf b o.axisTriple.1 = (dim0 b o : Int) := (Int.toNat_of_nonneg h0.le).symm
  have hd1 : dimOf b o.axisTriple.2.1 = (dim1 b o : Int) := (Int.toNat_of_nonneg h1.le).symm
  have hd2 : dimOf b o.axisTriple.2.2 = (dim2 b o : Int) := (Int.toNat_of_nonneg h2.le).symm
  set i := (p.select o.axisTriple.1 - b.selectMin o.axisTriple.1).toNat with hidef
  set j := (p.select o.axisTriple.2.1 - b.selectMin o.axisTriple.2.1).toNat with hjdef
  set l := (p.select o.axisTriple.2.2 - b.selectMin o.axisTriple.2.2).toNat with hldef
  have hi : i < dim0 b o := by
    rw [hd0] at hp0u
    omega
  have hj : j < dim1 b o := by
    rw [hd1] at hp1u
    omega
  have hl : l < dim2 b o := by
    rw [hd2] at hp2u
    omega
  refine ⟨(i * dim1 b o + j) * dim2 b o + l, digits_lt_N hi hj hl, ?_⟩
  obtain ⟨e1, e2, e3⟩ := digits_of_decomp i hj hl
  rw [posAt]
  rw [show (dimOf b o.axisTriple.2.2).toNat = dim2 b o from rfl,
    show (dimOf b o.axisTriple.2.1).toNat = dim1 b o from rfl, e1, e2, e3]
  rw [show (i : Int) = p.select o.axisTriple.1 - b.selectMin o.axisTriple.1 by
      rw [hidef, Int.toNat_of_nonneg (by omega)],
    show (j : Int) = p.select o.axisTriple.2.1 - b.selectMin o.axisTriple.2.1 by
      rw [hjdef, Int.toNat_of_nonneg (by omega)],
    show (l : Int) = p.select o.axisTriple.2.2 - b.selectMin o.axisTriple.2.2 by
      rw [hldef, Int.toNat_of_nonneg (by omega)]]
  rw [show b.selectMin o.axisTriple.1 + (p.select o.axisTriple.1 -
    b.selectMin o.axisTriple.1) = p.select o.axisTriple.1 by ring]
  rw [show b.selectMin o.axisTriple.2.1 + (p.select o.axisTriple.2.1 -
    b.selectMin o.axisTriple.2.1) = p.select o.axisTriple.2.1 by ring]
  rw [show b.selectMin o.axisTriple.2.2 + (p.select o.axisTriple.2.2 -
    b.selectMin o.axisTriple.2.2) = p.select o.axisTriple.2.2 by ring]
  exact mkPosOrd_select_self o p

theorem posAt_inj (b : Boundary) (o : AxisOrder) {k k' : Nat}
    (h : posAt b o k = posAt b o k') : k = k' := by
  obtain ⟨e0, e1, e2⟩ := mkPosOrd_inj o h
  have i0 : k / dim2 b o / dim1 b o = k' / dim2 b o / dim1 b o := by
    have := add_left_cancel e0
    exact_mod_cast this
  have i1 : k / dim2 b o % dim1 b o = k' / dim2 b o % dim1 b o := by
    have := add_left_cancel e1
    exact_mod_cast this
  have i2 : k % dim2 b o = k' % dim2 b o := by
    have := add_left_cancel e2
    exact_mod_cast this
  calc k = (k / dim2 b o / dim1 b o * dim1 b o + k / dim2 b o % dim1 b o) * dim2 b o
        + k % dim2 b o := k_decomp _ _ k
    _ = (k' / dim2 b o / dim1 b o * dim1 b o + k' / dim2 b o % dim1 b o) * dim2 b o
        + k' % dim2 b o := by rw [i0, i1, i2]
    _ = k' := (k_decomp _ _ k').symm
/-! ### Claims C5 and C6: the boundary iterator -/

theorem dimOf_pos (b : Boundary) (hx : 0 < b.d_x) (hy : 0 < b.d_y) (hz : 0 < b.d_z) :
    ∀ a, 0 < dimOf b a := by
  intro a
  cases a <;> simpa [dimOf]

/-- C5 (corrected): for a boundary whose extents are all positive (and a
volume within `i32` range), the sequence produced by repeatedly calling
`next` is exactly the mixed-radix enumeration `posAt`: it has length
`volume`, contains every position of the boundary exactly once, and the
innermost axis of the order varies fastest (the innermost coordinate of
the `k`-th position is `min + (k mod innermost extent)`).  A zero-volume
boundary, however, still yields positions — see the counterexample. -/
theorem C5_iterator_enumeration (b : Boundary) (o : AxisOrder)
    (hx : 0 < b.d_x) (hy : 0 < b.d_y) (hz : 0 < b.d_z)
    (hbound : b.d_x * b.d_y * b.d_z < 2 ^ 31) :
    iterList (iterInit b o) (b.volume + 1) = (List.range b.volume).map (posAt b o) ∧
    (iterList (iterInit b o) (b.volume + 1)).length = b.volume ∧
    (iterList (iterInit b o) (b.volume + 1)).Nodup ∧
    (∀ p, p ∈ iterList (iterInit b o) (b.volume + 1) ↔ b.containsPos p) ∧
    (∀ k, k < b.volume → (posAt b o k).select o.axisTriple.2.2 =
      b.selectMin o.axisTriple.2.2 + ((k % dim2 b o : Nat) : Int)) := by
  have h0 := dimOf_pos b hx hy hz o.axisTriple.1
  have h1 := dimOf_pos b hx hy hz o.axisTriple.2.1
  have h2 := dimOf_pos b hx hy hz o.axisTriple.2.2
  have hvol := volume_eq b hx.le hy.le hz.le hbound o
  have hNpos : 0 < dim0 b o * dim1 b o * dim2 b o := by
    have := dimsN_lt b o hx.le hy.le hz.le hbound
    rcases Nat.eq_zero_or_pos (dim0 b o * dim1 b o * dim2 b o) with hzn | hp
    · exfalso
      have hprod := dims_natCast b o hx.le hy.le hz.le
      rw [hzn] at hprod
      simp only [Nat.cast_zero] at hprod
      have : (0 : Int) < b.d_x * b.d_y * b.d_z := by positivity
      omega
    · exact hp
  have hmain : iterList (iterInit b o) (b.volume + 1) =
      (List.range b.volume).map (posAt b o) := by
    rw [hvol]
    have hinit : iterInit b o = ⟨b, o, posAt b o 0, false⟩ := by
      rw [iterInit, posAt_zero]
    rw [hinit]
    rw [iterList_from b o h0 h1 h2 (dim0 b o * dim1 b o * dim2 b o) 0 (by omega) hNpos]
    rw [List.range_eq_range']
  refine ⟨hmain, ?_, ?_, ?_, ?_⟩
  · rw [hmain]; simp
  · rw [hmain]
    exact (List.nodup_range _).map_on
      (fun x _ y _ h => posAt_inj b o h)
  · intro p
    rw [hmain]
    simp only [List.mem_map, List.mem_range]
    constructor
    · rintro ⟨k, hk, rfl⟩
      exact posAt_contains b o h0 h1 h2 k (hvol ▸ hk)
    · intro hp
      obtain ⟨k, hkN, hkp⟩ := posAt_surj b o h0 h1 h2 p hp
      exact ⟨k, hvol ▸ hkN, hkp⟩
  · intro k _
    exact select_mkPosOrd_a2 o _ _ _

/-- C5 witness: the theorem applied to a concrete boundary. -/
theorem C5_witness :
    iterList (iterInit ⟨0, 0, 0, 2, 2, 2⟩ AxisOrder.XYZ)
        (Boundary.volume ⟨0, 0, 0, 2, 2, 2⟩ + 1) =
      (List.range (Boundary.volume ⟨0, 0, 0, 2, 2, 2⟩)).map
        (posAt ⟨0, 0, 0, 2, 2, 2⟩ AxisOrder.XYZ) :=
  (C5_iterator_enumeration ⟨0, 0, 0, 2, 2, 2⟩ AxisOrder.XYZ (by decide) (by decide)
    (by decide) (by decide)).1

/-- C5 counterexample: the zero-volume boundary at the origin still
yields a position (`next` returns the corner before noticing the
exhausted extents), contradicting the claim that a zero-volume boundary
yields no positions. -/
theorem C5_counterexample :
    (iterNext (iterInit ⟨0, 0, 0, 0, 0, 0⟩ AxisOrder.XYZ)).1 = some ⟨0, 0, 0⟩ ∧
      Boundary.volume ⟨0, 0, 0, 0, 0, 0⟩ = 0 := by
  constructor
  · rfl
  · rfl

/-- C6 (confirmed): on every boundary with non-negative extents (the
spec's boundary invariant) and volume in `i32` range, the O(1)
mixed-radix `nth` on a fresh iterator returns, for each `k < volume`,
the same position as the `(k+1)`-th `next` of a fresh iterator, and the
resulting iterator states are observationally equivalent. -/
theorem C6_nth_matches_linear (b : Boundary) (o : AxisOrder) (k : Nat)
    (hx : 0 ≤ b.d_x) (hy : 0 ≤ b.d_y) (hz : 0 ≤ b.d_z)
    (hbound : b.d_x * b.d_y * b.d_z < 2 ^ 31) (hk : k < b.volume) :
    (iterNth (iterInit b o) k).1 = some (posAt b o k) ∧
    (iterNth (iterInit b o) k).1 = (iterNext (iterSteps (iterInit b o) k)).1 ∧
    iterEquiv (iterNth (iterInit b o) k).2 (iterSteps (iterInit b o) (k + 1)) := by
  have hN31 := dimsN_lt b o hx hy hz hbound
  have hprod := dims_natCast b o hx hy hz
  have hvol := volume_eq b hx hy hz hbound o
  rw [hvol] at hk
  have hNpos : 0 < dim0 b o * dim1 b o * dim2 b o := by omega
  have hn0 : 0 < dim0 b o := Nat.pos_of_ne_zero (fun h => by simp [h] at hNpos)
  have hn1 : 0 < dim1 b o := Nat.pos_of_ne_zero (fun h => by simp [h] at hNpos)
  have hn2 : 0 < dim2 b o := Nat.pos_of_ne_zero (fun h => by simp [h] at hNpos)
  have h0 : 0 < dimOf b o.axisTriple.1 := by
    have : dimOf b o.axisTriple.1 = (dim0 b o : Int) := by
      rw [dim0, Int.toNat_of_nonneg]
      cases o <;> simpa [AxisOrder.axisTriple, dimOf]
    rw [this]
    exact_mod_cast hn0
  have h1 : 0 < dimOf b o.axisTriple.2.1 := by
    have : dimOf b o.axisTriple.2.1 = (dim1 b o : Int) := by
      rw [dim1, Int.toNat_of_nonneg]
      cases o <;> simpa [AxisOrder.axisTriple, dimOf]
    rw [this]
    exact_mod_cast hn1
  have h2 : 0 < dimOf b o.axisTriple.2.2 := by
    have : dimOf b o.axisTriple.2.2 = (dim2 b o : Int) := by
      rw [dim2, Int.toNat_of_nonneg]
      cases o <;> simpa [AxisOrder.axisTriple, dimOf]
    rw [this]
    exact_mod_cast hn2
  have hnth := iterNth_fresh b o h0 h1 h2 hN31 k hk
  have hlinear := posAt_step b o h0 h1 h2 k hk
  have hsteps := iterSteps_state b o h0 h1 h2 k hk
  have hsteps1 : iterSteps (iterInit b o) (k + 1) = (iterNext (iterSteps (iterInit b o) k)).2 :=
    iterSteps_succ_last _ _
  refine ⟨by rw [hnth], ?_, ?_⟩
  · rw [hnth, hsteps, hlinear]
  · rw [hnth, hsteps1, hsteps, hlinear]
    by_cases hk1 : k + 1 < dim0 b o * dim1 b o * dim2 b o
    · rw [if_pos hk1, if_pos hk1]
      exact ⟨rfl, rfl, rfl, fun _ => rfl⟩
    · rw [if_neg hk1, if_neg hk1]
      exact ⟨rfl, rfl, rfl, fun h => absurd h (by simp)⟩

/-- C6 witness: the theorem applied to a concrete boundary, order and
skip count. -/
theorem C6_witness :
    (iterNth (iterInit ⟨0, 0, 0, 2, 3, 4⟩ AxisOrder.YZX) 7).1 =
        some (posAt ⟨0, 0, 0, 2, 3, 4⟩ AxisOrder.YZX 7) ∧
      (iterNth (iterInit ⟨0, 0, 0, 2, 3, 4⟩ AxisOrder.YZX) 7).1 =
        (iterNext (iterSteps (iterInit ⟨0, 0, 0, 2, 3, 4⟩ AxisOrder.YZX) 7)).1 ∧
      iterEquiv (iterNth (iterInit ⟨0, 0, 0, 2, 3, 4⟩ AxisOrder.YZX) 7).2
        (iterSteps (iterInit ⟨0, 0, 0, 2, 3, 4⟩ AxisOrder.YZX) 8) :=
  C6_nth_matches_linear ⟨0, 0, 0, 2, 3, 4⟩ AxisOrder.YZX 7 (by decide) (by decide)
    (by decide) (by decide) (by decide)
/-! ### Claims C1/C2: the diff algebra round trip.  Validity classes. -/

/-- Characters allowed in property keys and values for the round-trip
theorems: ASCII alphanumerics and `_` (accepted by both `from_string`'s
property charset and `update`'s difference charset, and free of the
separator characters `= , + - : [ ]`). -/
def isIdentChar (c : Char) : Bool := c.isAlphanum || c == '_'

/-- Characters allowed in (namespace/type) name segments: lowercase
letters, digits and `_` (accepted by both `from_string`'s resource
charset and `update`'s difference charset). -/
def isNameChar (c : Char) : Bool := c.isLower || c.isDigit || c == '_'

/-- Valid name for the round-trip theorems: a single-colon identifier
`ns:ty` with non-empty segments of name characters, at most 64 chars
(the `update` cap). -/
def goodName (n : Str) : Bool :=
  (n.count ':' == 1) && n.all (fun c => isNameChar c || c == ':') &&
    decide (n.length ≤ 64) && !(n.head? == some ':') && !(n.getLast? == some ':')

/-- Valid property list: non-empty identifier keys and values, distinct
keys, at most 256 entries (the `update` caps). -/
def goodProps (ps : List (Str × Str)) : Bool :=
  ps.all (fun kv => !kv.1.isEmpty && !kv.2.isEmpty &&
      kv.1.all isIdentChar && kv.2.all isIdentChar) &&
    decide ((ps.map Prod.fst).Nodup) && decide (ps.length ≤ 256)

/-- Valid block state for the round-trip theorems. -/
def goodState (s : BlockState) : Bool := goodName s.name && goodProps s.properties

theorem findIdx?_all_false (p : Char → Bool) (xs : Str) (h : ∀ x ∈ xs, p x = false) :
    xs.findIdx? p = none := by
  induction xs with
  | nil => exact List.findIdx?_nil
  | cons x xs ih =>
    rw [List.findIdx?_cons, if_neg (by simp [h x (by simp)]), List.findIdx?_succ,
      ih (fun x hx => h x (by simp [hx]))]
    rfl

theorem findIdx?_append_first (p : Char → Bool) (xs : Str) (y : Char) (ys : Str)
    (hxs : ∀ x ∈ xs, p x = false) (hy : p y = true) :
    (xs ++ y :: ys).findIdx? p = some xs.length := by
  induction xs with
  | nil => rw [List.nil_append, List.findIdx?_cons, if_pos hy]; rfl
  | cons x xs ih =>
    rw [List.cons_append, List.findIdx?_cons, if_neg (by simp [hxs x (by simp)]),
      List.findIdx?_succ, ih (fun x hx => hxs x (by simp [hx]))]
    rfl

theorem legal_not_ws {c : Char} (h : isLegalDiffChar c = true) : isWS c = false := by
  by_contra hws
  have hws' : isWS c = true := by
    cases hw : isWS c
    · exact absurd hw hws
    · rfl
  have : c = ' ' ∨ c = '\t' ∨ c = '\r' ∨ c = '\n' := by
    have := hws'
    rw [isWS, Char.isWhitespace] at this
    simp only [Bool.or_eq_true, decide_eq_true_eq] at this
    tauto
  rcases this with rfl | rfl | rfl | rfl <;> simp [isLegalDiffChar] at h

theorem nameChar_legal {c : Char} (h : isNameChar c = true) : isLegalDiffChar c = true := by
  rw [isNameChar] at h
  simp only [Bool.or_eq_true, decide_eq_true_eq, beq_iff_eq] at h
  rcases h with (h | h) | h
  · simp [isLegalDiffChar, Char.isAlphanum, Char.isAlpha, h]
  · simp [isLegalDiffChar, Char.isAlphanum, h]
  · simp [isLegalDiffChar, h]

theorem identChar_legal {c : Char} (h : isIdentChar c = true) : isLegalDiffChar c = true := by
  rw [isIdentChar] at h
  simp only [Bool.or_eq_true, decide_eq_true_eq, beq_iff_eq] at h
  rcases h with h | h <;> simp [isLegalDiffChar, h]

theorem nameChar_ne {c : Char} (h : isNameChar c = true) :
    c ≠ ':' ∧ c ≠ '+' ∧ c ≠ '-' ∧ c ≠ '=' ∧ c ≠ ',' := by
  rw [isNameChar] at h
  simp only [Bool.or_eq_true, decide_eq_true_eq, beq_iff_eq] at h
  refine ⟨?_, ?_, ?_, ?_, ?_⟩ <;>
    · rintro rfl
      rcases h with (h | h) | h <;> simp_all [Char.isLower, Char.isDigit]

theorem identChar_ne {c : Char} (h : isIdentChar c = true) :
    c ≠ ':' ∧ c ≠ '+' ∧ c ≠ '-' ∧ c ≠ '=' ∧ c ≠ ',' := by
  rw [isIdentChar] at h
  simp only [Bool.or_eq_true, decide_eq_true_eq, beq_iff_eq] at h
  refine ⟨?_, ?_, ?_, ?_, ?_⟩ <;>
    · rintro rfl
      rcases h with h | h <;>
        simp_all [Char.isAlphanum, Char.isAlpha, Char.isUpper, Char.isLower, Char.isDigit]

/-- Decomposition of a `goodName`: a unique colon splitting non-empty
name-character segments. -/
theorem goodName_decomp {n : Str} (h : goodName n = true) :
    ∃ ns ty : Str, n = ns ++ ':' :: ty ∧ ns ≠ [] ∧ ty ≠ [] ∧
      (∀ c ∈ ns, isNameChar c = true) ∧ (∀ c ∈ ty, isNameChar c = true) ∧
      n.length ≤ 64 := by
  rw [goodName] at h
  simp only [Bool.and_eq_true, beq_iff_eq, decide_eq_true_eq, Bool.not_eq_true',
    beq_eq_false_iff_ne, ne_eq, List.all_eq_true, Bool.or_eq_true] at h
  obtain ⟨⟨⟨⟨hcount, hall⟩, hlen⟩, hhead⟩, hlast⟩ := h
  have hmem : ':' ∈ n := List.count_pos_iff.mp (by rw [hcount]; exact Nat.one_pos)
  obtain ⟨ns, ty, hsplit⟩ := List.append_of_mem hmem
  refine ⟨ns, ty, hsplit, ?_, ?_, ?_, ?_, ?_⟩
  · rintro rfl
    rw [hsplit] at hhead
    simp at hhead
  · rintro rfl
    rw [hsplit] at hlast
    rw [List.getLast?_append_cons] at hlast
    simp at hlast
  · intro c hc
    have hc' : c ∈ n := by rw [hsplit]; simp [hc]
    rcases hall c hc' with hg | hg
    · exact hg
    · exfalso
      rw [hsplit, List.count_append] at hcount
      have hcc : c = ':' := by simpa using hg
      subst hcc
      have h1 : List.count ':' (':' :: ty) = List.count ':' ty + 1 := by
        simp [List.count_cons]
      have h2 : 1 ≤ List.count ':' ns := List.count_pos_iff.mpr hc
      omega
  · intro c hc
    have hc' : c ∈ n := by rw [hsplit]; simp [hc]
    rcases hall c hc' with hg | hg
    · exact hg
    · exfalso
      rw [hsplit, List.count_append] at hcount
      have hcc : c = ':' := by simpa using hg
      subst hcc
      have h1 : List.count ':' (':' :: ty) = List.count ':' ty + 1 := by
        simp [List.count_cons]
      have h2 : 1 ≤ List.count ':' ty := List.count_pos_iff.mpr hc
      omega
  · exact hlen

theorem splitColonFirst_decomp (ns ty : Str) (hns : ∀ c ∈ ns, ¬ c = ':') :
    splitColonFirst (ns ++ ':' :: ty) = ns := by
  rw [splitColonFirst, findCharIdx,
    findIdx?_append_first _ ns ':' ty (fun x hx => by simp [hns x hx]) (by simp)]
  exact List.take_left ns _

theorem nsOf_decomp (ns ty : Str) (hns : ∀ c ∈ ns, ¬ c = ':') :
    nsOf (ns ++ ':' :: ty) = ns := by
  rw [nsOf, findCharIdx,
    findIdx?_append_first _ ns ':' ty (fun x hx => by simp [hns x hx]) (by simp)]
  exact List.take_left ns _

theorem tyOf_decomp (ns ty : Str) (hns : ∀ c ∈ ns, ¬ c = ':') :
    tyOf (ns ++ ':' :: ty) = ty := by
  rw [tyOf, findCharIdx,
    findIdx?_append_first _ ns ':' ty (fun x hx => by simp [hns x hx]) (by simp)]
  show List.drop (ns.length + 1) (ns ++ ':' :: ty) = ty
  have heq : ns ++ ':' :: ty = (ns ++ [':']) ++ ty := by simp
  rw [heq, List.drop_left' (by simp)]

theorem splitColonLast_decomp (ns ty : Str) (hty : ∀ c ∈ ty, ¬ c = ':') :
    splitColonLast (ns ++ ':' :: ty) = ty := by
  rw [splitColonLast, findCharIdx]
  have hrev : (ns ++ ':' :: ty).reverse = ty.reverse ++ ':' :: ns.reverse := by
    simp
  rw [hrev, findIdx?_append_first _ ty.reverse ':' ns.reverse
    (fun x hx => by simp [hty x (List.mem_reverse.mp hx)]) (by simp)]
  show (List.take ty.reverse.length (ty.reverse ++ ':' :: ns.reverse)).reverse = ty
  rw [List.take_left, List.reverse_reverse]
/-! Trimming and whitespace-filtering act as the identity on strings of
legal difference characters. -/

theorem dropWhile_all_false {p : Char → Bool} {s : Str} (h : ∀ c ∈ s, p c = false) :
    s.dropWhile p = s := by
  cases s with
  | nil => rfl
  | cons a s => rw [List.dropWhile_cons, if_neg (by simp [h a (by simp)])]

theorem trimStr_no_ws {s : Str} (h : ∀ c ∈ s, isWS c = false) : trimStr s = s := by
  rw [trimStr, dropWhile_all_false h,
    dropWhile_all_false (fun c hc => h c (List.mem_reverse.mp hc)), List.reverse_reverse]

theorem filter_no_ws {s : Str} (h : ∀ c ∈ s, isWS c = false) :
    s.filter (fun c => !isWS c) = s :=
  List.filter_eq_self.mpr (fun c hc => by simp [h c hc])

theorem intercalate_cons_cons (sep x y : Str) (zs : List Str) :
    List.intercalate sep (x :: y :: zs) = x ++ sep ++ List.intercalate sep (y :: zs) := by
  simp [List.intercalate, List.intersperse_cons_cons]

theorem intercalate_singleton (sep x : Str) : List.intercalate sep [x] = x := by
  simp [List.intercalate]

theorem mem_intercalate_comma {p : Char → Bool} {xs : List Str}
    (hx : ∀ x ∈ xs, ∀ c ∈ x, p c = true) (hc0 : p ',' = true) :
    ∀ c ∈ List.intercalate [','] xs, p c = true := by
  induction xs with
  | nil => intro c hc; simp [List.intercalate] at hc
  | cons x xs ih =>
    cases xs with
    | nil =>
      intro c hc
      rw [intercalate_singleton] at hc
      exact hx x (by simp) c hc
    | cons y ys =>
      intro c hc
      rw [intercalate_cons_cons] at hc
      rcases List.mem_append.mp hc with hc1 | hc1
      · rcases List.mem_append.mp hc1 with hc2 | hc2
        · exact hx x (by simp) c hc2
        · have hc3 : c = ',' := by simpa using hc2
          subst hc3
          exact hc0
      · exact ih (fun z hz c hc => hx z (by simp [hz]) c hc) c hc1

/-! Unique-key association lookups. -/

theorem find?_key_of_mem {B : List (Str × Str)} (hnd : (B.map Prod.fst).Nodup)
    {k v : Str} (h : (k, v) ∈ B) :
    B.find? (fun p => p.1 == k) = some (k, v) := by
  induction B with
  | nil => simp at h
  | cons b B ih =>
    rw [List.map_cons, List.nodup_cons] at hnd
    rcases List.mem_cons.mp h with h1 | h1
    · rw [← h1]
      exact List.find?_cons_of_pos _ (by simp)
    · have hne : ¬ b.1 = k := by
        intro he
        exact hnd.1 (by rw [he]; exact List.mem_map_of_mem Prod.fst h1)
      rw [List.find?_cons_of_neg _ (by simp [hne])]
      exact ih hnd.2 h1

theorem key_val_unique {A : List (Str × Str)} (hnd : (A.map Prod.fst).Nodup)
    {k v1 v2 : Str} (h1 : (k, v1) ∈ A) (h2 : (k, v2) ∈ A) : v1 = v2 := by
  have := (find?_key_of_mem hnd h1).symm.trans (find?_key_of_mem hnd h2)
  simpa using this

/-! Specification of the `update` segment parser on well-formed
segments. -/

theorem pushAdds_spec (frs : List (Str × Str)) (toAdd : List (Str × Str))
    (h : ∀ kv ∈ frs, ∀ c ∈ kv.1, ¬ c = '=')
    (hlen : toAdd.length + frs.length ≤ 256) :
    pushAdds toAdd (frs.map (fun kv => kv.1 ++ '=' :: kv.2)) = .ok (toAdd ++ frs) := by
  induction frs generalizing toAdd with
  | nil => simp [pushAdds]
  | cons kv frs ih =>
    rw [List.map_cons]
    have hfind : findCharIdx '=' (kv.1 ++ '=' :: kv.2) = some kv.1.length := by
      rw [findCharIdx]
      exact findIdx?_append_first _ kv.1 '=' kv.2
        (fun c hc => by simp [h kv (by simp) c hc]) (by simp)
    have hdrop : (kv.1 ++ '=' :: kv.2).drop (kv.1.length + 1) = kv.2 := by
      have heq : kv.1 ++ '=' :: kv.2 = (kv.1 ++ ['=']) ++ kv.2 := by simp
      rw [heq, List.drop_left' (by simp)]
    have hlen1 : toAdd.length + 1 + frs.length ≤ 256 := by
      simp only [List.length_cons] at hlen
      omega
    simp only [pushAdds, hfind, List.take_left, hdrop]
    rw [if_neg (by simp only [List.length_append, List.length_cons, List.length_nil]; omega)]
    have := ih (toAdd ++ [kv]) (fun z hz c hc => h z (by simp [hz]) c hc)
      (by simp only [List.length_append, List.length_cons, List.length_nil]; omega)
    simpa using this

theorem pushRemoves_spec (pcs : List Str) (toRemove : List Str)
    (hlen : toRemove.length + pcs.length ≤ 256) :
    pushRemoves toRemove pcs = .ok (toRemove ++ pcs) := by
  induction pcs generalizing toRemove with
  | nil => simp [pushRemoves]
  | cons p pcs ih =>
    have hlen1 : toRemove.length + 1 + pcs.length ≤ 256 := by
      simp only [List.length_cons] at hlen
      omega
    simp only [pushRemoves]
    rw [if_neg (by simp only [List.length_append, List.length_cons, List.length_nil]; omega)]
    have := ih (toRemove ++ [p])
      (by simp only [List.length_append, List.length_cons, List.length_nil]; omega)
    simpa using this

theorem parseSegs_nil (toAdd : List (Str × Str)) (toRemove : List Str) :
    parseSegs [] toAdd toRemove = .ok (toAdd, toRemove) := by
  simp [parseSegs]

theorem parseSegs_add (seg tail : Str) (toAdd : List (Str × Str)) (toRemove : List Str)
    (hseg : ∀ c ∈ seg, isSignChar c = false)
    (htail : tail = [] ∨ ∃ s t, tail = s :: t ∧ isSignChar s = true) :
    parseSegs ('+' :: (seg ++ tail)) toAdd toRemove =
      match pushAdds toAdd (seg.splitOn ',') with
      | .error e => .error e
      | .ok toAdd' => parseSegs tail toAdd' toRemove := by
  rcases htail with rfl | ⟨s, t, rfl, hs⟩
  · rw [List.append_nil]
    simp only [parseSegs, findIdx?_all_false isSignChar seg hseg, Nat.add_sub_cancel,
      List.take_length, List.drop_length, if_true]
  · simp only [parseSegs, findIdx?_append_first isSignChar seg s t hseg hs, Nat.add_sub_cancel,
      List.take_left, List.drop_left, if_true]

theorem parseSegs_remove (seg tail : Str) (toAdd : List (Str × Str)) (toRemove : List Str)
    (hseg : ∀ c ∈ seg, isSignChar c = false)
    (htail : tail = [] ∨ ∃ s t, tail = s :: t ∧ isSignChar s = true) :
    parseSegs ('-' :: (seg ++ tail)) toAdd toRemove =
      match pushRemoves toRemove (seg.splitOn ',') with
      | .error e => .error e
      | .ok toRemove' => parseSegs tail toAdd toRemove' := by
  rcases htail with rfl | ⟨s, t, rfl, hs⟩
  · rw [List.append_nil]
    simp only [parseSegs, findIdx?_all_false isSignChar seg hseg, Nat.add_sub_cancel,
      List.take_length, List.drop_length, if_true]
    rw [if_neg (show ¬((Char.ofNat 45) = '+') by decide)]
  · simp only [parseSegs, findIdx?_append_first isSignChar seg s t hseg hs, Nat.add_sub_cancel,
      List.take_left, List.drop_left, if_true]
    rw [if_neg (show ¬((Char.ofNat 45) = '+') by decide)]
/-- Replaying the additions and removals of `difference a b` on `a`'s
property list yields `b`'s property list up to permutation: the entries
of `a` that are neither removed nor overridden, followed by the diff's
additions, are a permutation of `b.properties`. -/
theorem kept_adds_perm (a b : BlockState)
    (hA : (a.properties.map Prod.fst).Nodup) (hB : (b.properties.map Prod.fst).Nodup) :
    (a.properties.filter (fun kv =>
        !(diffRemoves a b).contains kv.1 && !(diffAdds a b).any (fun ak => ak.1 == kv.1))
      ++ diffAdds a b).Perm b.properties := by
  have hAnd : a.properties.Nodup := List.Nodup.of_map _ hA
  have hBnd : b.properties.Nodup := List.Nodup.of_map _ hB
  have hadds : ∀ x : Str × Str, x ∈ diffAdds a b ↔ x ∈ b.properties ∧
      (match a.properties.find? (fun p => p.1 == x.1) with
        | none => true
        | some p => decide (p.2 ≠ x.2)) = true := by
    intro x
    exact List.mem_filter
  have hrem : ∀ k : Str, k ∈ diffRemoves a b ↔
      ∃ kv, kv ∈ a.properties ∧ b.properties.any (fun p => p.1 == kv.1) = false ∧ kv.1 = k := by
    intro k
    rw [diffRemoves, List.mem_map]
    constructor
    · rintro ⟨kv, hkv, rfl⟩
      obtain ⟨h1, h2⟩ := List.mem_filter.mp hkv
      exact ⟨kv, h1, by simpa using h2, rfl⟩
    · rintro ⟨kv, h1, h2, rfl⟩
      exact ⟨kv, List.mem_filter.mpr ⟨h1, by simpa using h2⟩, rfl⟩
  refine (List.perm_ext_iff_of_nodup ?_ hBnd).mpr ?_
  · refine List.Nodup.append (hAnd.filter _) (hBnd.filter _) ?_
    intro x hx1 hx2
    obtain ⟨hxA, hxf⟩ := List.mem_filter.mp hx1
    simp only [Bool.and_eq_true, Bool.not_eq_true'] at hxf
    have := List.any_eq_false.mp hxf.2 x hx2
    simp at this
  · intro x
    constructor
    · intro hx
      rcases List.mem_append.mp hx with hx | hx
      · obtain ⟨hxA, hxf⟩ := List.mem_filter.mp hx
        simp only [Bool.and_eq_true, Bool.not_eq_true'] at hxf
        obtain ⟨hcon, hany⟩ := hxf
        have hBany : b.properties.any (fun p => p.1 == x.1) = true := by
          by_contra hno
          have hno' : b.properties.any (fun p => p.1 == x.1) = false := by
            cases hv : b.properties.any (fun p => p.1 == x.1)
            · rfl
            · exact absurd hv hno
          have hkmem : x.1 ∈ diffRemoves a b := (hrem x.1).mpr ⟨x, hxA, hno', rfl⟩
          rw [List.contains_eq_any_beq] at hcon
          have := List.any_eq_false.mp hcon x.1 hkmem
          simp at this
        obtain ⟨p, hpB, hpk⟩ := List.any_eq_true.mp hBany
        have hpk' : p.1 = x.1 := by simpa using hpk
        have hfind : a.properties.find? (fun q => q.1 == p.1) = some x := by
          rw [hpk']
          exact find?_key_of_mem hA hxA
        have hgp : ¬ p ∈ diffAdds a b := by
          intro hpadds
          have := List.any_eq_false.mp hany p hpadds
          simp [hpk'] at this
        have hval : p.2 = x.2 := by
          by_contra hne
          refine hgp ((hadds p).mpr ⟨hpB, ?_⟩)
          rw [hfind]
          simpa using fun h => hne (by rw [h])
        have hpx : p = x := Prod.ext hpk' hval
        rwa [← hpx]
      · exact ((hadds x).mp hx).1
    · intro hxB
      rcases hfind : a.properties.find? (fun q => q.1 == x.1) with _ | p
      · refine List.mem_append.mpr (Or.inr ((hadds x).mpr ⟨hxB, ?_⟩))
        rw [hfind]
      · have hpA : p ∈ a.properties := List.mem_of_find?_eq_some hfind
        have hpk : p.1 = x.1 := by simpa using List.find?_some hfind
        by_cases hv : p.2 = x.2
        · have hpx : p = x := Prod.ext hpk hv
          refine List.mem_append.mpr (Or.inl (List.mem_filter.mpr ⟨hpx ▸ hpA, ?_⟩))
          simp only [Bool.and_eq_true, Bool.not_eq_true']
          constructor
          · rw [List.contains_eq_any_beq, List.any_eq_false]
            intro k hk hxk
            have hxk' : x.1 = k := by simpa using hxk
            obtain ⟨kv, hkvA, hkvB, hkvk⟩ := (hrem k).mp hk
            have := List.any_eq_false.mp hkvB x hxB
            simp [hkvk, hxk'] at this
          · rw [List.any_eq_false]
            intro q hq hqx
            have hqx' : q.1 = x.1 := by simpa using hqx
            obtain ⟨hqB, hgq⟩ := (hadds q).mp hq
            have hqv : q.2 = x.2 :=
              @key_val_unique _ hB x.1 q.2 x.2 (by rw [← hqx']; exact hqB) hxB
            rw [hqx', hfind] at hgq
            simp only [decide_eq_true_eq] at hgq
            exact hgq (hv.trans hqv.symm)
        · refine List.mem_append.mpr (Or.inr ((hadds x).mpr ⟨hxB, ?_⟩))
          rw [hfind]
          simpa using fun h => hv (by rw [h])
theorem goodState_name {s : BlockState} (h : goodState s = true) : goodName s.name = true := by
  rw [goodState, Bool.and_eq_true] at h
  exact h.1

theorem goodState_props {s : BlockState} (h : goodState s = true) :
    goodProps s.properties = true := by
  rw [goodState, Bool.and_eq_true] at h
  exact h.2

theorem goodProps_spec {ps : List (Str × Str)} (h : goodProps ps = true) :
    (∀ kv ∈ ps, ¬ kv.1 = [] ∧ ¬ kv.2 = [] ∧ (∀ c ∈ kv.1, isIdentChar c = true) ∧
      (∀ c ∈ kv.2, isIdentChar c = true)) ∧
    (ps.map Prod.fst).Nodup ∧ ps.length ≤ 256 := by
  rw [goodProps] at h
  simp only [Bool.and_eq_true, List.all_eq_true, decide_eq_true_eq, Bool.not_eq_true',
    List.isEmpty_eq_false, ne_eq] at h
  obtain ⟨⟨h1, h2⟩, h3⟩ := h
  refine ⟨fun kv hkv => ?_, h2, h3⟩
  obtain ⟨⟨⟨e1, e2⟩, e3⟩, e4⟩ := h1 kv hkv
  exact ⟨e1, e2, e3, e4⟩

theorem getLast?_no_colon {l : Str} (hne : l ≠ []) (h : ∀ c ∈ l, isNameChar c = true) :
    ¬ l.getLast? = some ':' := by
  rw [List.getLast?_eq_getLast l hne]
  intro hc
  have hcl : l.getLast hne = ':' := by simpa using hc
  have hm := h _ (List.getLast_mem hne)
  rw [hcl] at hm
  exact (nameChar_ne hm).1 rfl

theorem not_sign_of_ne {c : Char} (h1 : ¬ c = '+') (h2 : ¬ c = '-') : isSignChar c = false := by
  simp [isSignChar, h1, h2]

theorem diffAdds_sub (a b : BlockState) : ∀ kv ∈ diffAdds a b, kv ∈ b.properties :=
  fun _ hkv => (List.mem_filter.mp hkv).1

theorem diffRemoves_keys (a b : BlockState) :
    ∀ k ∈ diffRemoves a b, ∃ v, (k, v) ∈ a.properties := by
  intro k hk
  obtain ⟨kv, hkv, hk1⟩ := List.mem_map.mp hk
  exact ⟨kv.2, by rw [← hk1]; exact (List.mem_filter.mp hkv).1⟩

theorem diffAdds_len (a b : BlockState) : (diffAdds a b).length ≤ b.properties.length :=
  List.length_filter_le _ _

theorem diffRemoves_len (a b : BlockState) : (diffRemoves a b).length ≤ a.properties.length := by
  rw [diffRemoves, List.length_map]
  exact List.length_filter_le _ _

theorem addsFrag_chars (a b : BlockState) (hbp : goodProps b.properties = true) :
    ∀ x ∈ (diffAdds a b).map (fun kv => kv.1 ++ '=' :: kv.2), ∀ c ∈ x,
      isIdentChar c = true ∨ c = '=' := by
  intro x hx c hc
  obtain ⟨kv, hkv, rfl⟩ := List.mem_map.mp hx
  obtain ⟨hall, -, -⟩ := goodProps_spec hbp
  obtain ⟨-, -, hk, hv⟩ := hall kv (diffAdds_sub a b kv hkv)
  rcases List.mem_append.mp hc with hc | hc
  · exact Or.inl (hk c hc)
  · rcases List.mem_cons.mp hc with rfl | hc
    · exact Or.inr rfl
    · exact Or.inl (hv c hc)

theorem removesPiece_chars (a b : BlockState) (hap : goodProps a.properties = true) :
    ∀ x ∈ diffRemoves a b, ∀ c ∈ x, isIdentChar c = true := by
  intro x hx c hc
  obtain ⟨v, hv⟩ := diffRemoves_keys a b x hx
  obtain ⟨hall, -, -⟩ := goodProps_spec hap
  obtain ⟨-, -, hk, -⟩ := hall (x, v) hv
  exact hk c hc

/-- The name component of a difference between two good states: its
characters, its colon count, and the name `update` reconstructs from
it. -/
theorem diffName_spec (a b : BlockState) (ha : goodState a = true) (hb : goodState b = true) :
    (∀ c ∈ diffNamePart a b, isNameChar c = true ∨ c = ':') ∧
    (diffNamePart a b).count ':' ≤ 1 ∧
    (diffNamePart a b = [] → a.name = b.name) ∧
    ((diffNamePart a b ≠ []) →
      (if (if (diffNamePart a b).head? = some ':'
           then splitColonFirst a.name ++ diffNamePart a b
           else diffNamePart a b).getLast? = some ':'
       then (if (diffNamePart a b).head? = some ':'
             then splitColonFirst a.name ++ diffNamePart a b
             else diffNamePart a b) ++ splitColonLast a.name
       else (if (diffNamePart a b).head? = some ':'
             then splitColonFirst a.name ++ diffNamePart a b
             else diffNamePart a b)) = b.name) := by
  obtain ⟨ans, aty, haeq, hansne, hatyne, hansC, hatyC, -⟩ := goodName_decomp (goodState_name ha)
  obtain ⟨bns, bty, hbeq, hbnsne, hbtyne, hbnsC, hbtyC, -⟩ := goodName_decomp (goodState_name hb)
  have hansF : ∀ c ∈ ans, ¬ c = ':' := fun c hc => (nameChar_ne (hansC c hc)).1
  have hatyF : ∀ c ∈ aty, ¬ c = ':' := fun c hc => (nameChar_ne (hatyC c hc)).1
  have hbnsF : ∀ c ∈ bns, ¬ c = ':' := fun c hc => (nameChar_ne (hbnsC c hc)).1
  have hbtyF : ∀ c ∈ bty, ¬ c = ':' := fun c hc => (nameChar_ne (hbtyC c hc)).1
  have hnsa : nsOf a.name = ans := by rw [haeq]; exact nsOf_decomp _ _ hansF
  have htya : tyOf a.name = aty := by rw [haeq]; exact tyOf_decomp _ _ hansF
  have hnsb : nsOf b.name = bns := by rw [hbeq]; exact nsOf_decomp _ _ hbnsF
  have htyb : tyOf b.name = bty := by rw [hbeq]; exact tyOf_decomp _ _ hbnsF
  have hscf : splitColonFirst a.name = ans := by
    rw [haeq]; exact splitColonFirst_decomp _ _ hansF
  have hscl : splitColonLast a.name = aty := by
    rw [haeq]; exact splitColonLast_decomp _ _ hatyF
  by_cases hnm : a.name = b.name
  · have hN : diffNamePart a b = [] := by rw [diffNamePart, if_pos hnm]
    rw [hN]
    exact ⟨by simp, by simp, fun _ => hnm, fun hne => absurd rfl hne⟩
  · have hN : diffNamePart a b =
        (if nsOf b.name ≠ nsOf a.name then nsOf b.name else [])
          ++ (if nsOf b.name ≠ nsOf a.name ∨ tyOf b.name ≠ tyOf a.name then [':'] else [])
          ++ (if tyOf b.name ≠ tyOf a.name then tyOf b.name else []) := by
      rw [diffNamePart, if_neg hnm]
    rw [hN, hnsa, hnsb, htya, htyb]
    by_cases hns : bns = ans
    · by_cases hty : bty = aty
      · exact absurd (by rw [haeq, hbeq, hns, hty]) hnm
      · rw [if_neg (by simp [hns]), if_pos (Or.inr hty), if_pos hty]
        simp only [List.nil_append, List.singleton_append]
        have h0 : List.count ':' bty = 0 := List.count_eq_zero.mpr (fun hc => hbtyF ':' hc rfl)
        refine ⟨?_, ?_, ?_, ?_⟩
        · intro c hc
          rcases List.mem_cons.mp hc with rfl | hc
          · exact Or.inr rfl
          · exact Or.inl (hbtyC c hc)
        · simp [List.count_cons, h0]
        · intro hcontra; simp at hcontra
        · rintro -
          have hn1 : (if (':' :: bty).head? = some ':'
              then splitColonFirst a.name ++ ':' :: bty else ':' :: bty) =
              ans ++ ':' :: bty := by
            rw [if_pos (show (':' :: bty).head? = some ':' from rfl), hscf]
          simp only [hn1]
          have hgl : (ans ++ ':' :: bty).getLast? = bty.getLast? := by
            rw [List.getLast?_append_cons]
            cases bty with
            | nil => exact absurd rfl hbtyne
            | cons y ys => exact List.getLast?_cons_cons
          rw [if_neg (show ¬((ans ++ ':' :: bty).getLast? = some ':') by
            rw [hgl]; exact getLast?_no_colon hbtyne hbtyC), hbeq, hns]
    · obtain ⟨x, r, rfl⟩ : ∃ x r, bns = x :: r := by
        cases bns with
        | nil => exact absurd rfl hbnsne
        | cons x r => exact ⟨x, r, rfl⟩
      have hx : isNameChar x = true := hbnsC x (by simp)
      have hxcol : ¬ x = ':' := (nameChar_ne hx).1
      by_cases hty : bty = aty
      · rw [if_pos hns, if_pos (Or.inl hns), if_neg (not_not_intro hty), List.append_nil]
        have h0 : List.count ':' (x :: r) = 0 :=
          List.count_eq_zero.mpr (fun hc => hbnsF ':' hc rfl)
        refine ⟨?_, ?_, ?_, ?_⟩
        · intro c hc
          rcases List.mem_append.mp hc with hc | hc
          · exact Or.inl (hbnsC c hc)
          · rcases List.mem_singleton.mp hc with rfl
            exact Or.inr rfl
        · rw [List.count_append, h0]
          decide
        · intro hcontra; simp at hcontra
        · rintro -
          have hn1 : (if ((x :: r) ++ [':']).head? = some ':'
              then splitColonFirst a.name ++ ((x :: r) ++ [':']) else (x :: r) ++ [':']) =
              (x :: r) ++ [':'] := by
            rw [if_neg (show ¬(((x :: r) ++ [':']).head? = some ':') by
              intro h; exact hxcol (by simpa using h))]
          simp only [hn1]
          rw [if_pos (show ((x :: r) ++ [':']).getLast? = some ':' by
            rw [List.getLast?_append_cons]; rfl), hscl, hbeq, hty]
          simp
      · rw [if_pos hns, if_pos (Or.inl hns), if_pos hty]
        have hsh : ((x :: r) ++ [':']) ++ bty = (x :: r) ++ ':' :: bty := by simp
        rw [hsh]
        have h0ns : List.count ':' (x :: r) = 0 :=
          List.count_eq_zero.mpr (fun hc => hbnsF ':' hc rfl)
        have h0ty : List.count ':' bty = 0 := List.count_eq_zero.mpr (fun hc => hbtyF ':' hc rfl)
        refine ⟨?_, ?_, ?_, ?_⟩
        · intro c hc
          rcases List.mem_append.mp hc with hc | hc
          · exact Or.inl (hbnsC c hc)
          · rcases List.mem_cons.mp hc with rfl | hc
            · exact Or.inr rfl
            · exact Or.inl (hbtyC c hc)
        · rw [List.count_append, h0ns, List.count_cons, h0ty]
          simp
        · intro hcontra; simp at hcontra
        · rintro -
          have hn1 : (if ((x :: r) ++ ':' :: bty).head? = some ':'
              then splitColonFirst a.name ++ ((x :: r) ++ ':' :: bty)
              else (x :: r) ++ ':' :: bty) = (x :: r) ++ ':' :: bty := by
            rw [if_neg (show ¬(((x :: r) ++ ':' :: bty).head? = some ':') by
              intro h; exact hxcol (by simpa using h))]
          simp only [hn1]
          have hgl : ((x :: r) ++ ':' :: bty).getLast? = bty.getLast? := by
            rw [List.getLast?_append_cons]
            cases bty with
            | nil => exact absurd rfl hbtyne
            | cons y ys => exact List.getLast?_cons_cons
          rw [if_neg (show ¬(((x :: r) ++ ':' :: bty).getLast? = some ':') by
            rw [hgl]; exact getLast?_no_colon hbtyne hbtyC), hbeq]
theorem except_bind_ok {α β : Type} (a : α) (f : α → Except Str β) :
    Except.bind (Except.ok a) f = f a := rfl

/-- Parsing the `+` segment of a well-formed difference accumulates
exactly the diff's additions. -/
theorem parse_adds (a b : BlockState) (tail : Str)
    (hbp : goodProps b.properties = true) (hlenA : (diffAdds a b).length ≤ 256)
    (hAne : ¬ diffAdds a b = [])
    (htail : tail = [] ∨ ∃ s t, tail = s :: t ∧ isSignChar s = true) :
    parseSegs
      ('+' :: (List.intercalate [',']
        ((diffAdds a b).map (fun kv => kv.1 ++ '=' :: kv.2)) ++ tail)) [] [] =
      parseSegs tail (diffAdds a b) [] := by
  have hfrag := addsFrag_chars a b hbp
  have hsegfree : ∀ c ∈ List.intercalate [',']
      ((diffAdds a b).map (fun kv => kv.1 ++ '=' :: kv.2)), isSignChar c = false := by
    intro c hc
    have := mem_intercalate_comma (p := fun c => !isSignChar c)
      (fun x hx c' hc' => by
        rcases hfrag x hx c' hc' with h | rfl
        · simp [not_sign_of_ne (identChar_ne h).2.1 (identChar_ne h).2.2.1]
        · decide) (by decide) c hc
    simpa using this
  rw [parseSegs_add _ _ _ _ hsegfree htail]
  rw [List.splitOn_intercalate _ ','
    (fun l hl hcm => by
      rcases hfrag l hl ',' hcm with h | h
      · exact (identChar_ne h).2.2.2.2 rfl
      · simp at h)
    (by simpa using hAne)]
  rw [pushAdds_spec (diffAdds a b) []
    (fun kv hkv c hc =>
      (identChar_ne (((goodProps_spec hbp).1 kv (diffAdds_sub a b kv hkv)).2.2.1 c hc)).2.2.2.1)
    (by simp only [List.length_nil]; omega)]
  simp

/-- Parsing the `-` segment of a well-formed difference accumulates
exactly the diff's removals. -/
theorem parse_removes (a b : BlockState) (toA : List (Str × Str))
    (hap : goodProps a.properties = true) (hlenR : (diffRemoves a b).length ≤ 256)
    (hRne : ¬ diffRemoves a b = []) :
    parseSegs ('-' :: List.intercalate [','] (diffRemoves a b)) toA [] =
      .ok (toA, diffRemoves a b) := by
  have hpc := removesPiece_chars a b hap
  have hsegfree : ∀ c ∈ List.intercalate [','] (diffRemoves a b), isSignChar c = false := by
    intro c hc
    have := mem_intercalate_comma (p := fun c => !isSignChar c)
      (fun x hx c' hc' => by
        simp [not_sign_of_ne (identChar_ne (hpc x hx c' hc')).2.1
          (identChar_ne (hpc x hx c' hc')).2.2.1]) (by decide) c hc
    simpa using this
  have hshape : ('-' :: List.intercalate [','] (diffRemoves a b)) =
      '-' :: (List.intercalate [','] (diffRemoves a b) ++ []) := by simp
  rw [hshape, parseSegs_remove _ _ _ _ hsegfree (Or.inl rfl)]
  rw [List.splitOn_intercalate _ ','
    (fun l hl hcm => (identChar_ne (hpc l hl ',' hcm)).2.2.2.2 rfl) hRne]
  rw [pushRemoves_spec (diffRemoves a b) [] (by simp only [List.length_nil]; omega)]
  simp [parseSegs_nil]

/-- Evaluation of `update` on a difference string decomposed as a
sign-free name part followed by segments with a known parse. -/
theorem update_eval (a' : BlockState) (N T nm : Str)
    (toA : List (Str × Str)) (toR : List Str)
    (hNsign : ∀ c ∈ N, isSignChar c = false)
    (hlegal : ∀ c ∈ N ++ T, isLegalDiffChar c = true)
    (hlen : (N ++ T).length ≤ 4096)
    (hne : ¬ N ++ T = [])
    (hT : T = [] ∨ ∃ s t, T = s :: t ∧ isSignChar s = true)
    (hcount : ¬ N.count ':' > 1)
    (hparse : parseSegs T [] [] = Except.ok (toA, toR))
    (hname : (N = [] ∧ nm = a'.name) ∨
      (¬ N = [] ∧
        (if (if N.head? = some ':' then splitColonFirst a'.name ++ N else N).getLast? = some ':'
         then (if N.head? = some ':' then splitColonFirst a'.name ++ N else N)
            ++ splitColonLast a'.name
         else (if N.head? = some ':' then splitColonFirst a'.name ++ N else N)) = nm))
    (h64 : ¬ nm.length > 64) :
    BlockState.update a' (N ++ T) =
      Except.ok ⟨nm, a'.properties.filter (fun kv =>
        !toR.contains kv.1 && !toA.any (fun ak => ak.1 == kv.1)) ++ toA⟩ := by
  have hws : ∀ c ∈ N ++ T, isWS c = false := fun c hc => legal_not_ws (hlegal c hc)
  have htrim : trimStr (N ++ T) = N ++ T := trimStr_no_ws hws
  have hfilter : (N ++ T).filter (fun c => !isWS c) = N ++ T := filter_no_ws hws
  have hall : (N ++ T).all isLegalDiffChar = true := List.all_eq_true.mpr hlegal
  have hfs : ((N ++ T).findIdx? isSignChar).getD (N ++ T).length = N.length := by
    rcases hT with rfl | ⟨s, t, rfl, hs⟩
    · rw [findIdx?_all_false isSignChar _ (fun c hc => hNsign c (by simpa using hc))]
      simp
    · rw [findIdx?_append_first isSignChar N s t hNsign hs]
      rfl
  simp only [BlockState.update]
  rw [htrim]
  rw [if_neg (show ¬ ((N ++ T).isEmpty = true) by rw [List.isEmpty_iff]; exact hne)]
  rw [if_neg (show ¬ ((N ++ T).length > 4096) by omega)]
  rw [hfilter]
  rw [if_neg (show ¬ ((!(N ++ T).all isLegalDiffChar) = true) by rw [hall]; decide)]
  rw [hfs, List.take_left, List.drop_left, hparse]
  rcases hname with ⟨hN0, hnm⟩ | ⟨hNne, hnm⟩
  · subst hnm
    rw [hN0]
    rw [if_pos (show (([] : Str)).isEmpty = true from rfl)]
    rw [except_bind_ok]
    rw [if_neg h64]
    rfl
  · rw [if_neg (show ¬ (N.isEmpty = true) by rw [List.isEmpty_iff]; exact hNne),
      if_neg hcount]
    rw [except_bind_ok]
    rw [hnm, if_neg h64]
    rfl
theorem goodName_len {n : Str} (h : goodName n = true) : n.length ≤ 64 := by
  obtain ⟨-, -, -, -, -, -, -, hlen⟩ := goodName_decomp h
  exact hlen

/-- Master round-trip lemma: replaying `difference a b` through `update`
on a state carrying `a`'s name and any permutation of `a`'s properties
produces `b`'s name together with a permutation of `b`'s properties. -/
theorem update_difference_perm (a b : BlockState) (pa : List (Str × Str))
    (ha : goodState a = true) (hb : goodState b = true)
    (hpa : pa.Perm a.properties)
    (hlen : (BlockState.difference a b).length ≤ 4096) :
    ∃ props, BlockState.update ⟨a.name, pa⟩ (BlockState.difference a b) =
        Except.ok ⟨b.name, props⟩ ∧ props.Perm b.properties := by
  obtain ⟨-, hAnd, hAlen⟩ := goodProps_spec (goodState_props ha)
  obtain ⟨-, hBnd, hBlen⟩ := goodProps_spec (goodState_props hb)
  obtain ⟨hNchar, hNcount, hNnil, hNres⟩ := diffName_spec a b ha hb
  have hNlegal : ∀ c ∈ diffNamePart a b, isLegalDiffChar c = true := by
    intro c hc
    rcases hNchar c hc with h | rfl
    · exact nameChar_legal h
    · decide
  have hNsign : ∀ c ∈ diffNamePart a b, isSignChar c = false := by
    intro c hc
    rcases hNchar c hc with h | rfl
    · exact not_sign_of_ne (nameChar_ne h).2.1 (nameChar_ne h).2.2.1
    · decide
  have hAlegal : ∀ c ∈ List.intercalate [',']
      ((diffAdds a b).map (fun kv => kv.1 ++ '=' :: kv.2)), isLegalDiffChar c = true := by
    intro c hc
    refine mem_intercalate_comma ?_ (by decide) c hc
    intro x hx c' hc'
    rcases addsFrag_chars a b (goodState_props hb) x hx c' hc' with h | rfl
    · exact identChar_legal h
    · decide
  have hRlegal : ∀ c ∈ List.intercalate [','] (diffRemoves a b),
      isLegalDiffChar c = true := by
    intro c hc
    refine mem_intercalate_comma ?_ (by decide) c hc
    intro x hx c' hc'
    exact identChar_legal (removesPiece_chars a b (goodState_props ha) x hx c' hc')
  have hlenA : (diffAdds a b).length ≤ 256 := le_trans (diffAdds_len a b) hBlen
  have hlenR : (diffRemoves a b).length ≤ 256 := le_trans (diffRemoves_len a b) hAlen
  have hcount2 : ¬ (diffNamePart a b).count ':' > 1 := by omega
  have h64 : ¬ b.name.length > 64 := by
    have := goodName_len (goodState_name hb)
    omega
  have hfinal : ((⟨a.name, pa⟩ : BlockState).properties.filter (fun kv =>
      !(diffRemoves a b).contains kv.1 && !(diffAdds a b).any (fun ak => ak.1 == kv.1))
      ++ diffAdds a b).Perm b.properties := by
    refine List.Perm.trans (List.Perm.append_right _ ?_) (kept_adds_perm a b hAnd hBnd)
    exact hpa.filter _
  have hD : BlockState.difference a b = diffNamePart a b ++
      ((if (diffAdds a b).isEmpty then [] else
        '+' :: List.intercalate [','] ((diffAdds a b).map (fun kv => kv.1 ++ '=' :: kv.2)))
      ++ (if (diffRemoves a b).isEmpty then [] else
        '-' :: List.intercalate [','] (diffRemoves a b))) := by
    simp only [BlockState.difference]
    rw [List.append_assoc]
  have hname0 : (diffNamePart a b = [] ∧ b.name = (⟨a.name, pa⟩ : BlockState).name) ∨
      (¬ diffNamePart a b = [] ∧
        (if (if (diffNamePart a b).head? = some ':'
             then splitColonFirst (⟨a.name, pa⟩ : BlockState).name ++ diffNamePart a b
             else diffNamePart a b).getLast? = some ':'
         then (if (diffNamePart a b).head? = some ':'
               then splitColonFirst (⟨a.name, pa⟩ : BlockState).name ++ diffNamePart a b
               else diffNamePart a b) ++ splitColonLast (⟨a.name, pa⟩ : BlockState).name
         else (if (diffNamePart a b).head? = some ':'
               then splitColonFirst (⟨a.name, pa⟩ : BlockState).name ++ diffNamePart a b
               else diffNamePart a b)) = b.name) := by
    by_cases hN0 : diffNamePart a b = []
    · exact Or.inl ⟨hN0, (hNnil hN0).symm⟩
    · exact Or.inr ⟨hN0, hNres hN0⟩
  by_cases hAe : diffAdds a b = []
  · by_cases hRe : diffRemoves a b = []
    · have hDe : BlockState.difference a b = diffNamePart a b ++ [] := by
        rw [hD, hAe, hRe]
        simp
      by_cases hN0 : diffNamePart a b = []
      · -- empty diff: `update` short-circuits on the trimmed-empty check
        have hDnil : BlockState.difference a b = [] := by rw [hDe, hN0]; rfl
        rw [hDnil]
        refine ⟨pa, ?_, ?_⟩
        · have hok : BlockState.update ⟨a.name, pa⟩ [] = .ok ⟨a.name, pa⟩ := rfl
          rw [hok, hNnil hN0]
        · have h1 : pa.filter (fun kv =>
              !(diffRemoves a b).contains kv.1 &&
              !(diffAdds a b).any (fun ak => ak.1 == kv.1)) = pa :=
            List.filter_eq_self.mpr (fun x _ => by rw [hAe, hRe]; rfl)
          have h2 := hfinal
          rw [h1, hAe, List.append_nil] at h2
          exact h2
      · rw [hDe]
        refine ⟨_, update_eval ⟨a.name, pa⟩ (diffNamePart a b) [] b.name
          (diffAdds a b) (diffRemoves a b) hNsign
          (fun c hc => hNlegal c (by simpa using hc))
          (by rw [← hDe]; exact hlen)
          (by simp only [List.append_nil]; exact hN0)
          (Or.inl rfl) hcount2
          (by rw [hAe, hRe]; exact parseSegs_nil [] []) hname0 h64, hfinal⟩
    · have hDe : BlockState.difference a b = diffNamePart a b ++
          ('-' :: List.intercalate [','] (diffRemoves a b)) := by
        rw [hD, hAe]
        rw [if_neg (show ¬ ((diffRemoves a b).isEmpty = true) by
          rw [List.isEmpty_iff]; exact hRe)]
        simp
      rw [hDe]
      refine ⟨_, update_eval ⟨a.name, pa⟩ (diffNamePart a b)
        ('-' :: List.intercalate [','] (diffRemoves a b)) b.name
        (diffAdds a b) (diffRemoves a b) hNsign
        (fun c hc => ?_)
        (by rw [← hDe]; exact hlen)
        (by simp)
        (Or.inr ⟨'-', List.intercalate [','] (diffRemoves a b), rfl, by decide⟩) hcount2
        (by rw [hAe]; exact parse_removes a b [] (goodState_props ha) hlenR hRe)
        hname0 h64, hfinal⟩
      rcases List.mem_append.mp hc with hc | hc
      · exact hNlegal c hc
      · rcases List.mem_cons.mp hc with rfl | hc
        · decide
        · exact hRlegal c hc
  · by_cases hRe : diffRemoves a b = []
    · have hDe : BlockState.difference a b = diffNamePart a b ++
          ('+' :: (List.intercalate [',']
            ((diffAdds a b).map (fun kv => kv.1 ++ '=' :: kv.2)) ++ [])) := by
        rw [hD, hRe]
        rw [if_neg (show ¬ ((diffAdds a b).isEmpty = true) by
          rw [List.isEmpty_iff]; exact hAe)]
        simp
      rw [hDe]
      refine ⟨_, update_eval ⟨a.name, pa⟩ (diffNamePart a b)
        ('+' :: (List.intercalate [',']
          ((diffAdds a b).map (fun kv => kv.1 ++ '=' :: kv.2)) ++ [])) b.name
        (diffAdds a b) (diffRemoves a b) hNsign
        (fun c hc => ?_)
        (by rw [← hDe]; exact hlen)
        (by simp)
        (Or.inr ⟨'+', _, rfl, by decide⟩) hcount2
        (by rw [parse_adds a b [] (goodState_props hb) hlenA hAe (Or.inl rfl),
              parseSegs_nil, hRe])
        hname0 h64, hfinal⟩
      rcases List.mem_append.mp hc with hc | hc
      · exact hNlegal c hc
      · rcases List.mem_cons.mp hc with rfl | hc
        · decide
        · exact hAlegal c (by simpa using hc)
    · have hDe : BlockState.difference a b = diffNamePart a b ++
          ('+' :: (List.intercalate [',']
            ((diffAdds a b).map (fun kv => kv.1 ++ '=' :: kv.2)) ++
            ('-' :: List.intercalate [','] (diffRemoves a b)))) := by
        rw [hD,
          if_neg (show ¬ ((diffAdds a b).isEmpty = true) by
            rw [List.isEmpty_iff]; exact hAe),
          if_neg (show ¬ ((diffRemoves a b).isEmpty = true) by
            rw [List.isEmpty_iff]; exact hRe)]
        simp
      rw [hDe]
      refine ⟨_, update_eval ⟨a.name, pa⟩ (diffNamePart a b)
        ('+' :: (List.intercalate [',']
          ((diffAdds a b).map (fun kv => kv.1 ++ '=' :: kv.2)) ++
          ('-' :: List.intercalate [','] (diffRemoves a b)))) b.name
        (diffAdds a b) (diffRemoves a b) hNsign
        (fun c hc => ?_)
        (by rw [← hDe]; exact hlen)
        (by simp)
        (Or.inr ⟨'+', _, rfl, by decide⟩) hcount2
        (by rw [parse_adds a b ('-' :: List.intercalate [','] (diffRemoves a b))
              (goodState_props hb) hlenA hAe
              (Or.inr ⟨'-', List.intercalate [','] (diffRemoves a b), rfl, by decide⟩)]
            exact parse_removes a b (diffAdds a b) (goodState_props ha) hlenR hRe)
        hname0 h64, hfinal⟩
      rcases List.mem_append.mp hc with hc | hc
      · exact hNlegal c hc
      · rcases List.mem_cons.mp hc with rfl | hc
        · decide
        · rcases List.mem_append.mp hc with hc | hc
          · exact hAlegal c hc
          · rcases List.mem_cons.mp hc with rfl | hc
            · decide
            · exact hRlegal c hc
/-- C1 (corrected): for valid block states (well-formed single-colon
names and identifier properties with distinct keys, as the data model
produces) whose textual difference fits `update`'s 4096-character limit,
applying the diff back to the original succeeds and reproduces the
target's name and the multiset of its properties; the result's property
*order* (and hence the program's order-sensitive `PartialEq`) is not
guaranteed to match `b`, so the original claim's `== b` fails (see the
counterexample). -/
theorem C1_update_difference_roundtrip (a b : BlockState)
    (ha : goodState a = true) (hb : goodState b = true)
    (hlen : (BlockState.difference a b).length ≤ 4096) :
    ∃ c, BlockState.update a (BlockState.difference a b) = Except.ok c ∧
      c.name = b.name ∧ c.properties.Perm b.properties := by
  obtain ⟨props, hok, hperm⟩ :=
    update_difference_perm a b a.properties ha hb (List.Perm.refl _) hlen
  exact ⟨⟨b.name, props⟩, hok, rfl, hperm⟩

theorem C1_witness :
    goodState ⟨str ("minecraft:stone"), [(str ("facing"), str ("north"))]⟩ = true ∧
    goodState ⟨str ("minecraft:lamp"),
      [(str ("lit"), str ("true")), (str ("axis"), str ("y"))]⟩ = true ∧
    (BlockState.difference ⟨str ("minecraft:stone"), [(str ("facing"), str ("north"))]⟩
      ⟨str ("minecraft:lamp"),
        [(str ("lit"), str ("true")), (str ("axis"), str ("y"))]⟩).length ≤ 4096 ∧
    ∃ c, BlockState.update ⟨str ("minecraft:stone"), [(str ("facing"), str ("north"))]⟩
        (BlockState.difference ⟨str ("minecraft:stone"), [(str ("facing"), str ("north"))]⟩
          ⟨str ("minecraft:lamp"),
            [(str ("lit"), str ("true")), (str ("axis"), str ("y"))]⟩) = Except.ok c ∧
      c.name = (⟨str ("minecraft:lamp"),
        [(str ("lit"), str ("true")), (str ("axis"), str ("y"))]⟩ : BlockState).name ∧
      c.properties.Perm (⟨str ("minecraft:lamp"),
        [(str ("lit"), str ("true")), (str ("axis"), str ("y"))]⟩ : BlockState).properties :=
  ⟨by decide, by decide, by decide,
    C1_update_difference_roundtrip _ _ (by decide) (by decide) (by decide)⟩

/-- C1 counterexample: two parser-constructible states with the same
property multiset in different orders have an empty difference; replaying
it returns the original left state unchanged, which the program's
order-sensitive equality distinguishes from `b`, refuting
`update(a, diff(a, b)) == b`. -/
theorem C1_counterexample :
    BlockState.from_string (str ("minecraft:a[k1=v1,k2=v2]")) =
      Except.ok ⟨str ("minecraft:a"), [(str ("k1"), str ("v1")), (str ("k2"), str ("v2"))]⟩ ∧
    BlockState.from_string (str ("minecraft:a[k2=v2,k1=v1]")) =
      Except.ok ⟨str ("minecraft:a"), [(str ("k2"), str ("v2")), (str ("k1"), str ("v1"))]⟩ ∧
    BlockState.difference
      ⟨str ("minecraft:a"), [(str ("k1"), str ("v1")), (str ("k2"), str ("v2"))]⟩
      ⟨str ("minecraft:a"), [(str ("k2"), str ("v2")), (str ("k1"), str ("v1"))]⟩ = [] ∧
    BlockState.update
      ⟨str ("minecraft:a"), [(str ("k1"), str ("v1")), (str ("k2"), str ("v2"))]⟩
      (BlockState.difference
        ⟨str ("minecraft:a"), [(str ("k1"), str ("v1")), (str ("k2"), str ("v2"))]⟩
        ⟨str ("minecraft:a"), [(str ("k2"), str ("v2")), (str ("k1"), str ("v1"))]⟩) =
      Except.ok ⟨str ("minecraft:a"), [(str ("k1"), str ("v1")), (str ("k2"), str ("v2"))]⟩ ∧
    (⟨str ("minecraft:a"), [(str ("k1"), str ("v1")), (str ("k2"), str ("v2"))]⟩ : BlockState) ≠
      ⟨str ("minecraft:a"), [(str ("k2"), str ("v2")), (str ("k1"), str ("v1"))]⟩ :=
  ⟨rfl, rfl, rfl, rfl,
    fun h => absurd (congrArg BlockState.properties h) (by decide)⟩
/-! ### Claim C3: the Mojang schematic reader (`mojang_reader.rs`) -/

/-- Decimal digits to a number (`str::parse` digit loop). -/
def digitsToNat : Str → Option Nat
| [] => none
| cs =>
  cs.foldl (fun acc c => match acc with
    | none => none
    | some n => if c.isDigit then some (n * 10 + (c.toNat - 48)) else none) (some 0)

/-- `str::parse::<isize>`: optional sign, decimal digits, 64-bit signed
range. -/
def parseIsize (s : Str) : Except Str Int :=
  match s with
  | '-' :: rest =>
    (match digitsToNat rest with
     | some n => if n ≤ 2 ^ 63 then .ok (-(n : Int)) else .error (str ("Invalid temporary ID"))
     | none => .error (str ("Invalid temporary ID")))
  | '+' :: rest =>
    (match digitsToNat rest with
     | some n => if n < 2 ^ 63 then .ok (n : Int) else .error (str ("Invalid temporary ID"))
     | none => .error (str ("Invalid temporary ID")))
  | _ =>
    (match digitsToNat s with
     | some n => if n < 2 ^ 63 then .ok (n : Int) else .error (str ("Invalid temporary ID"))
     | none => .error (str ("Invalid temporary ID")))

/-- `LazyPaletteBlockStoreWrapper`; the Mojang reader builds its inner
store with `empty_resizable_from_size`, which is a `PagedBlockStore`. -/
structure LazyPaletteBlockStoreWrapper : Type where
  inner : PagedBlockStore
  temp_palette : List (Int × BlockState)
  actual_palette : Option (List (Int × BlockState))
deriving DecidableEq, Repr

/-- `LazyPaletteBlockStoreWrapper::block_at`: resolve the temporary id
stored in the first property of the inner state through the actual
palette (`state.properties[0]` panics on a state without properties). -/
def LazyPaletteBlockStoreWrapper.block_at (w : LazyPaletteBlockStoreWrapper)
    (pos : BlockPosition) : Except Str (Option BlockState) :=
  match w.actual_palette with
  | none => .error (str ("Can not access blocks if palette is not provided"))
  | some palette =>
    match w.inner.block_at pos with
    | .error e => .error e
    | .ok none => .ok none
    | .ok (some state) =>
      match state.properties with
      | [] => .error (str ("panic: index out of bounds in block_at"))
      | kv :: _ =>
        match parseIsize kv.2 with
        | .error e => .error e
        | .ok id =>
          match palette.find? (fun e => e.1 == id) with
          | some e => .ok (some e.2)
          | none => .error (str ("Temporary ID not found in actual palette"))

/-- `Iterator::skip`: discard the first `n` outputs. -/
def iterSkip (it : BIter) : Nat → BIter
| 0 => it
| n + 1 => iterSkip (iterNext it).2 n

/-- The first `k` outputs of an iterator. -/
def iterTake (it : BIter) : Nat → List BlockPosition
| 0 => []
| k + 1 =>
  match iterNext it with
  | (none, _) => []
  | (some p, it') => p :: iterTake it' k

/-- The `for (i, block_pos) in iter.enumerate()` loop of
`MojangSchematicInputStream::read` (`mojang_reader.rs` lines 106-121):
stop after `length` positions or when the iterator is exhausted; each
position appends the resolved state, or `minecraft:air`
(`BlockState::air_arc()`) when the cell holds no block. -/
def mojangReadLoop (w : LazyPaletteBlockStoreWrapper) :
    BIter → List Block → Nat → Nat → Except Str (List Block × Nat)
| it, buffer, readBlocks, 0 => .ok (buffer, readBlocks)
| it, buffer, readBlocks, length + 1 =>
  match iterNext it with
  | (none, _) => .ok (buffer, readBlocks)
  | (some pos, it') =>
    match w.block_at pos with
    | .error e => .error e
    | .ok (some state) =>
      mojangReadLoop w it' (buffer ++ [⟨pos, state⟩]) (readBlocks + 1) length
    | .ok none =>
      mojangReadLoop w it' (buffer ++ [⟨pos, BlockState.air⟩]) (readBlocks + 1) length

/-- `MojangSchematicInputStream::read` after the header: result value,
buffer and the updated `current_index`. -/
def mojangRead (blocks : Option LazyPaletteBlockStoreWrapper) (currentIndex : Nat)
    (buffer : List Block) (length : Nat) :
    Except Str (Option Nat × List Block × Nat) :=
  match blocks with
  | none => .ok (none, buffer, currentIndex)
  | some w =>
    match mojangReadLoop w (iterSkip (iterInit w.inner.boundary .XYZ) currentIndex)
        buffer 0 length with
    | .error e => .error e
    | .ok (buffer', readBlocks) =>
      if readBlocks = 0 then .ok (none, buffer', currentIndex)
      else .ok (some readBlocks, buffer', currentIndex + readBlocks)

theorem mojangReadLoop_ok {w : LazyPaletteBlockStoreWrapper} (length : Nat) (it : BIter)
    (buffer : List Block) (n : Nat) {res : List Block × Nat}
    (h : mojangReadLoop w it buffer n length = .ok res) :
    ∃ new : List Block, res.1 = buffer ++ new ∧ res.2 = n + new.length ∧
      new.map Block.position = iterTake it new.length ∧
      ∀ blk ∈ new, w.block_at blk.position = .ok (some blk.state) ∨
        (w.block_at blk.position = .ok none ∧ blk.state = BlockState.air) := by
  induction length generalizing it buffer n with
  | zero =>
    simp only [mojangReadLoop] at h
    obtain rfl : (buffer, n) = res := by injection h
    exact ⟨[], by simp, by simp, by simp [iterTake], by simp⟩
  | succ length ih =>
    rcases hit : iterNext it with ⟨o, it'⟩
    cases o with
    | none =>
      simp only [mojangReadLoop, hit] at h
      obtain rfl : (buffer, n) = res := by injection h
      exact ⟨[], by simp, by simp, by simp [iterTake], by simp⟩
    | some pos =>
      simp only [mojangReadLoop, hit] at h
      rcases hba : w.block_at pos with e | o2
      · rw [hba] at h
        simp at h
      · rw [hba] at h
        cases o2 with
        | none =>
          obtain ⟨new, h1, h2, h3, h4⟩ := ih it' (buffer ++ [⟨pos, BlockState.air⟩]) (n + 1) h
          refine ⟨⟨pos, BlockState.air⟩ :: new, ?_, ?_, ?_, ?_⟩
          · rw [h1]; simp
          · rw [h2]; simp only [List.length_cons]; omega
          · simp only [List.map_cons, iterTake, hit, h3]
          · intro blk hblk
            rcases List.mem_cons.mp hblk with rfl | hblk
            · exact Or.inr ⟨hba, rfl⟩
            · exact h4 blk hblk
        | some state =>
          obtain ⟨new, h1, h2, h3, h4⟩ := ih it' (buffer ++ [⟨pos, state⟩]) (n + 1) h
          refine ⟨⟨pos, state⟩ :: new, ?_, ?_, ?_, ?_⟩
          · rw [h1]; simp
          · rw [h2]; simp only [List.length_cons]; omega
          · simp only [List.map_cons, iterTake, hit, h3]
          · intro blk hblk
            rcases List.mem_cons.mp hblk with rfl | hblk
            · exact Or.inl hba
            · exact h4 blk hblk
/-- C3 (corrected): after the header, a successful `read` appends one
block per traversed position — the appended positions are the
consecutive outputs of the bounding box's XYZ iterator starting at the
current index, and each appended state is the palette-resolved state of
an occupied cell; but a cell holding *no* block appends an explicit
`minecraft:air` block, so air states do appear in the buffer (see the
counterexample), contrary to the claim that they never do. -/
theorem C3_mojang_read (w : LazyPaletteBlockStoreWrapper)
    (length currentIndex : Nat) (buffer : List Block)
    (res : Option Nat × List Block × Nat)
    (h : mojangRead (some w) currentIndex buffer length = .ok res) :
    ∃ new : List Block, res.2.1 = buffer ++ new ∧
      new.map Block.position =
        iterTake (iterSkip (iterInit w.inner.boundary .XYZ) currentIndex) new.length ∧
      res.1 = (if new.length = 0 then none else some new.length) ∧
      res.2.2 = (if new.length = 0 then currentIndex else currentIndex + new.length) ∧
      ∀ blk ∈ new, w.block_at blk.position = .ok (some blk.state) ∨
        (w.block_at blk.position = .ok none ∧ blk.state = BlockState.air) := by
  rw [mojangRead] at h
  rcases hloop : mojangReadLoop w (iterSkip (iterInit w.inner.boundary .XYZ) currentIndex)
      buffer 0 length with e | ⟨buf2, rd⟩
  · rw [hloop] at h
    simp at h
  · rw [hloop] at h
    have h' : (if rd = 0 then (Except.ok ((none : Option Nat), buf2, currentIndex) : Except Str (Option Nat × List Block × Nat))
        else Except.ok (some rd, buf2, currentIndex + rd)) = Except.ok res := h
    obtain ⟨new, h1, h2, h3, h4⟩ := mojangReadLoop_ok length _ buffer 0 hloop
    simp only at h1 h2
    by_cases h0 : rd = 0
    · rw [if_pos h0] at h'
      obtain rfl : ((none : Option Nat), buf2, currentIndex) = res := by injection h'
      have hlen0 : new.length = 0 := by omega
      refine ⟨new, h1, h3, ?_, ?_, h4⟩
      · rw [if_pos hlen0]
      · rw [if_pos hlen0]
    · rw [if_neg h0] at h'
      obtain rfl : (some rd, buf2, currentIndex + rd) = res := by injection h'
      have hlen0 : ¬ new.length = 0 := by omega
      refine ⟨new, h1, h3, ?_, ?_, h4⟩
      · rw [if_neg hlen0]
        simp only [h2, Nat.zero_add]
      · rw [if_neg hlen0]
        simp only [h2, Nat.zero_add]

theorem C3_witness :
    mojangRead (some ⟨⟨[], [], 0, 0, 0, ⟨0, 0, 0, 1, 1, 1⟩, false⟩, [], some []⟩) 0 [] 4096 =
      .ok (some 1, [⟨⟨0, 0, 0⟩, BlockState.air⟩], 1) ∧
    (∃ new : List Block, ([⟨⟨0, 0, 0⟩, BlockState.air⟩] : List Block) = [] ++ new ∧
      new.map Block.position = iterTake (iterSkip (iterInit
        (⟨⟨[], [], 0, 0, 0, ⟨0, 0, 0, 1, 1, 1⟩, false⟩, [], some []⟩ :
          LazyPaletteBlockStoreWrapper).inner.boundary .XYZ) 0) new.length ∧
      some 1 = (if new.length = 0 then none else some new.length) ∧
      (1 : Nat) = (if new.length = 0 then 0 else 0 + new.length) ∧
      ∀ blk ∈ new,
        (⟨⟨[], [], 0, 0, 0, ⟨0, 0, 0, 1, 1, 1⟩, false⟩, [], some []⟩ :
          LazyPaletteBlockStoreWrapper).block_at blk.position = .ok (some blk.state) ∨
        ((⟨⟨[], [], 0, 0, 0, ⟨0, 0, 0, 1, 1, 1⟩, false⟩, [], some []⟩ :
          LazyPaletteBlockStoreWrapper).block_at blk.position = .ok none ∧
          blk.state = BlockState.air)) :=
  ⟨rfl, C3_mojang_read ⟨⟨[], [], 0, 0, 0, ⟨0, 0, 0, 1, 1, 1⟩, false⟩, [], some []⟩ 4096 0 []
    (some 1, [⟨⟨0, 0, 0⟩, BlockState.air⟩], 1) rfl⟩
/-- C3 counterexample: a schematic store holding no block in its first
cell — the post-header `read` succeeds and appends a block whose state is
`minecraft:air`, refuting the claim that air names never appear in the
buffer. -/
theorem C3_counterexample :
    mojangRead (some ⟨⟨[], [], 0, 0, 0, ⟨0, 0, 0, 1, 1, 1⟩, false⟩, [], some []⟩) 0 [] 4096 =
      .ok (some 1, [⟨⟨0, 0, 0⟩, BlockState.air⟩], 1) ∧
    BlockState.is_air BlockState.air = true ∧
    BlockState.air.name = str ("minecraft:air") := ⟨rfl, rfl, rfl⟩
/-! ### Claim C2: the VXL codec (`vxl_writer.rs`, `vxl_reader.rs`).
Byte-level VarInt / VarLong / string codecs. -/

/-- The little-endian 7-bit groups of `write_var_int` / `write_var_long`
for a non-negative value. -/
def natVarIntAux : Nat → Nat → List Nat
| 0, _ => []
| fuel + 1, v => if v < 128 then [v] else (v % 128 + 128) :: natVarIntAux fuel (v / 128)

def natVarInt (v : Nat) : List Nat := natVarIntAux (v + 1) v

theorem natVarIntAux_congr : ∀ (f1 f2 v : Nat), v < f1 → v < f2 →
    natVarIntAux f1 v = natVarIntAux f2 v := by
  intro f1
  induction f1 with
  | zero =>
    intro f2 v h1
    omega
  | succ f1 ih =>
    intro f2 v h1 h2
    cases f2 with
    | zero => omega
    | succ f2 =>
      rw [natVarIntAux, natVarIntAux]
      by_cases h : v < 128
      · rw [if_pos h, if_pos h]
      · rw [if_neg h, if_neg h]
        have hdiv := Nat.div_lt_self (show 0 < v by omega) (show (1 : Nat) < 128 by omega)
        congr 1
        exact ih f2 (v / 128) (by omega) (by omega)

/-- The value loop of the VarInt encoder: 7-bit groups, continuation bit on
all but the last byte. -/
theorem natVarInt_eq (v : Nat) : natVarInt v =
    if v < 128 then [v] else (v % 128 + 128) :: natVarInt (v / 128) := by
  rw [natVarInt, natVarIntAux]
  by_cases h : v < 128
  · rw [if_pos h, if_pos h]
  · rw [if_neg h, if_neg h]
    have hdiv := Nat.div_lt_self (show 0 < v by omega) (show (1 : Nat) < 128 by omega)
    rw [natVarInt]
    congr 1
    exact natVarIntAux_congr v (v / 128 + 1) (v / 128) (by omega) (by omega)

/-- `write_var_int`: the loop `value >>= 7` never clears the sign bits of
a negative `i32`, so the 5-byte buffer overflows and the source panics;
non-negative values emit the canonical 7-bit groups. -/
def writeVarInt (v : Int) : Except Str (List Nat) :=
  if v < 0 then .error (str ("panic: VarInt buffer overflow on negative value"))
  else .ok (natVarInt v.toNat)

/-- `write_var_long` (same loop over a 10-byte buffer; negative `i64`
values overflow it just the same). -/
def writeVarLong (v : Int) : Except Str (List Nat) :=
  if v < 0 then .error (str ("panic: VarLong buffer overflow on negative value"))
  else .ok (natVarInt v.toNat)

/-- `read_var_int` of the VXL reader: 7-bit groups accumulated with
`|=`/`<<` into an `i32` (modelled as a `Nat` truncated to 32 bits at the
end, which agrees with per-step truncation for bitwise operations). -/
def readVarInt : List Nat → Nat → Nat → Except Str (Int × List Nat)
| [], _, _ => .error (str ("failed to fill whole buffer"))
| b :: rest, shift, acc =>
  let acc2 := acc ||| ((b &&& 127) <<< shift)
  if b &&& 128 = 0 then .ok (i32OfNat (acc2 % 2 ^ 32), rest)
  else if 32 ≤ shift + 7 then .error (str ("VXL: VarInt too big"))
  else readVarInt rest (shift + 7) acc2

/-- `read_var_long`. -/
def readVarLong : List Nat → Nat → Nat → Except Str (Int × List Nat)
| [], _, _ => .error (str ("failed to fill whole buffer"))
| b :: rest, shift, acc =>
  let acc2 := acc ||| ((b &&& 127) <<< shift)
  if b &&& 128 = 0 then .ok (i64OfNat (acc2 % 2 ^ 64), rest)
  else if 64 ≤ shift + 7 then .error (str ("VXL: VarLong too big"))
  else readVarLong rest (shift + 7) acc2

/-- `write_string`: byte length as a VarInt (through the `as i32` cast),
then the UTF-8 bytes.  The strings of these claims are ASCII, where the
UTF-8 encoding is the code points themselves. -/
def writeString (s : Str) : Except Str (List Nat) :=
  match writeVarInt (i32OfNat s.length) with
  | .error e => .error e
  | .ok lb => .ok (lb ++ s.map Char.toNat)

/-- `read_string`: length-prefixed bytes decoded as UTF-8.  Multi-byte
sequences (bytes ≥ 128) are not modelled and are conservatively treated
as a decode error; the strings of these claims are ASCII. -/
def readString (input : List Nat) : Except Str (Str × List Nat) :=
  match readVarInt input 0 0 with
  | .error e => .error e
  | .ok (len, rest) =>
    if len < 0 then .error (str ("Negative string length"))
    else if rest.length < len.toNat then .error (str ("failed to fill whole buffer"))
    else if (rest.take len.toNat).all (fun b => b < 128) then
      .ok ((rest.take len.toNat).map (fun b => Char.ofNat b), rest.drop len.toNat)
    else .error (str ("invalid utf-8: multi-byte sequences are not modelled"))

theorem and127_eq (b : Nat) : b &&& 127 = b % 128 := by
  simpa using Nat.and_pow_two_sub_one_eq_mod b 7

theorem and128_zero {b : Nat} (h : b < 128) : b &&& 128 = 0 := by
  have h7 : b.testBit 7 = false := Nat.testBit_lt_two_pow (by simpa using h)
  have := Nat.and_two_pow b 7
  simp only [h7, Bool.toNat_false, Nat.zero_mul] at this
  simpa using this

theorem and128_full {b : Nat} (h1 : 128 ≤ b) (h2 : b < 256) : b &&& 128 = 128 := by
  have h7 : b.testBit 7 = true := by
    rw [Nat.testBit_to_div_mod]
    simp only [decide_eq_true_eq]
    omega
  have := Nat.and_two_pow b 7
  simp only [h7, Bool.toNat_true, Nat.one_mul] at this
  simpa using this

theorem lor_shift_add {a : Nat} (b k : Nat) (h : a < 2 ^ k) :
    a ||| b <<< k = a + b <<< k := by
  apply Nat.eq_of_testBit_eq
  intro i
  rw [Nat.testBit_lor, Nat.testBit_shiftLeft]
  rw [Nat.shiftLeft_eq, Nat.add_comm, Nat.mul_comm,
    Nat.testBit_mul_pow_two_add b h i]
  by_cases hik : i < k
  · rw [if_pos hik]
    have hd : decide (i ≥ k) = false := by simp; omega
    simp [hd]
  · rw [if_neg hik]
    have h1 : a.testBit i = false :=
      Nat.testBit_lt_two_pow (lt_of_lt_of_le h (Nat.pow_le_pow_right (by norm_num) (by omega)))
    have h2 : decide (i ≥ k) = true := by simp; omega
    simp [h1, h2]

theorem readVarInt_enc (n : Nat) : ∀ (shift acc : Nat) (rest : List Nat),
    shift % 7 = 0 → shift ≤ 28 → n < 2 ^ (31 - shift) → acc < 2 ^ shift →
    readVarInt (natVarInt n ++ rest) shift acc =
      .ok (((acc + n <<< shift : Nat) : Int), rest) := by
  induction n using Nat.strong_induction_on with
  | _ n ih =>
    intro shift acc rest h7 h28 hn hacc
    by_cases h128 : n < 128
    · rw [natVarInt_eq, if_pos h128, List.cons_append, List.nil_append]
      simp only [readVarInt, and127_eq, Nat.mod_eq_of_lt h128, and128_zero h128, if_pos rfl]
      rw [lor_shift_add n shift hacc]
      have hval : acc + n <<< shift < 2 ^ 31 := by
        rw [Nat.shiftLeft_eq]
        have hstep : acc + n * 2 ^ shift < (n + 1) * 2 ^ shift := by
          rw [Nat.add_mul, Nat.one_mul]
          omega
        have hs2 : (n + 1) * 2 ^ shift ≤ 2 ^ (31 - shift) * 2 ^ shift :=
          Nat.mul_le_mul_right _ (by omega)
        have hs3 : 2 ^ (31 - shift) * 2 ^ shift = 2 ^ 31 := by
          rw [← pow_add]
          congr 1
          omega
        omega
      rw [Nat.mod_eq_of_lt (by omega), i32OfNat_small hval]
      exact if_pos trivial
    · rw [natVarInt_eq, if_neg h128, List.cons_append]
      have hb256 : n % 128 + 128 < 256 := by
        have := Nat.mod_lt n (y := 128) (by omega)
        omega
      have hb127 : (n % 128 + 128) &&& 127 = n % 128 := by
        rw [and127_eq, Nat.add_mod_right, Nat.mod_mod_of_dvd _ (dvd_refl 128)]
      simp only [readVarInt, hb127, and128_full (by omega) hb256]
      rw [if_neg (by omega), if_neg (show ¬ 32 ≤ shift + 7 by
        have h24 : shift < 24 := by
          by_contra hge
          have : (2 : Nat) ^ (31 - shift) ≤ 2 ^ 7 :=
            Nat.pow_le_pow_right (by norm_num) (by omega)
          omega
        omega)]
      have hshift21 : shift ≤ 21 := by
        have h24 : shift < 24 := by
          by_contra hge
          have : (2 : Nat) ^ (31 - shift) ≤ 2 ^ 7 :=
            Nat.pow_le_pow_right (by norm_num) (by omega)
          omega
        omega
      rw [lor_shift_add (n % 128) shift hacc]
      have hrec := ih (n / 128) (Nat.div_lt_self (by omega) (by omega))
        (shift + 7) (acc + (n % 128) <<< shift) rest
        (by omega) (by omega)
        (by
          rw [Nat.div_lt_iff_lt_mul (by norm_num : (0:Nat) < 128)]
          have : (2 : Nat) ^ (31 - (shift + 7)) * 128 = 2 ^ (31 - shift) := by
            rw [show (128 : Nat) = 2 ^ 7 by norm_num, ← pow_add]
            congr 1
            omega
          omega)
        (by
          rw [Nat.shiftLeft_eq]
          have hm : n % 128 < 128 := Nat.mod_lt n (y := 128) (by omega)
          have : acc + n % 128 * 2 ^ shift < 2 ^ shift + 127 * 2 ^ shift := by
            have := Nat.mul_le_mul_right (2 ^ shift) (show n % 128 ≤ 127 by omega)
            omega
          have h128e : 2 ^ shift + 127 * 2 ^ shift = 2 ^ (shift + 7) := by
            have hp : (2:Nat) ^ (shift + 7) = 2 ^ shift * 128 := by
              rw [pow_add]
              norm_num
            rw [hp]
            ring
          omega)
      rw [hrec]
      have hval : acc + (n % 128) <<< shift + (n / 128) <<< (shift + 7) =
          acc + n <<< shift := by
        have hd := Nat.div_add_mod n 128
        rw [Nat.shiftLeft_eq, Nat.shiftLeft_eq, Nat.shiftLeft_eq, pow_add,
          show (2:Nat) ^ 7 = 128 by norm_num]
        calc acc + n % 128 * 2 ^ shift + n / 128 * (2 ^ shift * 128)
            = acc + (128 * (n / 128) + n % 128) * 2 ^ shift := by ring
          _ = acc + n * 2 ^ shift := by rw [hd]
      rw [hval]

theorem readVarInt_enc0 (n : Nat) (h : n < 2 ^ 31) (rest : List Nat) :
    readVarInt (natVarInt n ++ rest) 0 0 = .ok ((n : Int), rest) := by
  rw [readVarInt_enc n 0 0 rest rfl (by omega) (by simpa using h) (by norm_num)]
  simp [Nat.shiftLeft_eq]
theorem i64OfNat_small {n : Nat} (h : n < 2 ^ 63) : i64OfNat n = (n : Int) := by
  rw [i64OfNat]
  have h64 : n % 2 ^ 64 = n := Nat.mod_eq_of_lt (by omega)
  simp only [h64]
  rw [if_pos (by exact_mod_cast h)]

theorem readVarLong_enc (n : Nat) : ∀ (shift acc : Nat) (rest : List Nat),
    shift % 7 = 0 → shift ≤ 56 → n < 2 ^ (63 - shift) → acc < 2 ^ shift →
    readVarLong (natVarInt n ++ rest) shift acc =
      .ok (((acc + n <<< shift : Nat) : Int), rest) := by
  induction n using Nat.strong_induction_on with
  | _ n ih =>
    intro shift acc rest h7 h56 hn hacc
    by_cases h128 : n < 128
    · rw [natVarInt_eq, if_pos h128, List.cons_append, List.nil_append]
      simp only [readVarLong, and127_eq, Nat.mod_eq_of_lt h128, and128_zero h128, if_pos rfl]
      rw [lor_shift_add n shift hacc]
      have hval : acc + n <<< shift < 2 ^ 63 := by
        rw [Nat.shiftLeft_eq]
        have hstep : acc + n * 2 ^ shift < (n + 1) * 2 ^ shift := by
          rw [Nat.add_mul, Nat.one_mul]
          omega
        have hs2 : (n + 1) * 2 ^ shift ≤ 2 ^ (63 - shift) * 2 ^ shift :=
          Nat.mul_le_mul_right _ (by omega)
        have hs3 : 2 ^ (63 - shift) * 2 ^ shift = 2 ^ 63 := by
          rw [← pow_add]
          congr 1
          omega
        omega
      rw [Nat.mod_eq_of_lt (by omega), i64OfNat_small hval]
      exact if_pos trivial
    · rw [natVarInt_eq, if_neg h128, List.cons_append]
      have hb256 : n % 128 + 128 < 256 := by
        have := Nat.mod_lt n (y := 128) (by omega)
        omega
      have hb127 : (n % 128 + 128) &&& 127 = n % 128 := by
        rw [and127_eq, Nat.add_mod_right, Nat.mod_mod_of_dvd _ (dvd_refl 128)]
      simp only [readVarLong, hb127, and128_full (by omega) hb256]
      rw [if_neg (by omega), if_neg (show ¬ 64 ≤ shift + 7 by
        have h24 : shift < 56 := by
          by_contra hge
          have : (2 : Nat) ^ (63 - shift) ≤ 2 ^ 7 :=
            Nat.pow_le_pow_right (by norm_num) (by omega)
          omega
        omega)]
      have hshift49 : shift ≤ 49 := by
        have h24 : shift < 56 := by
          by_contra hge
          have : (2 : Nat) ^ (63 - shift) ≤ 2 ^ 7 :=
            Nat.pow_le_pow_right (by norm_num) (by omega)
          omega
        omega
      rw [lor_shift_add (n % 128) shift hacc]
      have hrec := ih (n / 128) (Nat.div_lt_self (by omega) (by omega))
        (shift + 7) (acc + (n % 128) <<< shift) rest
        (by omega) (by omega)
        (by
          rw [Nat.div_lt_iff_lt_mul (by norm_num : (0:Nat) < 128)]
          have : (2 : Nat) ^ (63 - (shift + 7)) * 128 = 2 ^ (63 - shift) := by
            rw [show (128 : Nat) = 2 ^ 7 by norm_num, ← pow_add]
            congr 1
            omega
          omega)
        (by
          rw [Nat.shiftLeft_eq]
          have hm : n % 128 < 128 := Nat.mod_lt n (y := 128) (by omega)
          have : acc + n % 128 * 2 ^ shift < 2 ^ shift + 127 * 2 ^ shift := by
            have := Nat.mul_le_mul_right (2 ^ shift) (show n % 128 ≤ 127 by omega)
            omega
          have h128e : 2 ^ shift + 127 * 2 ^ shift = 2 ^ (shift + 7) := by
            have hp : (2:Nat) ^ (shift + 7) = 2 ^ shift * 128 := by
              rw [pow_add]
              norm_num
            rw [hp]
            ring
          omega)
      rw [hrec]
      have hval : acc + (n % 128) <<< shift + (n / 128) <<< (shift + 7) =
          acc + n <<< shift := by
        have hd := Nat.div_add_mod n 128
        rw [Nat.shiftLeft_eq, Nat.shiftLeft_eq, Nat.shiftLeft_eq, pow_add,
          show (2:Nat) ^ 7 = 128 by norm_num]
        calc acc + n % 128 * 2 ^ shift + n / 128 * (2 ^ shift * 128)
            = acc + (128 * (n / 128) + n % 128) * 2 ^ shift := by ring
          _ = acc + n * 2 ^ shift := by rw [hd]
      rw [hval]

theorem readVarLong_enc0 (n : Nat) (h : n < 2 ^ 63) (rest : List Nat) :
    readVarLong (natVarInt n ++ rest) 0 0 = .ok ((n : Int), rest) := by
  rw [readVarLong_enc n 0 0 rest rfl (by omega) (by simpa using h) (by norm_num)]
  simp [Nat.shiftLeft_eq]

theorem writeVarInt_nat (n : Nat) (h : n < 2 ^ 31) :
    writeVarInt (i32OfNat n) = .ok (natVarInt n) := by
  rw [i32OfNat_small h, writeVarInt, if_neg (by omega)]
  rw [Int.toNat_natCast]

theorem writeVarInt_nonneg (v : Int) (h : 0 ≤ v) :
    writeVarInt v = .ok (natVarInt v.toNat) := by
  rw [writeVarInt, if_neg (by omega)]

theorem writeString_ok (s : Str) (h : s.length < 2 ^ 31) :
    writeString s = .ok (natVarInt s.length ++ s.map Char.toNat) := by
  rw [writeString, writeVarInt_nat s.length h]

theorem readString_enc (s : Str) (rest : List Nat)
    (hascii : ∀ c ∈ s, c.toNat < 128) (hlen : s.length < 2 ^ 31) :
    readString (natVarInt s.length ++ (s.map Char.toNat ++ rest)) = .ok (s, rest) := by
  rw [readString, readVarInt_enc0 s.length hlen]
  show (if ((s.length : Nat) : Int) < 0 then Except.error (str ("Negative string length"))
    else if (s.map Char.toNat ++ rest).length < ((s.length : Nat) : Int).toNat then
      Except.error (str ("failed to fill whole buffer"))
    else if ((s.map Char.toNat ++ rest).take ((s.length : Nat) : Int).toNat).all
        (fun b => b < 128) then
      Except.ok (((s.map Char.toNat ++ rest).take ((s.length : Nat) : Int).toNat).map
        (fun b => Char.ofNat b), (s.map Char.toNat ++ rest).drop ((s.length : Nat) : Int).toNat)
    else Except.error (str ("invalid utf-8: multi-byte sequences are not modelled"))) =
    Except.ok (s, rest)
  rw [if_neg (by omega)]
  have htn : ((s.length : Int)).toNat = s.length := Int.toNat_natCast _
  rw [htn]
  have hlm : (s.map Char.toNat).length = s.length := List.length_map _ _
  have htake : (s.map Char.toNat ++ rest).take s.length = s.map Char.toNat := by
    rw [← hlm]
    exact List.take_left _ _
  have hdrop : (s.map Char.toNat ++ rest).drop s.length = rest := by
    rw [← hlm]
    exact List.drop_left _ _
  rw [if_neg (by rw [List.length_append, hlm]; omega)]
  rw [htake, hdrop]
  rw [if_pos (List.all_eq_true.mpr (fun b hb => by
    obtain ⟨c, hc, rfl⟩ := List.mem_map.mp hb
    simpa using hascii c hc))]
  have hmapmap : (s.map Char.toNat).map (fun b => Char.ofNat b) = s := by
    rw [List.map_map]
    calc s.map (fun c => Char.ofNat c.toNat) = s.map id := by
          exact List.map_congr_left (fun c _ => Char.ofNat_toNat c)
      _ = s := List.map_id s
  rw [hmapmap]
/-! ### `from_string ∘ to_string` on well-formed `minecraft` states -/

/-- Valid state for the codec round trip: a good state whose namespace is
`minecraft` (the only namespace `from_string` accepts back). -/
def goodMCState (s : BlockState) : Bool :=
  goodState s && (splitColonFirst s.name == str ("minecraft"))

theorem goodMCState_good {s : BlockState} (h : goodMCState s = true) :
    goodState s = true := by
  rw [goodMCState, Bool.and_eq_true] at h
  exact h.1

theorem goodMCState_ns {s : BlockState} (h : goodMCState s = true) :
    splitColonFirst s.name = str ("minecraft") := by
  rw [goodMCState, Bool.and_eq_true] at h
  exact beq_iff_eq.mp h.2

theorem identChar_prop {c : Char} (h : isIdentChar c = true) : isPropChar c = true := by
  rw [isIdentChar, Bool.or_eq_true] at h
  rw [isPropChar]
  rcases h with h | h <;> simp [h]

theorem nameChar_resource {c : Char} (h : isNameChar c = true) : isResourceChar c = true := by
  rw [isNameChar, Bool.or_eq_true, Bool.or_eq_true] at h
  rw [isResourceChar]
  rcases h with (h | h) | h <;> simp [h]

theorem nameChar_not_ws {c : Char} (h : isNameChar c = true) : isWS c = false :=
  legal_not_ws (nameChar_legal h)

theorem identChar_not_ws {c : Char} (h : isIdentChar c = true) : isWS c = false :=
  legal_not_ws (identChar_legal h)

theorem parsePropPair_frag (k v : Str) (hkeq : ∀ c ∈ k, ¬ c = '=')
    (hveq : ∀ c ∈ v, ¬ c = '=')
    (hkws : ∀ c ∈ k, isWS c = false) (hvws : ∀ c ∈ v, isWS c = false) :
    parsePropPair (k ++ '=' :: v) = (k, v) := by
  rw [parsePropPair]
  have hne : (k ++ '=' :: v).isEmpty = false := by
    rw [List.isEmpty_eq_false]
    simp
  have hcon : (k ++ '=' :: v).contains '=' = true := by
    rw [List.contains_eq_any_beq, List.any_eq_true]
    exact ⟨'=', by simp, by simp⟩
  rw [if_neg (by rw [hne, hcon]; decide)]
  have hsplit : (k ++ '=' :: v).splitOn '=' = [k, v] := by
    have hint : List.intercalate ['='] [k, v] = k ++ '=' :: v := by
      rw [intercalate_cons_cons, intercalate_singleton]
      simp
    rw [← hint]
    exact List.splitOn_intercalate [k, v] '=' (by
      intro l hl
      rcases List.mem_cons.mp hl with rfl | hl
      · exact fun hc => hkeq _ hc rfl
      · rcases List.mem_cons.mp hl with rfl | hl
        · exact fun hc => hveq _ hc rfl
        · simp at hl) (by simp)
  rw [hsplit]
  show (trimStr k, trimStr v) = (k, v)
  rw [trimStr_no_ws hkws, trimStr_no_ws hvws]

/-- Reparsing the printed form of a well-formed `minecraft` block state
recovers its name and, because `to_string` sorts the `k=v` fragments, a
permutation of its properties. -/
theorem from_to_string (s : BlockState) (h : goodMCState s = true) :
    ∃ ps, BlockState.from_string (BlockState.to_string s) = .ok ⟨s.name, ps⟩ ∧
      ps.Perm s.properties := by
  have hgs : goodState s = true := goodMCState_good h
  have hns : splitColonFirst s.name = str ("minecraft") := goodMCState_ns h
  obtain ⟨ns, ty, hname, hnsne, htyne, hnsC, htyC, -⟩ := goodName_decomp (goodState_name hgs)
  obtain ⟨hprall, hnd, hplen⟩ := goodProps_spec (goodState_props hgs)
  have hnamechar : ∀ c ∈ s.name, isNameChar c = true ∨ c = ':' := by
    intro c hc
    rw [hname] at hc
    rcases List.mem_append.mp hc with hc | hc
    · exact Or.inl (hnsC c hc)
    · rcases List.mem_cons.mp hc with rfl | hc
      · exact Or.inr rfl
      · exact Or.inl (htyC c hc)
  have hnamews : ∀ c ∈ s.name, isWS c = false := by
    intro c hc
    rcases hnamechar c hc with hx | rfl
    · exact nameChar_not_ws hx
    · decide
  have hnameni : ∀ c ∈ s.name, ¬ c = '[' := by
    intro c hc
    rcases hnamechar c hc with hx | rfl
    · intro hcc
      rw [hcc] at hx
      simp [isNameChar, Char.isLower, Char.isDigit] at hx
    · decide
  by_cases hpe : s.properties = []
  · have hts : BlockState.to_string s = s.name := by
      rw [BlockState.to_string, if_pos (show s.properties.isEmpty = true by
        rw [List.isEmpty_iff]
        exact hpe)]
    have hnob : s.name.contains '[' = false := by
      rw [List.contains_eq_any_beq, List.any_eq_false]
      intro c hc hbe
      have hcc : '[' = c := by simpa using hbe
      exact hnameni c hc hcc.symm
    have hnocb : s.name.contains ']' = false := by
      rw [List.contains_eq_any_beq, List.any_eq_false]
      intro c hc hbe
      have hcc0 : ']' = c := by simpa using hbe
      have hcc : c = ']' := hcc0.symm
      rcases hnamechar c hc with hx | hcol
      · rw [hcc] at hx
        simp [isNameChar, Char.isLower, Char.isDigit] at hx
      · rw [hcc] at hcol
        simp at hcol
    rw [hts, BlockState.from_string]
    simp only [hnob, Bool.not_false]
    rw [if_pos trivial]
    simp only [hnocb]
    rw [if_neg Bool.false_ne_true]
    rw [trimStr_no_ws hnamews]
    rw [if_neg (show ¬ (s.name.isEmpty = true) by
      rw [List.isEmpty_iff, hname]
      simp)]
    exact ⟨[], rfl, by simp [hpe]⟩
  · -- properties present: the printed form is `name[k1=v1,...]` with
    -- sorted fragments
    have hfragchar : ∀ x ∈ s.properties.map (fun kv => kv.1 ++ '=' :: kv.2),
        ∀ c ∈ x, isIdentChar c = true ∨ c = '=' := by
      intro x hx c hc
      obtain ⟨kv, hkv, rfl⟩ := List.mem_map.mp hx
      obtain ⟨-, -, hk, hv⟩ := hprall kv hkv
      rcases List.mem_append.mp hc with hc | hc
      · exact Or.inl (hk c hc)
      · rcases List.mem_cons.mp hc with rfl | hc
        · exact Or.inr rfl
        · exact Or.inl (hv c hc)
    have hts : BlockState.to_string s = s.name ++ '[' ::
        (List.intercalate [','] (List.insertionSort (fun a b => strLe a b)
          (s.properties.map (fun kv => kv.1 ++ '=' :: kv.2))) ++ [']']) := by
      simp only [BlockState.to_string]
      rw [if_neg (show ¬ (s.properties.isEmpty = true) by
        rw [List.isEmpty_iff]
        exact hpe)]
      simp
    have hperm0 := List.perm_insertionSort (fun a b => strLe a b)
      (s.properties.map (fun kv => kv.1 ++ '=' :: kv.2))
    set sorted := List.insertionSort (fun a b => strLe a b)
      (s.properties.map (fun kv => kv.1 ++ '=' :: kv.2)) with hsorteddef
    have hsortchar : ∀ x ∈ sorted, ∀ c ∈ x, isIdentChar c = true ∨ c = '=' :=
      fun x hx => hfragchar x (hperm0.mem_iff.mp hx)
    have hsortform : ∀ x ∈ sorted, ∃ kv, kv ∈ s.properties ∧ x = kv.1 ++ '=' :: kv.2 := by
      intro x hx
      obtain ⟨kv, hkv, hxe⟩ := List.mem_map.mp (hperm0.mem_iff.mp hx)
      exact ⟨kv, hkv, hxe.symm⟩
    have hsortne : ¬ sorted = [] := by
      intro hcontra
      have hl := hperm0.length_eq
      rw [hcontra] at hl
      simp only [List.length_nil, List.length_map] at hl
      exact hpe (List.length_eq_zero.mp hl.symm)
    have hinnerchar : ∀ c ∈ List.intercalate [','] sorted,
        isIdentChar c = true ∨ c = '=' ∨ c = ',' := by
      intro c hc
      have := mem_intercalate_comma
        (p := fun c => isIdentChar c || c == '=' || c == ',')
        (fun x hx c' hc' => by
          rcases hsortchar x hx c' hc' with hx' | rfl
          · simp [hx']
          · simp) (by decide) c hc
      simpa [Bool.or_eq_true, beq_iff_eq, or_assoc] using this
    have hinnerne : ¬ List.intercalate [','] sorted = [] := by
      rcases hx : sorted with - | ⟨x, srest⟩
      · exact absurd hx hsortne
      · obtain ⟨kv, -, hxf⟩ := hsortform x (by rw [hx]; simp)
        rcases srest with - | ⟨y, ys⟩
        · rw [intercalate_singleton, hxf]
          simp
        · rw [intercalate_cons_cons]
          rw [hxf]
          simp
    rw [hts]
    set inner := List.intercalate [','] sorted with hinnerdef
    have hcontb : (s.name ++ '[' :: (inner ++ [']'])).contains '[' = true := by
      rw [List.contains_eq_any_beq, List.any_eq_true]
      exact ⟨'[', by simp, by simp⟩
    have hcount1 : (s.name ++ '[' :: (inner ++ [']'])).count ':' = 1 := by
      rw [List.count_append, List.count_cons]
      rw [List.count_append]
      have hcn : List.count ':' s.name = 1 := by
        rw [hname, List.count_append, List.count_cons]
        have h0ns : List.count ':' ns = 0 :=
          List.count_eq_zero.mpr (fun hc => (nameChar_ne (hnsC ':' hc)).1 rfl)
        have h0ty : List.count ':' ty = 0 :=
          List.count_eq_zero.mpr (fun hc => (nameChar_ne (htyC ':' hc)).1 rfl)
        simp [h0ns, h0ty]
      have h0i : List.count ':' inner = 0 := by
        rw [List.count_eq_zero]
        intro hc
        rcases hinnerchar ':' hc with hx | hx | hx
        · exact (identChar_ne hx).1 rfl
        · simp at hx
        · simp at hx
      have h0b : List.count ':' [']'] = 0 := by decide
      simp [hcn, h0i, h0b]
    rw [BlockState.from_string]
    simp only [hcontb, Bool.not_true]
    rw [if_neg Bool.false_ne_true]
    rw [if_neg (not_not_intro hcount1)]
    have hidx : findCharIdx '[' (s.name ++ '[' :: (inner ++ [']'])) =
        some s.name.length := by
      rw [findCharIdx]
      exact findIdx?_append_first _ s.name '[' (inner ++ [']'])
        (fun c hc => by simp [hnameni c hc]) (by simp)
    rw [hidx]
    rw [Option.getD_some]
    have htake : List.take s.name.length (s.name ++ '[' :: (inner ++ [']'])) = s.name :=
      List.take_left _ _
    rw [htake]
    have hallres : s.name.all isResourceChar = true := by
      rw [List.all_eq_true]
      intro c hc
      rcases hnamechar c hc with hx | rfl
      · exact nameChar_resource hx
      · decide
    simp only [hallres, Bool.not_true]
    rw [if_neg Bool.false_ne_true]
    rw [hns]
    rw [trimStr_no_ws (show ∀ c ∈ str ("minecraft"), isWS c = false by decide)]
    rw [if_neg (show ¬ ((str ("minecraft")).isEmpty = true) by decide)]
    rw [if_neg (show ¬ (str ("minecraft") ≠ str ("minecraft")) from not_not_intro rfl)]
    have hscl : splitColonLast s.name = ty := by
      rw [hname]
      exact splitColonLast_decomp ns ty (fun c hc => (nameChar_ne (htyC c hc)).1)
    rw [hscl, trimStr_no_ws (fun c hc => nameChar_not_ws (htyC c hc))]
    rw [if_neg (show ¬ (ty.isEmpty = true) by rw [List.isEmpty_iff]; exact htyne)]
    have hdropb : List.drop (s.name.length + 1) (s.name ++ '[' :: (inner ++ [']'])) =
        inner ++ [']'] := by
      have hre : s.name ++ '[' :: (inner ++ [']']) = (s.name ++ ['[']) ++ (inner ++ [']']) := by
        simp
      rw [hre]
      exact List.drop_left' (by simp)
    rw [hdropb]
    obtain ⟨c0, irest, hcons⟩ := List.exists_cons_of_ne_nil hinnerne
    have hconsapp : inner ++ [']'] = c0 :: (irest ++ [']']) := by
      rw [hcons]
      rfl
    rw [hconsapp]
    simp only []
    have hnotsingle : ¬ (c0 :: (irest ++ [']']) = [']']) := by
      intro hco
      have hl := congrArg List.length hco
      simp only [List.length_cons, List.length_append, List.length_nil] at hl
      omega
    have hdl : (c0 :: (irest ++ [']'])).dropLast = inner := by
      rw [← List.cons_append, ← hcons]
      exact List.dropLast_concat
    have hsplit : inner.splitOn ',' = sorted := by
      rw [hinnerdef]
      exact List.splitOn_intercalate sorted ',' (fun l hl hc => by
        rcases hsortchar l hl ',' hc with hx | hx <;> exact absurd hx (by decide)) hsortne
    have hpm : (if c0 :: (irest ++ [']']) = [']'] then ([] : List (Str × Str))
        else ((c0 :: (irest ++ [']'])).dropLast.splitOn ',').map parsePropPair) =
        sorted.map parsePropPair := by
      rw [if_neg hnotsingle, hdl, hsplit]
    simp only [hpm]
    have hfragmap : ∀ kv ∈ s.properties,
        parsePropPair (kv.1 ++ '=' :: kv.2) = kv := by
      intro kv hkv
      obtain ⟨hk1, hv1, hkC, hvC⟩ := hprall kv hkv
      exact parsePropPair_frag kv.1 kv.2
        (fun c hc => (identChar_ne (hkC c hc)).2.2.2.1)
        (fun c hc => (identChar_ne (hvC c hc)).2.2.2.1)
        (fun c hc => identChar_not_ws (hkC c hc))
        (fun c hc => identChar_not_ws (hvC c hc))
    have hperm : (sorted.map parsePropPair).Perm s.properties := by
      have h1 := hperm0.map parsePropPair
      rw [List.map_map] at h1
      have h2 : s.properties.map (parsePropPair ∘ fun kv => kv.1 ++ '=' :: kv.2) =
          s.properties := by
        have h3 : s.properties.map (parsePropPair ∘ fun kv => kv.1 ++ '=' :: kv.2) =
            s.properties.map id :=
          List.map_congr_left (fun kv hkv => hfragmap kv hkv)
        rw [h3, List.map_id]
      rw [h2] at h1
      exact h1
    have hmem : ∀ kv ∈ sorted.map parsePropPair, kv ∈ s.properties :=
      fun kv hkv => hperm.mem_iff.mp hkv
    have hany1 : (sorted.map parsePropPair).any
        (fun kv => kv.1.isEmpty || kv.2.isEmpty) = false := by
      rw [List.any_eq_false]
      intro kv hkv hcontra
      obtain ⟨hk1, hv1, -, -⟩ := hprall kv (hmem kv hkv)
      simp only [Bool.or_eq_true, List.isEmpty_iff] at hcontra
      rcases hcontra with hc | hc
      · exact hk1 hc
      · exact hv1 hc
    have hany2 : (sorted.map parsePropPair).any
        (fun kv => !kv.1.all isPropChar) = false := by
      rw [List.any_eq_false]
      intro kv hkv hcontra
      obtain ⟨-, -, hkC, -⟩ := hprall kv (hmem kv hkv)
      have hall : kv.1.all isPropChar = true :=
        List.all_eq_true.mpr (fun c hc => identChar_prop (hkC c hc))
      simp only [hall, Bool.not_true] at hcontra
      exact Bool.false_ne_true hcontra
    have hany3 : (sorted.map parsePropPair).any
        (fun kv => !kv.2.all isPropChar) = false := by
      rw [List.any_eq_false]
      intro kv hkv hcontra
      obtain ⟨-, -, -, hvC⟩ := hprall kv (hmem kv hkv)
      have hall : kv.2.all isPropChar = true :=
        List.all_eq_true.mpr (fun c hc => identChar_prop (hvC c hc))
      simp only [hall, Bool.not_true] at hcontra
      exact Bool.false_ne_true hcontra
    rw [hany1, if_neg Bool.false_ne_true, hany2, if_neg Bool.false_ne_true,
      hany3, if_neg Bool.false_ne_true]
    rw [trimStr_no_ws hnamews]
    exact ⟨sorted.map parsePropPair, rfl, hperm⟩

/-! ### The VXL writer (`vxl_writer.rs`) -/

/-- `write_axis_order`'s byte encoding. -/
def axisOrderByte : AxisOrder → Nat
| .XYZ => 0
| .XZY => 1
| .YXZ => 2
| .YZX => 3
| .ZXY => 4
| .ZYX => 5

/-- `VXLSchematicOutputStream` with the generic `W: Write` sink rendered
as the list of bytes written so far. -/
structure VXLWriter : Type where
  out : List Nat
  running_palette : List (BlockState × Int)
  header_written : Bool
  closed : Bool
  axis_order : AxisOrder
  boundary : Boundary
  written_blocks : Nat
deriving DecidableEq, Repr

/-- `VXLSchematicOutputStream::new`. -/
def VXLWriter.new (o : AxisOrder) (b : Boundary) : VXLWriter :=
  ⟨[], [], false, false, o, b, 0⟩

/-- `find_closest_state`: `min_by_key` over the palette keys by
difference length (`HashMap` iteration rendered in insertion order;
`min_by_key` keeps the first minimum). -/
def findClosestState (w : VXLWriter) (new_state : BlockState) : Option BlockState :=
  w.running_palette.foldl
    (fun acc e =>
      match acc with
      | none => some e.1
      | some c =>
        if (BlockState.difference e.1 new_state).length <
            (BlockState.difference c new_state).length then some e.1 else some c)
    none

/-- `write_boundary`: six VarInts (minima then maxima). -/
def writeBoundaryBytes (b : Boundary) : Except Str (List Nat) :=
  match writeVarInt b.min_x with
  | .error e => .error e
  | .ok b1 =>
    match writeVarInt b.min_y with
    | .error e => .error e
    | .ok b2 =>
      match writeVarInt b.min_z with
      | .error e => .error e
      | .ok b3 =>
        match writeVarInt b.max_x with
        | .error e => .error e
        | .ok b4 =>
          match writeVarInt b.max_y with
          | .error e => .error e
          | .ok b5 =>
            match writeVarInt b.max_z with
            | .error e => .error e
            | .ok b6 => .ok (b1 ++ b2 ++ b3 ++ b4 ++ b5 ++ b6)

/-- `write_header`: magic VarLong, version VarInt, boundary, axis byte. -/
def vxlWriteHeader (w : VXLWriter) : Except Str VXLWriter :=
  if w.header_written then .error (str ("VXL: Header already written"))
  else
    match writeVarLong 0x56584C44524D with
    | .error e => .error e
    | .ok m =>
      match writeVarInt 1 with
      | .error e => .error e
      | .ok v =>
        match writeBoundaryBytes w.boundary with
        | .error e => .error e
        | .ok bb =>
          .ok { w with out := w.out ++ m ++ v ++ bb ++ [axisOrderByte w.axis_order],
                       header_written := true }

/-- `palette_id_from_state`: a known state returns its id; a new state
first emits its palette instruction (command 0 with the full string on
an empty palette, else command 1 with a diff from the closest existing
state), then records `(len + 1) * 2` as its id. -/
def paletteIdFromState (w : VXLWriter) (state : BlockState) :
    Except Str (Int × VXLWriter) :=
  match w.running_palette.find? (fun e => e.1 == state) with
  | some e => .ok (e.2, w)
  | none =>
    let new_id := (i32OfNat w.running_palette.length + 1) * 2
    if w.running_palette.isEmpty then
      match writeVarInt 0 with
      | .error e => .error e
      | .ok b1 =>
        match writeVarInt 0 with
        | .error e => .error e
        | .ok b2 =>
          match writeString (BlockState.to_string state) with
          | .error e => .error e
          | .ok b3 =>
            .ok (new_id, { w with out := w.out ++ b1 ++ b2 ++ b3,
                                  running_palette :=
                                    assocSet w.running_palette state new_id })
    else
      match findClosestState w state with
      | none => .error (str ("panic: unwrap of find_closest_state"))
      | some closest =>
        match w.running_palette.find? (fun e => e.1 == closest) with
        | none => .error (str ("panic: unwrap of closest id"))
        | some ce =>
          match writeVarInt 1 with
          | .error e => .error e
          | .ok b1 =>
            match writeVarInt ce.2 with
            | .error e => .error e
            | .ok b2 =>
              match writeString (BlockState.difference closest state) with
              | .error e => .error e
              | .ok b3 =>
                .ok (new_id, { w with out := w.out ++ b1 ++ b2 ++ b3,
                                      running_palette :=
                                        assocSet w.running_palette state new_id })

/-- `write_palette_id_with_rle`: `id + 1` and the length for a run longer
than one, else the bare (even) id. -/
def writePaletteIdWithRLE (w : VXLWriter) (state : BlockState) (run_length : Int) :
    Except Str VXLWriter :=
  match paletteIdFromState w state with
  | .error e => .error e
  | .ok (palette_id, w1) =>
    if run_length > 1 then
      match writeVarInt (palette_id + 1) with
      | .error e => .error e
      | .ok b1 =>
        match writeVarInt run_length with
        | .error e => .error e
        | .ok b2 => .ok { w1 with out := w1.out ++ b1 ++ b2 }
    else
      match writeVarInt palette_id with
      | .error e => .error e
      | .ok b1 => .ok { w1 with out := w1.out ++ b1 }

/-- The run-detection `while` of `write_blocks`: how many leading blocks
of the list share the current block's state (the program's order-aware
`PartialEq`) and sit at consecutive flat indices from `cursor`. -/
def runLenFrom (st : BlockState) (o : AxisOrder) (bd : Boundary) :
    Nat → List Block → Nat
| _, [] => 0
| cursor, blk :: rest =>
  if blk.state = st then
    if usizeOfInt (AxisOrder.index o blk.position bd) = cursor then
      runLenFrom st o bd (cursor + 1) rest + 1
    else 0
  else 0

/-- The `while index < end` loop of `write_blocks`, with the cursor into
the slice rendered as the remaining suffix.  The fuel argument bounds the
iteration count; every reachable iteration consumes at least one block
(`run_length ≥ 1` because the current block always matches itself at the
cursor), so `blocks.length + 1` fuel at the call site never runs out. -/
def writeBlocksLoop : Nat → VXLWriter → List Block → Except Str VXLWriter
| 0, _, _ => .error (str ("loop limit"))
| _ + 1, w, [] => .ok w
| fuel + 1, w, blk :: rest =>
  let flat_index := usizeOfInt (AxisOrder.index w.axis_order blk.position w.boundary)
  if flat_index < w.written_blocks then
    .error (str ("VXL: Blocks out of order"))
  else
    let gapRes : Except Str VXLWriter :=
      if w.written_blocks < flat_index then
        let gap := flat_index - w.written_blocks
        match writePaletteIdWithRLE w BlockState.air (i32OfNat gap) with
        | .error e => .error e
        | .ok w1 => .ok { w1 with written_blocks := w1.written_blocks + gap }
      else .ok w
    match gapRes with
    | .error e => .error e
    | .ok w1 =>
      let run_length := runLenFrom blk.state w1.axis_order w1.boundary
        w1.written_blocks (blk :: rest)
      match writePaletteIdWithRLE w1 blk.state (i32OfNat run_length) with
      | .error e => .error e
      | .ok w2 =>
        writeBlocksLoop fuel { w2 with written_blocks := w2.written_blocks + run_length }
          ((blk :: rest).drop run_length)

/-- `write_blocks`: the header/closed guards and the loop. -/
def VXLWriter.write_blocks (w : VXLWriter) (blocks : List Block) :
    Except Str VXLWriter :=
  if !w.header_written then .error (str ("VXL: Header must be written before blocks"))
  else if w.closed then .error (str ("VXL: Stream is closed"))
  else writeBlocksLoop (blocks.length + 1) w blocks

/-- `SchematicOutputStream::write` for the VXL writer: header on demand,
then `write_blocks`. -/
def VXLWriter.write (w : VXLWriter) (blocks : List Block) : Except Str VXLWriter :=
  match (if w.header_written then .ok w else vxlWriteHeader w) with
  | .error e => .error e
  | .ok w1 => VXLWriter.write_blocks w1 blocks

/-- `write` followed by `complete` on a fresh stream (`complete` only
flushes, adding no bytes): the full encoded output. -/
def vxlWrite (o : AxisOrder) (bd : Boundary) (blocks : List Block) :
    Except Str (List Nat) :=
  match VXLWriter.write (VXLWriter.new o bd) blocks with
  | .error e => .error e
  | .ok w => .ok w.out

/-! ### The VXL reader (`vxl_reader.rs`) -/

/-- `VXLSchematicInputStream` over a byte-list reader. -/
structure VXLReader : Type where
  input : List Nat
  palette : List (Int × BlockState)
  header_read : Bool
  axis_order : Option AxisOrder
  boundary : Option Boundary
  read_blocks : Nat
  current_run_state : Option BlockState
  remaining_run_length : Int
deriving DecidableEq, Repr

/-- `VXLSchematicInputStream::new`. -/
def VXLReader.new (input : List Nat) : VXLReader :=
  ⟨input, [], false, none, none, 0, none, 0⟩

/-- `read_axis_order`. -/
def readAxisOrder : List Nat → Except Str (AxisOrder × List Nat)
| [] => .error (str ("failed to fill whole buffer"))
| b :: rest =>
  if b = 0 then .ok (.XYZ, rest)
  else if b = 1 then .ok (.XZY, rest)
  else if b = 2 then .ok (.YXZ, rest)
  else if b = 3 then .ok (.YZX, rest)
  else if b = 4 then .ok (.ZXY, rest)
  else if b = 5 then .ok (.ZYX, rest)
  else .error (str ("VXL: Invalid AxisOrder"))

/-- `read_boundary`: six VarInts into `new_from_min_max`. -/
def readBoundaryBytes (input : List Nat) : Except Str (Boundary × List Nat) :=
  match readVarInt input 0 0 with
  | .error e => .error e
  | .ok (minx, r1) =>
    match readVarInt r1 0 0 with
    | .error e => .error e
    | .ok (miny, r2) =>
      match readVarInt r2 0 0 with
      | .error e => .error e
      | .ok (minz, r3) =>
        match readVarInt r3 0 0 with
        | .error e => .error e
        | .ok (maxx, r4) =>
          match readVarInt r4 0 0 with
          | .error e => .error e
          | .ok (maxy, r5) =>
            match readVarInt r5 0 0 with
            | .error e => .error e
            | .ok (maxz, r6) =>
              .ok (Boundary.newFromMinMax minx miny minz maxx maxy maxz, r6)

/-- `read_header`. -/
def vxlReadHeader (r : VXLReader) : Except Str VXLReader :=
  if r.header_read then .error (str ("VXL: Header already read"))
  else
    match readVarLong r.input 0 0 with
    | .error e => .error e
    | .ok (magic, r1) =>
      if magic ≠ 0x56584C44524D then .error (str ("VXL: Invalid magic number"))
      else
        match readVarInt r1 0 0 with
        | .error e => .error e
        | .ok (version, r2) =>
          if version ≠ 1 then .error (str ("VXL: Unsupported version"))
          else
            match readBoundaryBytes r2 with
            | .error e => .error e
            | .ok (bd, r3) =>
              match readAxisOrder r3 with
              | .error e => .error e
              | .ok (o, r4) =>
                .ok { r with input := r4, boundary := some bd, axis_order := some o,
                             header_read := true }

/-- `parse_next_instruction`: the palette-command loop.  Every iteration
consumes at least the command VarInt, so fuel `input.length + 1` at the
call sites can never be exhausted; a failed command read reports
end-of-stream as `Ok(false)`. -/
def parseNextInstruction : Nat → VXLReader → Except Str (Bool × VXLReader)
| 0, _ => .error (str ("loop limit"))
| fuel + 1, r =>
  match readVarInt r.input 0 0 with
  | .error _ => .ok (false, r)
  | .ok (command, rest) =>
    if command = 0 then
      match readVarInt rest 0 0 with
      | .error e => .error e
      | .ok (_, rest2) =>
        match readString rest2 with
        | .error e => .error e
        | .ok (state_str, rest3) =>
          match BlockState.from_string state_str with
          | .error _ => .error (str ("VXL: Parse error"))
          | .ok state =>
            let id := (i32OfNat r.palette.length + 1) * 2
            parseNextInstruction fuel
              { r with input := rest3, palette := assocSet r.palette id state }
    else if command = 1 then
      match readVarInt rest 0 0 with
      | .error e => .error e
      | .ok (ref_id, rest2) =>
        match readString rest2 with
        | .error e => .error e
        | .ok (diff_str, rest3) =>
          match r.palette.find? (fun e => e.1 == ref_id) with
          | none => .error (str ("VXL: Missing Ref ID"))
          | some base =>
            match BlockState.update base.2 diff_str with
            | .error _ => .error (str ("VXL: Diff error"))
            | .ok state =>
              let id := (i32OfNat r.palette.length + 1) * 2
              parseNextInstruction fuel
                { r with input := rest3, palette := assocSet r.palette id state }
    else
      let id := if command % 2 ≠ 0 then command - 1 else command
      match (if command % 2 ≠ 0 then readVarInt rest 0 0
             else .ok ((1 : Int), rest)) with
      | .error e => .error e
      | .ok (length, rest2) =>
        match r.palette.find? (fun e => e.1 == id) with
        | none => .error (str ("VXL: Unknown Palette ID"))
        | some e =>
          .ok (true, { r with input := rest2, current_run_state := some e.2,
                              remaining_run_length := length })

/-- The `for _ in 0..attempt_to_process` emission loop of `read`: one
position per step from the skipped iterator; air states advance the
cursor without being pushed. -/
def vxlEmitRun (state : BlockState) : Nat → BIter → Nat → Nat → List Block →
    Except Str (Nat × Nat × List Block)
| 0, _, rb, bw, buf => .ok (rb, bw, buf)
| t + 1, it, rb, bw, buf =>
  match iterNext it with
  | (none, _) => .error (str ("VXL: Ran out of positions in boundary"))
  | (some pos, it') =>
    if state.is_air then vxlEmitRun state t it' (rb + 1) bw buf
    else vxlEmitRun state t it' (rb + 1) (bw + 1) (buf ++ [⟨pos, state⟩])

/-- The `while blocks_written < length` loop of `read`.  Fuel bounds the
iteration count; on writer-produced streams each iteration consumes an
instruction or finishes the current run, so the call site's fuel is never
exhausted (a stream on which the source loops forever is rendered as the
fuel error). -/
def vxlReadLoop (bd : Boundary) (o : AxisOrder) (length : Nat) :
    Nat → VXLReader → Nat → List Block → Except Str (VXLReader × Nat × List Block)
| 0, _, _, _ => .error (str ("loop limit"))
| fuel + 1, r, bw, buf =>
  if bw < length then
    match (if r.remaining_run_length ≤ 0 then parseNextInstruction (r.input.length + 1) r
           else .ok (true, r)) with
    | .error e => .error e
    | .ok (false, r1) => .ok (r1, bw, buf)
    | .ok (true, r1) =>
      let attempt := usizeOfInt (min (i32OfNat (length - bw)) r1.remaining_run_length)
      match r1.current_run_state with
      | some state =>
        match vxlEmitRun state attempt (iterSkip (iterInit bd o) r1.read_blocks)
            r1.read_blocks bw buf with
        | .error e => .error e
        | .ok (rb', bw', buf') =>
          vxlReadLoop bd o length fuel
            { r1 with read_blocks := rb',
                      remaining_run_length :=
                        r1.remaining_run_length - i32OfNat attempt }
            bw' buf'
      | none =>
        vxlReadLoop bd o length fuel
          { r1 with remaining_run_length := r1.remaining_run_length - i32OfNat attempt }
          bw buf
  else .ok (r, bw, buf)

/-- `SchematicInputStream::read` on a fresh VXL reader: header, loop, and
the `Ok(None)`-at-end-of-stream convention. -/
def vxlRead (input : List Nat) (length : Nat) :
    Except Str (Option Nat × List Block) :=
  match vxlReadHeader (VXLReader.new input) with
  | .error e => .error e
  | .ok r1 =>
    match r1.boundary, r1.axis_order with
    | some bd, some o =>
      match vxlReadLoop bd o length (r1.input.length + length + 2) r1 0 [] with
      | .error e => .error e
      | .ok (_, bw, buf) =>
        if bw = 0 ∧ 0 < length then .ok (none, buf) else .ok (some bw, buf)
    | _, _ => .error (str ("VXL: Missing boundary"))

/-! ### Flat indices versus traversal positions -/

theorem iterSkip_eq_steps (n : Nat) : ∀ it, iterSkip it n = iterSteps it n := by
  induction n with
  | zero => intro it; rfl
  | succ n ih =>
    intro it
    show iterSkip (iterNext it).2 n = iterSteps it (n + 1)
    rw [ih]
    rfl

theorem index_expand (o : AxisOrder) (p : BlockPosition) (b : Boundary) :
    AxisOrder.index o p b =
      ((p.select o.axisTriple.1 - b.selectMin o.axisTriple.1) * dimOf b o.axisTriple.2.1
        + (p.select o.axisTriple.2.1 - b.selectMin o.axisTriple.2.1)) *
          dimOf b o.axisTriple.2.2
        + (p.select o.axisTriple.2.2 - b.selectMin o.axisTriple.2.2) := by
  cases o <;>
    · simp only [AxisOrder.index, AxisOrder.axisTriple, dimOf, Boundary.selectMin,
        BlockPosition.select]
      ring

theorem index_posAt (b : Boundary) (o : AxisOrder)
    (h1 : 0 < dimOf b o.axisTriple.2.1) (h2 : 0 < dimOf b o.axisTriple.2.2)
    (k : Nat) :
    AxisOrder.index o (posAt b o k) b = (k : Int) := by
  have hd1 : dimOf b o.axisTriple.2.1 = (dim1 b o : Int) := (Int.toNat_of_nonneg h1.le).symm
  have hd2 : dimOf b o.axisTriple.2.2 = (dim2 b o : Int) := (Int.toNat_of_nonneg h2.le).symm
  rw [index_expand]
  rw [show posAt b o k = mkPosOrd o
    (b.selectMin o.axisTriple.1 + ((k / dim2 b o / dim1 b o : Nat) : Int))
    (b.selectMin o.axisTriple.2.1 + ((k / dim2 b o % dim1 b o : Nat) : Int))
    (b.selectMin o.axisTriple.2.2 + ((k % dim2 b o : Nat) : Int)) from rfl]
  rw [select_mkPosOrd_a0, select_mkPosOrd_a1, select_mkPosOrd_a2, hd1, hd2]
  have hdec : ((k : Int)) =
      (((k / dim2 b o / dim1 b o * dim1 b o + k / dim2 b o % dim1 b o) * dim2 b o
        + k % dim2 b o : Nat) : Int) := by
    exact_mod_cast k_decomp (dim1 b o) (dim2 b o) k
  rw [hdec]
  push_cast
  ring

theorem flat_posAt (b : Boundary) (o : AxisOrder)
    (h1 : 0 < dimOf b o.axisTriple.2.1) (h2 : 0 < dimOf b o.axisTriple.2.2)
    (k : Nat) (hk : k < 2 ^ 64) :
    usizeOfInt (AxisOrder.index o (posAt b o k) b) = k := by
  rw [index_posAt b o h1 h2 k]
  exact usizeOfInt_natCast k hk

/-- A contained position is a unique traversal position, and the writer's
flat index recovers its rank. -/
theorem flat_of_contained (b : Boundary) (o : AxisOrder)
    (h0 : 0 < dimOf b o.axisTriple.1) (h1 : 0 < dimOf b o.axisTriple.2.1)
    (h2 : 0 < dimOf b o.axisTriple.2.2)
    (hN : dim0 b o * dim1 b o * dim2 b o < 2 ^ 31)
    (p : BlockPosition) (hp : b.containsPos p) :
    ∃ k, k < dim0 b o * dim1 b o * dim2 b o ∧ posAt b o k = p ∧
      usizeOfInt (AxisOrder.index o p b) = k := by
  obtain ⟨k, hk, hpk⟩ := posAt_surj b o h0 h1 h2 p hp
  exact ⟨k, hk, hpk, by rw [← hpk, flat_posAt b o h1 h2 k (by omega)]⟩

/-! ### ASCII bounds for the strings the writer emits -/

theorem char_val_ascii {c : Char} {m : UInt32} (h : c.val ≤ m) (hm : m.toNat < 128) :
    c.toNat < 128 := by
  have h2 : c.val.toNat ≤ m.toNat := UInt32.le_def.mp h
  show c.val.toNat < 128
  omega

theorem legalDiffChar_ascii {c : Char} (h : isLegalDiffChar c = true) : c.toNat < 128 := by
  rw [isLegalDiffChar] at h
  simp only [Char.isAlphanum, Char.isAlpha, Char.isUpper, Char.isLower, Char.isDigit,
    Bool.or_eq_true, Bool.and_eq_true, decide_eq_true_eq, beq_iff_eq] at h
  rcases h with (((((((⟨-, h2⟩ | ⟨-, h2⟩) | ⟨-, h2⟩) | rfl) | rfl) | rfl) | rfl) | rfl) | rfl
  · exact char_val_ascii h2 (by norm_num)
  · exact char_val_ascii h2 (by norm_num)
  · exact char_val_ascii h2 (by norm_num)
  · decide
  · decide
  · decide
  · decide
  · decide
  · decide

theorem difference_legal (a b : BlockState) (ha : goodState a = true)
    (hb : goodState b = true) :
    ∀ c ∈ BlockState.difference a b, isLegalDiffChar c = true := by
  intro c hc
  obtain ⟨hNchar, -, -, -⟩ := diffName_spec a b ha hb
  simp only [BlockState.difference, List.mem_append] at hc
  rcases hc with (hc | hc) | hc
  · rcases hNchar c hc with h | rfl
    · exact nameChar_legal h
    · decide
  · by_cases he : (diffAdds a b).isEmpty = true
    · rw [if_pos he] at hc
      simp at hc
    · rw [if_neg he] at hc
      rcases List.mem_cons.mp hc with rfl | hc
      · decide
      · refine mem_intercalate_comma (p := isLegalDiffChar) ?_ (by decide) c hc
        intro x hx c' hc'
        rcases addsFrag_chars a b (goodState_props hb) x hx c' hc' with h | rfl
        · exact identChar_legal h
        · decide
  · by_cases he : (diffRemoves a b).isEmpty = true
    · rw [if_pos he] at hc
      simp at hc
    · rw [if_neg he] at hc
      rcases List.mem_cons.mp hc with rfl | hc
      · decide
      · refine mem_intercalate_comma (p := isLegalDiffChar) ?_ (by decide) c hc
        intro x hx c' hc'
        rw [diffRemoves] at hx
        obtain ⟨kv, hkv, rfl⟩ := List.mem_map.mp hx
        obtain ⟨hall, -, -⟩ := goodProps_spec (goodState_props ha)
        obtain ⟨-, -, hk, -⟩ := hall kv (List.mem_of_mem_filter hkv)
        exact identChar_legal (hk c' hc')

theorem difference_ascii (a b : BlockState) (ha : goodState a = true)
    (hb : goodState b = true) :
    ∀ c ∈ BlockState.difference a b, c.toNat < 128 :=
  fun c hc => legalDiffChar_ascii (difference_legal a b ha hb c hc)

theorem to_string_ascii (s : BlockState) (hs : goodState s = true) :
    ∀ c ∈ BlockState.to_string s, c.toNat < 128 := by
  obtain ⟨hprall, -, -⟩ := goodProps_spec (goodState_props hs)
  obtain ⟨ns, ty, hname, -, -, hnsC, htyC, -⟩ := goodName_decomp (goodState_name hs)
  have hnamea : ∀ c ∈ s.name, c.toNat < 128 := by
    intro c hc
    rw [hname] at hc
    rcases List.mem_append.mp hc with hc | hc
    · exact legalDiffChar_ascii (nameChar_legal (hnsC c hc))
    · rcases List.mem_cons.mp hc with rfl | hc
      · decide
      · exact legalDiffChar_ascii (nameChar_legal (htyC c hc))
  intro c hc
  simp only [BlockState.to_string] at hc
  by_cases hpe : s.properties.isEmpty = true
  · rw [if_pos hpe] at hc
    exact hnamea c hc
  · rw [if_neg hpe] at hc
    simp only [List.mem_append, List.mem_cons, List.mem_singleton,
      List.not_mem_nil, or_false] at hc
    rcases hc with (hc | rfl | hc) | rfl
    · exact hnamea c hc
    · decide
    · have hmem := @mem_intercalate_comma (fun c => decide (c.toNat < 128))
        (List.insertionSort (fun a b => strLe a b)
          (s.properties.map (fun kv => kv.1 ++ '=' :: kv.2)))
        (fun x hx c' hc' => by
          have hx' := (List.perm_insertionSort (fun a b => strLe a b)
            (s.properties.map (fun kv => kv.1 ++ '=' :: kv.2))).mem_iff.mp hx
          obtain ⟨kv, hkv, rfl⟩ := List.mem_map.mp hx'
          obtain ⟨-, -, hk, hv⟩ := hprall kv hkv
          rcases List.mem_append.mp hc' with hc' | hc'
          · simpa using legalDiffChar_ascii (identChar_legal (hk c' hc'))
          · rcases List.mem_cons.mp hc' with rfl | hc'
            · decide
            · simpa using legalDiffChar_ascii (identChar_legal (hv c' hc')))
        (by decide) c hc
      simpa using hmem
    · decide

/-! ### The reader's run emission -/

theorem vxlEmitRun_spec (b : Boundary) (o : AxisOrder)
    (h0 : 0 < dimOf b o.axisTriple.1) (h1 : 0 < dimOf b o.axisTriple.2.1)
    (h2 : 0 < dimOf b o.axisTriple.2.2) :
    ∀ (len rb : Nat), rb + len ≤ dim0 b o * dim1 b o * dim2 b o →
      ∀ (bw : Nat) (buf : List Block) (state : BlockState),
        vxlEmitRun state len (iterSteps (iterInit b o) rb) rb bw buf =
          (if state.is_air = true then (Except.ok (rb + len, bw, buf) : Except Str (Nat × Nat × List Block))
           else .ok (rb + len, bw + len,
             buf ++ (List.range' rb len).map (fun k => ⟨posAt b o k, state⟩))) := by
  intro len
  induction len with
  | zero =>
    intro rb _ bw buf state
    cases hair : state.is_air
    · rw [if_neg Bool.false_ne_true]
      show Except.ok (rb, bw, buf) = Except.ok (rb + 0, bw + 0, buf ++ List.map _ [])
      simp
    · rw [if_pos rfl]
      show Except.ok (rb, bw, buf) = Except.ok (rb + 0, bw, buf)
      simp
  | succ len ih =>
    intro rb hrb bw buf state
    have hrbN : rb < dim0 b o * dim1 b o * dim2 b o := by omega
    have hstep := posAt_step b o h0 h1 h2 rb hrbN
    have hs : iterSteps (iterInit b o) rb = ⟨b, o, posAt b o rb, false⟩ :=
      iterSteps_state b o h0 h1 h2 rb hrbN
    rcases hit : iterNext (iterSteps (iterInit b o) rb) with ⟨op, it2⟩
    have hop : op = some (posAt b o rb) := by
      rw [hs, hstep] at hit
      injection hit with ha hb
      exact ha.symm
    have hit2 : it2 = iterSteps (iterInit b o) (rb + 1) := by
      rw [iterSteps_succ_last, hit]
    subst hop
    simp only [vxlEmitRun, hit]
    cases hair : state.is_air
    · rw [if_neg Bool.false_ne_true, if_neg Bool.false_ne_true]
      rw [hit2, ih (rb + 1) (by omega), hair, if_neg Bool.false_ne_true]
      rw [show List.range' rb (len + 1) = rb :: List.range' (rb + 1) len from rfl]
      rw [show rb + 1 + len = rb + (len + 1) by omega,
        show bw + 1 + len = bw + (len + 1) by omega]
      simp [List.append_assoc]
    · rw [if_pos rfl, if_pos rfl]
      rw [hit2, ih (rb + 1) (by omega), hair, if_pos rfl]
      rw [show rb + 1 + len = rb + (len + 1) by omega]

/-! ### Header round trip -/

theorem writeVarLong_nonneg (v : Int) (h : 0 ≤ v) :
    writeVarLong v = .ok (natVarInt v.toNat) := by
  rw [writeVarLong, if_neg (by omega)]

theorem readAxisOrder_byte (o : AxisOrder) (rest : List Nat) :
    readAxisOrder (axisOrderByte o :: rest) = .ok (o, rest) := by
  cases o <;> simp [readAxisOrder, axisOrderByte]

theorem newFromMinMax_max (bd : Boundary) :
    Boundary.newFromMinMax bd.min_x bd.min_y bd.min_z bd.max_x bd.max_y bd.max_z = bd := by
  rw [Boundary.newFromMinMax, Boundary.max_x, Boundary.max_y, Boundary.max_z]
  cases bd
  congr 1 <;> ring

theorem vxlReadHeader_enc (bmx bmy bmz bMx bMy bMz : Nat)
    (hx : bmx < 2 ^ 31) (hy : bmy < 2 ^ 31) (hz : bmz < 2 ^ 31)
    (hX : bMx < 2 ^ 31) (hY : bMy < 2 ^ 31) (hZ : bMz < 2 ^ 31)
    (o : AxisOrder) (rest : List Nat) :
    vxlReadHeader (VXLReader.mk (natVarInt 0x56584C44524D ++ (natVarInt 1 ++
      (natVarInt bmx ++ (natVarInt bmy ++ (natVarInt bmz ++ (natVarInt bMx ++
      (natVarInt bMy ++ (natVarInt bMz ++ (axisOrderByte o :: rest))))))))) []
      false none none 0 none 0) =
    .ok (VXLReader.mk rest [] true (some o)
      (some (Boundary.newFromMinMax bmx bmy bmz bMx bMy bMz)) 0 none 0) := by
  rw [vxlReadHeader]
  rw [if_neg (show ¬ (false = true) from Bool.false_ne_true)]
  rw [show (VXLReader.mk (natVarInt 0x56584C44524D ++ (natVarInt 1 ++
      (natVarInt bmx ++ (natVarInt bmy ++ (natVarInt bmz ++ (natVarInt bMx ++
      (natVarInt bMy ++ (natVarInt bMz ++ (axisOrderByte o :: rest))))))))) []
      false none none 0 none 0).input = natVarInt 0x56584C44524D ++ (natVarInt 1 ++
      (natVarInt bmx ++ (natVarInt bmy ++ (natVarInt bmz ++ (natVarInt bMx ++
      (natVarInt bMy ++ (natVarInt bMz ++ (axisOrderByte o :: rest)))))))) from rfl]
  rw [readVarLong_enc0 0x56584C44524D (by norm_num)]
  simp only []
  rw [if_neg (show ¬ (((0x56584C44524D : Nat) : Int) ≠ 0x56584C44524D) by norm_num)]
  rw [readVarInt_enc0 1 (by norm_num)]
  simp only []
  rw [if_neg (show ¬ (((1 : Nat) : Int) ≠ 1) by norm_num)]
  rw [readBoundaryBytes]
  rw [readVarInt_enc0 _ hx]
  simp only []
  rw [readVarInt_enc0 _ hy]
  simp only []
  rw [readVarInt_enc0 _ hz]
  simp only []
  rw [readVarInt_enc0 _ hX]
  simp only []
  rw [readVarInt_enc0 _ hY]
  simp only []
  rw [readVarInt_enc0 _ hZ]
  simp only []
  rw [readAxisOrder_byte]

theorem vxl_header_roundtrip (o : AxisOrder) (bd : Boundary)
    (hminx : 0 ≤ bd.min_x) (hminy : 0 ≤ bd.min_y) (hminz : 0 ≤ bd.min_z)
    (hdx : 0 < bd.d_x) (hdy : 0 < bd.d_y) (hdz : 0 < bd.d_z)
    (hbx : bd.min_x + bd.d_x ≤ 2 ^ 31) (hby : bd.min_y + bd.d_y ≤ 2 ^ 31)
    (hbz : bd.min_z + bd.d_z ≤ 2 ^ 31) :
    ∃ hdr : List Nat,
      vxlWriteHeader (VXLWriter.new o bd) =
        .ok ⟨hdr, [], true, false, o, bd, 0⟩ ∧
      ∀ rest : List Nat,
        vxlReadHeader (VXLReader.new (hdr ++ rest)) =
          .ok ⟨rest, [], true, some o, some bd, 0, none, 0⟩ := by
  have hmx : 0 ≤ bd.max_x := by rw [Boundary.max_x]; omega
  have hmy : 0 ≤ bd.max_y := by rw [Boundary.max_y]; omega
  have hmz : 0 ≤ bd.max_z := by rw [Boundary.max_z]; omega
  have hmx31 : bd.max_x.toNat < 2 ^ 31 := by rw [Boundary.max_x]; omega
  have hmy31 : bd.max_y.toNat < 2 ^ 31 := by rw [Boundary.max_y]; omega
  have hmz31 : bd.max_z.toNat < 2 ^ 31 := by rw [Boundary.max_z]; omega
  have hnx31 : bd.min_x.toNat < 2 ^ 31 := by omega
  have hny31 : bd.min_y.toNat < 2 ^ 31 := by omega
  have hnz31 : bd.min_z.toNat < 2 ^ 31 := by omega
  refine ⟨natVarInt 0x56584C44524D ++ natVarInt 1 ++
    (natVarInt bd.min_x.toNat ++ natVarInt bd.min_y.toNat ++ natVarInt bd.min_z.toNat ++
      natVarInt bd.max_x.toNat ++ natVarInt bd.max_y.toNat ++ natVarInt bd.max_z.toNat) ++
    [axisOrderByte o], ?_, ?_⟩
  · rw [show VXLWriter.new o bd = VXLWriter.mk [] [] false false o bd 0 from rfl]
    rw [vxlWriteHeader]
    simp only []
    rw [if_neg Bool.false_ne_true]
    rw [writeVarLong_nonneg _ (by norm_num), writeVarInt_nonneg 1 (by norm_num)]
    rw [writeBoundaryBytes]
    rw [writeVarInt_nonneg _ hminx]
    simp only []
    rw [writeVarInt_nonneg _ hminy]
    simp only []
    rw [writeVarInt_nonneg _ hminz]
    simp only []
    rw [writeVarInt_nonneg _ hmx]
    simp only []
    rw [writeVarInt_nonneg _ hmy]
    simp only []
    rw [writeVarInt_nonneg _ hmz]
    simp only []
    rw [show Int.toNat 0x56584C44524D = 0x56584C44524D from rfl,
      show Int.toNat 1 = 1 from rfl]
    rw [List.nil_append]
  · intro rest
    rw [VXLReader.new]
    rw [show ((natVarInt 0x56584C44524D ++ natVarInt 1 ++
        (natVarInt bd.min_x.toNat ++ natVarInt bd.min_y.toNat ++ natVarInt bd.min_z.toNat ++
          natVarInt bd.max_x.toNat ++ natVarInt bd.max_y.toNat ++ natVarInt bd.max_z.toNat) ++
        [axisOrderByte o]) ++ rest) =
      natVarInt 0x56584C44524D ++ (natVarInt 1 ++
        (natVarInt bd.min_x.toNat ++ (natVarInt bd.min_y.toNat ++ (natVarInt bd.min_z.toNat ++
          (natVarInt bd.max_x.toNat ++ (natVarInt bd.max_y.toNat ++ (natVarInt bd.max_z.toNat ++
          (axisOrderByte o :: rest)))))))) by simp [List.append_assoc]]
    rw [vxlReadHeader_enc bd.min_x.toNat bd.min_y.toNat bd.min_z.toNat
      bd.max_x.toNat bd.max_y.toNat bd.max_z.toNat hnx31 hny31 hnz31
      hmx31 hmy31 hmz31 o rest]
    rw [Int.toNat_of_nonneg hminx, Int.toNat_of_nonneg hminy, Int.toNat_of_nonneg hminz,
      Int.toNat_of_nonneg hmx, Int.toNat_of_nonneg hmy, Int.toNat_of_nonneg hmz]
    rw [newFromMinMax_max]

/-! ### Palette simulation: writer palette versus reader palette -/

/-- The simulation relation between the writer's `HashMap<BlockState, i32>`
and the reader's `HashMap<i32, BlockState>` (both in insertion order):
entry `base + j` carries id `(base + j + 1) * 2` on both sides, the states
share draws from `S`, and the reader's copy of each state has the writer's
name and a permutation of its properties. -/
def palSim (S : List BlockState) : Nat → List (BlockState × Int) →
    List (Int × BlockState) → Prop
| _, [], [] => True
| _, [], _ :: _ => False
| _, _ :: _, [] => False
| base, (ws, wid) :: wrest, (rid, rs) :: rrest =>
  wid = (((base : Nat) : Int) + 1) * 2 ∧ rid = wid ∧ ws ∈ S ∧
    rs.name = ws.name ∧ rs.properties.Perm ws.properties ∧
    palSim S (base + 1) wrest rrest

theorem palSim_length (S : List BlockState) :
    ∀ (base : Nat) (wp : List (BlockState × Int)) (rp : List (Int × BlockState)),
      palSim S base wp rp → wp.length = rp.length := by
  intro base wp
  induction wp generalizing base with
  | nil =>
    intro rp h
    cases rp with
    | nil => rfl
    | cons e rrest => exact absurd h (by rw [palSim]; exact not_false)
  | cons e wrest ih =>
    intro rp h
    cases rp with
    | nil =>
      rcases e with ⟨ws, wid⟩
      exact absurd h (by rw [palSim]; exact not_false)
    | cons f rrest =>
      rcases e with ⟨ws, wid⟩
      rcases f with ⟨rid, rs⟩
      rw [palSim] at h
      simpa using ih (base + 1) rrest h.2.2.2.2.2

theorem palSim_mem (S : List BlockState) :
    ∀ (base : Nat) (wp : List (BlockState × Int)) (rp : List (Int × BlockState)),
      palSim S base wp rp → ∀ e ∈ wp, e.1 ∈ S := by
  intro base wp
  induction wp generalizing base with
  | nil => intro rp _ e he; simp at he
  | cons f wrest ih =>
    intro rp h e he
    cases rp with
    | nil =>
      rcases f with ⟨ws, wid⟩
      exact absurd h (by rw [palSim]; exact not_false)
    | cons g rrest =>
      rcases f with ⟨ws, wid⟩
      rcases g with ⟨rid, rs⟩
      rw [palSim] at h
      rcases List.mem_cons.mp he with rfl | he
      · exact h.2.2.1
      · exact ih (base + 1) rrest h.2.2.2.2.2 e he

theorem palSim_get (S : List BlockState) :
    ∀ (base : Nat) (wp : List (BlockState × Int)) (rp : List (Int × BlockState)),
      palSim S base wp rp →
      ∀ (i : Nat) (h : i < wp.length) (h' : i < rp.length),
        (wp.get ⟨i, h⟩).2 = (((base + i : Nat) : Int) + 1) * 2 ∧
        (rp.get ⟨i, h'⟩).1 = (wp.get ⟨i, h⟩).2 ∧
        (rp.get ⟨i, h'⟩).2.name = (wp.get ⟨i, h⟩).1.name ∧
        (rp.get ⟨i, h'⟩).2.properties.Perm (wp.get ⟨i, h⟩).1.properties := by
  intro base wp
  induction wp generalizing base with
  | nil => intro rp _ i h; simp at h
  | cons f wrest ih =>
    intro rp hsim i h h'
    cases rp with
    | nil =>
      rcases f with ⟨ws, wid⟩
      exact absurd hsim (by rw [palSim]; exact not_false)
    | cons g rrest =>
      rcases f with ⟨ws, wid⟩
      rcases g with ⟨rid, rs⟩
      rw [palSim] at hsim
      obtain ⟨hwid, hrid, -, hname, hperm, hrest⟩ := hsim
      cases i with
      | zero =>
        refine ⟨by simpa using hwid, by simpa using hrid, by simpa using hname,
          by simpa using hperm⟩
      | succ i =>
        have := ih (base + 1) rrest hrest i (by simpa using h) (by simpa using h')
        refine ⟨?_, this.2.1, this.2.2.1, this.2.2.2⟩
        calc (wrest.get ⟨i, by simpa using h⟩).2
            = (((base + 1 + i : Nat) : Int) + 1) * 2 := this.1
          _ = (((base + (i + 1) : Nat) : Int) + 1) * 2 := by
              rw [show base + 1 + i = base + (i + 1) by omega]

/-- Reader-palette lookup by the positional id. -/
theorem palSim_find (S : List BlockState) :
    ∀ (base : Nat) (wp : List (BlockState × Int)) (rp : List (Int × BlockState)),
      palSim S base wp rp →
      ∀ (i : Nat) (h' : i < rp.length),
        rp.find? (fun x => x.1 == (((base + i : Nat) : Int) + 1) * 2) =
          some (rp.get ⟨i, h'⟩) := by
  intro base wp
  induction wp generalizing base with
  | nil =>
    intro rp hsim i h'
    cases rp with
    | nil => simp at h'
    | cons g rrest => exact absurd hsim (by rw [palSim]; exact not_false)
  | cons f wrest ih =>
    intro rp hsim i h'
    cases rp with
    | nil => simp at h'
    | cons g rrest =>
      rcases f with ⟨ws, wid⟩
      rcases g with ⟨rid, rs⟩
      rw [palSim] at hsim
      obtain ⟨hwid, hrid, -, -, -, hrest⟩ := hsim
      cases i with
      | zero =>
        rw [List.find?_cons_of_pos]
        · rfl
        · show ((rid, rs).1 == (((base + 0 : Nat) : Int) + 1) * 2) = true
          rw [hrid, hwid]
          simp
      | succ i =>
        rw [List.find?_cons_of_neg]
        · have := ih (base + 1) rrest hrest i (by simpa using h')
          rw [show base + 1 + i = base + (i + 1) by omega] at this
          rw [this]
          rfl
        · show ¬ (((rid, rs).1 == (((base + (i + 1) : Nat) : Int) + 1) * 2) = true)
          rw [hrid, hwid]
          simp only [beq_iff_eq]
          intro hcon
          have : ((base : Nat) : Int) + 1 = ((base + (i + 1) : Nat) : Int) + 1 := by
            omega
          push_cast at this
          omega

theorem palSim_append (S : List BlockState) :
    ∀ (base : Nat) (wp : List (BlockState × Int)) (rp : List (Int × BlockState)),
      palSim S base wp rp →
      ∀ (ws : BlockState) (rs : BlockState), ws ∈ S → rs.name = ws.name →
        rs.properties.Perm ws.properties →
        palSim S base (wp ++ [(ws, (((base + wp.length : Nat) : Int) + 1) * 2)])
          (rp ++ [((((base + wp.length : Nat) : Int) + 1) * 2, rs)]) := by
  intro base wp
  induction wp generalizing base with
  | nil =>
    intro rp hsim ws rs hws hname hperm
    cases rp with
    | nil =>
      rw [List.nil_append, List.nil_append]
      rw [palSim]
      refine ⟨by simp, by simp, hws, hname, hperm, ?_⟩
      rw [palSim]
      trivial
    | cons g rrest => exact absurd hsim (by rw [palSim]; exact not_false)
  | cons f wrest ih =>
    intro rp hsim ws rs hws hname hperm
    cases rp with
    | nil =>
      rcases f with ⟨fs, fid⟩
      exact absurd hsim (by rw [palSim]; exact not_false)
    | cons g rrest =>
      rcases f with ⟨fs, fid⟩
      rcases g with ⟨rid, rs2⟩
      rw [palSim] at hsim
      obtain ⟨hwid, hrid, hmem, hname2, hperm2, hrest⟩ := hsim
      rw [List.cons_append, List.cons_append, palSim]
      refine ⟨hwid, hrid, hmem, hname2, hperm2, ?_⟩
      have := ih (base + 1) rrest hrest ws rs hws hname hperm
      rw [show base + 1 + wrest.length = base + (wrest.length + 1) by omega] at this
      simpa using this

theorem assocSet_append {α β : Type} [BEq α] (l : List (α × β)) (k : α) (v : β)
    (h : l.any (fun e => e.1 == k) = false) : assocSet l k v = l ++ [(k, v)] := by
  rw [assocSet, h]
  rw [if_neg Bool.false_ne_true]

theorem find?_none_any {α : Type} (p : α → Bool) (l : List α)
    (h : l.find? p = none) : l.any p = false := by
  rw [List.any_eq_false]
  intro x hx
  rw [List.find?_eq_none] at h
  exact h x hx

theorem find?_fst_of_mem {α β : Type} [DecidableEq α] (l : List (α × β)) (k : α)
    (h : k ∈ l.map Prod.fst) :
    ∃ e, l.find? (fun x => x.1 == k) = some e ∧ e.1 = k ∧ e ∈ l := by
  induction l with
  | nil => simp at h
  | cons f rest ih =>
    by_cases hk : f.1 = k
    · refine ⟨f, ?_, hk, by simp⟩
      rw [List.find?_cons_of_pos]
      simpa using hk
    · have h2 : k ∈ rest.map Prod.fst := by
        rw [List.map_cons, List.mem_cons] at h
        rcases h with hc | hc
        · exact absurd hc.symm hk
        · exact hc
      obtain ⟨e, he, hek, hel⟩ := ih h2
      refine ⟨e, ?_, hek, by simp [hel]⟩
      rw [List.find?_cons_of_neg]
      · exact he
      · simpa using hk

/-- The `min_by_key` fold of `find_closest_state` only produces palette
keys. -/
theorem foldl_closest_mem (st : BlockState) :
    ∀ (l : List (BlockState × Int)) (acc : Option BlockState) (res : BlockState),
      l.foldl (fun acc e => match acc with
        | none => some e.1
        | some c => if (BlockState.difference e.1 st).length <
            (BlockState.difference c st).length then some e.1 else some c) acc =
        some res →
      acc = some res ∨ res ∈ l.map Prod.fst := by
  intro l
  induction l with
  | nil => intro acc res h; exact Or.inl h
  | cons e rest ih =>
    intro acc res h
    rw [List.foldl_cons] at h
    rcases acc with - | c
    · have h' : rest.foldl _ (some e.1) = some res := h
      rcases ih (some e.1) res h' with h2 | h2
      · right
        have : e.1 = res := by injection h2
        simp [this]
      · right
        simp [h2]
    · have h' : rest.foldl _ (if (BlockState.difference e.1 st).length <
          (BlockState.difference c st).length then some e.1 else some c) = some res := h
      by_cases hlt : (BlockState.difference e.1 st).length <
          (BlockState.difference c st).length
      · rw [if_pos hlt] at h'
        rcases ih _ res h' with h2 | h2
        · right
          have : e.1 = res := by injection h2
          simp [this]
        · right
          simp [h2]
      · rw [if_neg hlt] at h'
        rcases ih _ res h' with h2 | h2
        · left
          have : c = res := by injection h2
          rw [this]
        · right
          simp [h2]

theorem foldl_closest_isSome (st : BlockState) :
    ∀ (l : List (BlockState × Int)) (c : BlockState),
      ∃ res, l.foldl (fun acc e => match acc with
        | none => some e.1
        | some c => if (BlockState.difference e.1 st).length <
            (BlockState.difference c st).length then some e.1 else some c) (some c) =
        some res := by
  intro l
  induction l with
  | nil => intro c; exact ⟨c, rfl⟩
  | cons e rest ih =>
    intro c
    rw [List.foldl_cons]
    show ∃ res, rest.foldl _ (if (BlockState.difference e.1 st).length <
      (BlockState.difference c st).length then some e.1 else some c) = some res
    by_cases hlt : (BlockState.difference e.1 st).length <
        (BlockState.difference c st).length
    · rw [if_pos hlt]
      exact ih e.1
    · rw [if_neg hlt]
      exact ih c

theorem findClosestState_spec (w : VXLWriter) (st : BlockState)
    (hne : ¬ w.running_palette = []) :
    ∃ c, findClosestState w st = some c ∧ c ∈ w.running_palette.map Prod.fst := by
  rcases hl : w.running_palette with - | ⟨e, rest⟩
  · exact absurd hl hne
  · rw [findClosestState, hl, List.foldl_cons]
    obtain ⟨res, hres⟩ := foldl_closest_isSome st rest e.1
    have hres' : rest.foldl _ (some e.1) = some res := hres
    refine ⟨res, hres', ?_⟩
    rcases foldl_closest_mem st rest (some e.1) res hres' with h2 | h2
    · have : e.1 = res := by injection h2
      simp [← this]
    · simp [h2]

/-- Parsing a run instruction: the (even) palette id for a single cell,
or id + 1 followed by the run length. -/
theorem parse_run_header (S : List BlockState) (o : AxisOrder) (bd : Boundary)
    (wp : List (BlockState × Int)) (rp : List (Int × BlockState))
    (hsim : palSim S 0 wp rp) (hSb : 2 * S.length + 4 < 2 ^ 31)
    (hwlen : wp.length ≤ S.length)
    (i : Nat) (hi : i < wp.length) (hi' : i < rp.length)
    (len : Int) (hlen1 : 1 ≤ len) (hlen31 : len < 2 ^ 31) :
    ∀ (rb : Nat) (cur : Option BlockState) (rem : Int) (rest : List Nat) (f : Nat),
      parseNextInstruction (f + 1)
        (VXLReader.mk ((if 1 < len
            then natVarInt ((wp.get ⟨i, hi⟩).2 + 1).toNat ++ natVarInt len.toNat
            else natVarInt (wp.get ⟨i, hi⟩).2.toNat) ++ rest)
          rp true (some o) (some bd) rb cur rem) =
      .ok (true, VXLReader.mk rest rp true (some o) (some bd) rb
        (some (rp.get ⟨i, hi'⟩).2) len) := by
  intro rb cur rem rest f
  have hgp := palSim_get S 0 wp rp hsim i hi hi'
  have hid : (wp.get ⟨i, hi⟩).2 = (((i : Nat) : Int) + 1) * 2 := by
    have := hgp.1
    rw [Nat.zero_add] at this
    exact this
  have hiS : i < S.length := lt_of_lt_of_le hi hwlen
  have hid0 : 0 ≤ (wp.get ⟨i, hi⟩).2 := by rw [hid]; omega
  have hidS : (wp.get ⟨i, hi⟩).2 ≤ 2 * ((S.length : Nat) : Int) := by
    rw [hid]
    omega
  have hidtn : (wp.get ⟨i, hi⟩).2.toNat < 2 ^ 31 := by omega
  have hfind : rp.find? (fun x => x.1 == (wp.get ⟨i, hi⟩).2) = some (rp.get ⟨i, hi'⟩) := by
    rw [show (wp.get ⟨i, hi⟩).2 = (((0 + i : Nat) : Int) + 1) * 2 from hgp.1]
    exact palSim_find S 0 wp rp hsim i hi'
  by_cases hone : 1 < len
  · rw [if_pos hone]
    have h1tn : ((wp.get ⟨i, hi⟩).2 + 1).toNat < 2 ^ 31 := by omega
    rw [parseNextInstruction]
    simp only []
    rw [List.append_assoc]
    rw [readVarInt_enc0 _ h1tn]
    simp only []
    rw [Int.toNat_of_nonneg (by omega)]
    rw [if_neg (show ¬ ((wp.get ⟨i, hi⟩).2 + 1 = 0) by rw [hid]; omega)]
    rw [if_neg (show ¬ ((wp.get ⟨i, hi⟩).2 + 1 = 1) by rw [hid]; omega)]
    rw [if_pos (show ((wp.get ⟨i, hi⟩).2 + 1) % 2 ≠ 0 by rw [hid]; omega)]
    rw [if_pos (show ((wp.get ⟨i, hi⟩).2 + 1) % 2 ≠ 0 by rw [hid]; omega)]
    rw [readVarInt_enc0 _ (by omega : len.toNat < 2 ^ 31)]
    simp only []
    rw [Int.toNat_of_nonneg (by omega)]
    rw [show (wp.get ⟨i, hi⟩).2 + 1 - 1 = (wp.get ⟨i, hi⟩).2 by ring]
    rw [hfind]
  · rw [if_neg hone]
    have hlen1' : len = 1 := by omega
    rw [parseNextInstruction]
    simp only []
    rw [readVarInt_enc0 _ hidtn]
    simp only []
    rw [Int.toNat_of_nonneg hid0]
    rw [if_neg (show ¬ ((wp.get ⟨i, hi⟩).2 = 0) by rw [hid]; omega)]
    rw [if_neg (show ¬ ((wp.get ⟨i, hi⟩).2 = 1) by rw [hid]; omega)]
    rw [if_neg (show ¬ ((wp.get ⟨i, hi⟩).2 % 2 ≠ 0) by rw [hid]; omega)]
    rw [if_neg (show ¬ ((wp.get ⟨i, hi⟩).2 % 2 ≠ 0) by rw [hid]; omega)]
    rw [hfind]
    rw [hlen1']

theorem palSim_rp_ids (S : List BlockState) :
    ∀ (base : Nat) (wp : List (BlockState × Int)) (rp : List (Int × BlockState)),
      palSim S base wp rp →
      ∀ g ∈ rp, ∃ i, i < rp.length ∧ g.1 = (((base + i : Nat) : Int) + 1) * 2 := by
  intro base wp rp hsim g hg
  obtain ⟨⟨i, hi⟩, hget⟩ := List.mem_iff_get.mp hg
  have hi' : i < wp.length := by rw [palSim_length S base wp rp hsim]; exact hi
  have := palSim_get S base wp rp hsim i hi' hi
  exact ⟨i, hi, by rw [← hget, this.2.1, this.1]⟩

theorem palSim_rp_fresh (S : List BlockState) (wp : List (BlockState × Int))
    (rp : List (Int × BlockState)) (hsim : palSim S 0 wp rp) :
    rp.any (fun e => e.1 == (((rp.length : Nat) : Int) + 1) * 2) = false := by
  rw [List.any_eq_false]
  intro g hg hbeq
  obtain ⟨i, hi, hgi⟩ := palSim_rp_ids S 0 wp rp hsim g hg
  rw [beq_iff_eq] at hbeq
  rw [hgi] at hbeq
  have : ((0 + i : Nat) : Int) = ((rp.length : Nat) : Int) := by omega
  have h2 : (0 + i : Nat) = rp.length := by exact_mod_cast this
  omega

/-- `palette_id_from_state` and its reader counterpart: a known state
returns its id and emits nothing; a new state emits one palette
instruction whose parse extends the reader palette in lockstep. -/
theorem paletteIdFromState_sim (S : List BlockState) (o : AxisOrder) (bd : Boundary)
    (hSgood : ∀ s ∈ S, goodMCState s = true)
    (hSdiff : ∀ a ∈ S, ∀ b ∈ S, (BlockState.difference a b).length ≤ 4096)
    (hSts : ∀ s ∈ S, (BlockState.to_string s).length < 2 ^ 31)
    (hSb : 2 * S.length + 4 < 2 ^ 31)
    (w : VXLWriter) (rp : List (Int × BlockState))
    (hsim : palSim S 0 w.running_palette rp)
    (hkeys : (w.running_palette.map Prod.fst).Nodup)
    (st : BlockState) (hst : st ∈ S) :
    ∃ (id : Int) (w₁ : VXLWriter) (Δp : List Nat) (rp' : List (Int × BlockState))
      (i : Nat) (hi : i < w₁.running_palette.length) (hi' : i < rp'.length),
      paletteIdFromState w st = .ok (id, w₁) ∧
      w₁.out = w.out ++ Δp ∧
      (w₁.running_palette.map Prod.fst).Nodup ∧
      w₁.written_blocks = w.written_blocks ∧ w₁.header_written = w.header_written ∧
      w₁.closed = w.closed ∧ w₁.axis_order = w.axis_order ∧ w₁.boundary = w.boundary ∧
      palSim S 0 w₁.running_palette rp' ∧
      (w₁.running_palette.get ⟨i, hi⟩).2 = id ∧
      (w₁.running_palette.get ⟨i, hi⟩).1 = st ∧
      ∃ k, k ≤ 1 ∧
        ∀ (rb : Nat) (cur : Option BlockState) (rem : Int) (rest : List Nat) (f : Nat),
          parseNextInstruction (f + k) (VXLReader.mk (Δp ++ rest) rp true (some o)
            (some bd) rb cur rem) =
          parseNextInstruction f (VXLReader.mk rest rp' true (some o)
            (some bd) rb cur rem) := by
  have hsub : ∀ e ∈ w.running_palette, e.1 ∈ S := palSim_mem S 0 _ _ hsim
  have hwlen : w.running_palette.length ≤ S.length := by
    have h1 : List.Subperm (w.running_palette.map Prod.fst) S :=
      hkeys.subperm (by
        intro a ha
        obtain ⟨e, he, rfl⟩ := List.mem_map.mp ha
        exact hsub e he)
    calc w.running_palette.length = (w.running_palette.map Prod.fst).length := by simp
      _ ≤ S.length := h1.length_le
  have hrplen : rp.length = w.running_palette.length :=
    (palSim_length S 0 _ _ hsim).symm
  rcases hfind : w.running_palette.find? (fun e => e.1 == st) with - | e
  · -- the state is new: one palette instruction is emitted
    have hanyf : w.running_palette.any (fun e => e.1 == st) = false :=
      find?_none_any _ _ hfind
    have hnotmem : st ∉ w.running_palette.map Prod.fst := by
      intro hmem
      obtain ⟨e, he, hek, -⟩ := find?_fst_of_mem _ _ hmem
      rw [he] at hfind
      exact absurd hfind (by simp)
    have hwset : assocSet w.running_palette st ((i32OfNat w.running_palette.length + 1) * 2)
        = w.running_palette ++ [(st, (i32OfNat w.running_palette.length + 1) * 2)] :=
      assocSet_append _ _ _ hanyf
    have hilen : i32OfNat w.running_palette.length = ((w.running_palette.length : Nat) : Int) :=
      i32OfNat_small (by omega)
    have hkeys' : ((w.running_palette ++
        [(st, (i32OfNat w.running_palette.length + 1) * 2)]).map Prod.fst).Nodup := by
      rw [List.map_append]
      rw [List.nodup_append]
      refine ⟨hkeys, by simp, ?_⟩
      intro a ha hamem
      have : a = st := by simpa using hamem
      rw [this] at ha
      exact hnotmem ha
    have hgood : goodState st = true := goodMCState_good (hSgood st hst)
    by_cases hne : w.running_palette = []
    · -- empty palette: command 0 with the printed state
      have hrpnil : rp = [] := by
        rw [hne] at hrplen
        exact List.length_eq_zero.mp (by simpa using hrplen)
      obtain ⟨ps, hfs, hps⟩ := from_to_string st (hSgood st hst)
      have hts := writeString_ok (BlockState.to_string st) (hSts st hst)
      refine ⟨(i32OfNat w.running_palette.length + 1) * 2,
        { w with out := w.out ++ natVarInt (Int.toNat 0) ++ natVarInt (Int.toNat 0) ++
                   (natVarInt (BlockState.to_string st).length ++
                     (BlockState.to_string st).map Char.toNat),
                 running_palette := assocSet w.running_palette st
                   ((i32OfNat w.running_palette.length + 1) * 2) },
        natVarInt (Int.toNat 0) ++ natVarInt (Int.toNat 0) ++
          (natVarInt (BlockState.to_string st).length ++
            (BlockState.to_string st).map Char.toNat),
        rp ++ [((i32OfNat w.running_palette.length + 1) * 2, ⟨st.name, ps⟩)],
        w.running_palette.length, ?_, ?_, ?_, ?_, ?_, ?_, ?_, ?_, ?_, ?_, ?_, ?_, ?_, ?_⟩
      · rw [hwset]
        simp
      · rw [hrpnil, hne]
        simp
      · rw [paletteIdFromState, hfind]
        simp only []
        rw [if_pos (show w.running_palette.isEmpty = true by
          rw [List.isEmpty_iff]
          exact hne)]
        rw [writeVarInt_nonneg 0 (by norm_num)]
        simp only []
        rw [hts]
      · simp [List.append_assoc]
      · rw [hwset]
        exact hkeys'
      · rfl
      · rfl
      · rfl
      · rfl
      · rfl
      · rw [hwset, hilen]
        have := palSim_append S 0 w.running_palette rp hsim st ⟨st.name, ps⟩ hst rfl
          (by simpa using hps)
        rw [show ((0 + w.running_palette.length : Nat) : Int) =
          ((w.running_palette.length : Nat) : Int) by norm_num] at this
        exact this
      · rw [List.get_of_eq hwset]
        simp
      · rw [List.get_of_eq hwset]
        simp
      · -- the parse of the command-0 instruction
        refine ⟨1, le_refl 1, ?_⟩
        intro rb cur rem rest f
        rw [hne, hrpnil]
        rw [parseNextInstruction]
        simp only []
        rw [show (natVarInt (Int.toNat 0) ++ natVarInt (Int.toNat 0) ++
            (natVarInt (BlockState.to_string st).length ++
              (BlockState.to_string st).map Char.toNat)) ++ rest =
          natVarInt 0 ++ (natVarInt 0 ++ (natVarInt (BlockState.to_string st).length ++
            ((BlockState.to_string st).map Char.toNat ++ rest))) by
          simp [List.append_assoc]]
        rw [readVarInt_enc0 0 (by norm_num)]
        simp only []
        rw [if_pos (show ((0 : Nat) : Int) = 0 by norm_num)]
        rw [readVarInt_enc0 0 (by norm_num)]
        simp only []
        rw [readString_enc (BlockState.to_string st) rest
          (to_string_ascii st hgood) (hSts st hst)]
        simp only []
        rw [hfs]
        simp only []
        rw [show assocSet ([] : List (Int × BlockState))
            ((i32OfNat (List.length ([] : List (Int × BlockState))) + 1) * 2)
            (⟨st.name, ps⟩ : BlockState) =
          [((i32OfNat (List.length ([] : List (Int × BlockState))) + 1) * 2,
            (⟨st.name, ps⟩ : BlockState))] from rfl]
        rw [show (i32OfNat (List.length ([] : List (Int × BlockState))) + 1) * 2 =
          (i32OfNat (List.length ([] : List (BlockState × Int))) + 1) * 2 from rfl]
        rw [show ([((i32OfNat (List.length ([] : List (BlockState × Int))) + 1) * 2,
            (⟨st.name, ps⟩ : BlockState))]) =
          ([] : List (Int × BlockState)) ++
            [((i32OfNat (List.length ([] : List (BlockState × Int))) + 1) * 2,
              (⟨st.name, ps⟩ : BlockState))] from rfl]
        rfl
    · -- non-empty palette: command 1 with a diff from the closest state
      obtain ⟨c, hc, hcmem⟩ := findClosestState_spec w st hne
      obtain ⟨ce, hcefind, hce1, hcemem⟩ := find?_fst_of_mem w.running_palette c hcmem
      obtain ⟨⟨j, hj⟩, hgetce⟩ := List.mem_iff_get.mp hcemem
      have hj' : j < rp.length := by omega
      have hgp := palSim_get S 0 w.running_palette rp hsim j hj hj'
      have hcS : c ∈ S := by
        rw [← hce1]
        exact hsub ce hcemem
      have hcgood : goodState c = true := goodMCState_good (hSgood c hcS)
      have hdlen : (BlockState.difference c st).length ≤ 4096 := hSdiff c hcS st hst
      have hdlen31 : (BlockState.difference c st).length < 2 ^ 31 := by omega
      have hdascii := difference_ascii c st hcgood hgood
      have hceid : ce.2 = (((j : Nat) : Int) + 1) * 2 := by
        have := hgp.1
        rw [hgetce] at this
        rw [this]
        norm_num
      have hce0 : 0 ≤ ce.2 := by rw [hceid]; omega
      have hcetn : ce.2.toNat < 2 ^ 31 := by
        have : ((j : Nat) : Int) < ((S.length : Nat) : Int) := by exact_mod_cast by omega
        rw [hceid]
        omega
      have hbname : (rp.get ⟨j, hj'⟩).2.name = c.name := by
        rw [hgp.2.2.1, hgetce, hce1]
      have hbperm : (rp.get ⟨j, hj'⟩).2.properties.Perm c.properties := by
        have := hgp.2.2.2
        rw [hgetce, hce1] at this
        exact this
      obtain ⟨props, hupd, hpperm⟩ := update_difference_perm c st
        (rp.get ⟨j, hj'⟩).2.properties hcgood hgood hbperm hdlen
      have hbeta : (rp.get ⟨j, hj'⟩).2 = ⟨c.name, (rp.get ⟨j, hj'⟩).2.properties⟩ := by
        rcases hgv : (rp.get ⟨j, hj'⟩).2 with ⟨nm, pr⟩
        have hnm : nm = c.name := by rw [← hbname, hgv]
        rw [hnm]
      have hws := writeString_ok (BlockState.difference c st) hdlen31
      refine ⟨(i32OfNat w.running_palette.length + 1) * 2,
        { w with out := w.out ++ natVarInt (Int.toNat 1) ++ natVarInt ce.2.toNat ++
                   (natVarInt (BlockState.difference c st).length ++
                     (BlockState.difference c st).map Char.toNat),
                 running_palette := assocSet w.running_palette st
                   ((i32OfNat w.running_palette.length + 1) * 2) },
        natVarInt (Int.toNat 1) ++ natVarInt ce.2.toNat ++
          (natVarInt (BlockState.difference c st).length ++
            (BlockState.difference c st).map Char.toNat),
        rp ++ [((i32OfNat w.running_palette.length + 1) * 2, ⟨st.name, props⟩)],
        w.running_palette.length, ?_, ?_, ?_, ?_, ?_, ?_, ?_, ?_, ?_, ?_, ?_, ?_, ?_, ?_⟩
      · rw [hwset]
        simp
      · rw [List.length_append, hrplen]
        simp
      · rw [paletteIdFromState, hfind]
        simp only []
        rw [if_neg (show ¬ (w.running_palette.isEmpty = true) by
          rw [List.isEmpty_iff]
          exact hne)]
        rw [hc]
        simp only []
        rw [hcefind]
        simp only []
        rw [writeVarInt_nonneg 1 (by norm_num)]
        simp only []
        rw [writeVarInt_nonneg ce.2 hce0]
        simp only []
        rw [hws]
      · simp [List.append_assoc]
      · rw [hwset]
        exact hkeys'
      · rfl
      · rfl
      · rfl
      · rfl
      · rfl
      · rw [hwset, hilen]
        have := palSim_append S 0 w.running_palette rp hsim st ⟨st.name, props⟩ hst rfl
          (by simpa using hpperm)
        rw [show ((0 + w.running_palette.length : Nat) : Int) =
          ((w.running_palette.length : Nat) : Int) by norm_num] at this
        exact this
      · rw [List.get_of_eq hwset]
        simp
      · rw [List.get_of_eq hwset]
        simp
      · refine ⟨1, le_refl 1, ?_⟩
        intro rb cur rem rest f
        rw [parseNextInstruction]
        simp only []
        rw [show (natVarInt (Int.toNat 1) ++ natVarInt ce.2.toNat ++
            (natVarInt (BlockState.difference c st).length ++
              (BlockState.difference c st).map Char.toNat)) ++ rest =
          natVarInt 1 ++ (natVarInt ce.2.toNat ++
            (natVarInt (BlockState.difference c st).length ++
              ((BlockState.difference c st).map Char.toNat ++ rest))) by
          simp [List.append_assoc]]
        rw [readVarInt_enc0 1 (by norm_num)]
        simp only []
        rw [if_neg (show ¬ (((1 : Nat) : Int) = 0) by norm_num)]
        rw [if_pos (show ((1 : Nat) : Int) = 1 by norm_num)]
        rw [readVarInt_enc0 ce.2.toNat hcetn]
        simp only []
        rw [readString_enc (BlockState.difference c st) rest hdascii hdlen31]
        simp only []
        rw [Int.toNat_of_nonneg hce0]
        rw [show rp.find? (fun e => e.1 == ce.2) = some (rp.get ⟨j, hj'⟩) from by
          rw [show ce.2 = (((0 + j : Nat) : Int) + 1) * 2 from by
            rw [hceid]
            norm_num]
          exact palSim_find S 0 w.running_palette rp hsim j hj']
        simp only []
        rw [show BlockState.update (rp.get ⟨j, hj'⟩).2 (BlockState.difference c st) =
          Except.ok (⟨st.name, props⟩ : BlockState) from by
          rw [hbeta]
          exact hupd]
        simp only []
        rw [show assocSet rp ((i32OfNat rp.length + 1) * 2)
            (⟨st.name, props⟩ : BlockState) =
          rp ++ [((i32OfNat rp.length + 1) * 2, ⟨st.name, props⟩)] from by
          rw [assocSet]
          rw [show i32OfNat rp.length = ((rp.length : Nat) : Int) from
            i32OfNat_small (by omega)]
          rw [palSim_rp_fresh S w.running_palette rp hsim]
          rw [if_neg Bool.false_ne_true]]
        rw [show i32OfNat rp.length = i32OfNat w.running_palette.length from by
          rw [hrplen]]
  · -- the state is already in the palette: its id is returned, no bytes
    have hemem : e ∈ w.running_palette := List.mem_of_find?_eq_some hfind
    have hest : e.1 = st := by
      have := List.find?_some hfind
      simpa using this
    obtain ⟨⟨i, hi⟩, hgete⟩ := List.mem_iff_get.mp hemem
    have hi' : i < rp.length := by omega
    refine ⟨e.2, w, [], rp, i, hi, hi', ?_, by simp, hkeys, rfl, rfl, rfl, rfl, rfl,
      hsim, by rw [hgete], by rw [hgete, hest], 0, by norm_num, ?_⟩
    · rw [paletteIdFromState, hfind]
    · intro rb cur rem rest f
      rw [List.nil_append, Nat.add_zero]

theorem natVarInt_length_pos (v : Nat) : 1 ≤ (natVarInt v).length := by
  rw [natVarInt_eq]
  by_cases h : v < 128
  · rw [if_pos h]
    simp
  · rw [if_neg h]
    simp

theorem palSim_len_le (S : List BlockState) (wp : List (BlockState × Int))
    (rp : List (Int × BlockState)) (hsim : palSim S 0 wp rp)
    (hkeys : (wp.map Prod.fst).Nodup) : wp.length ≤ S.length := by
  have h1 : List.Subperm (wp.map Prod.fst) S :=
    hkeys.subperm (by
      intro a ha
      obtain ⟨e, he, rfl⟩ := List.mem_map.mp ha
      exact palSim_mem S 0 wp rp hsim e he)
  calc wp.length = (wp.map Prod.fst).length := by simp
    _ ≤ S.length := h1.length_le

/-- One writer run record (`write_palette_id_with_rle`) against one
reader loop step's `parse_next_instruction`: the emitted bytes load the
run state and length into the reader, keeping the palettes in
simulation. -/
theorem chunk_sim (S : List BlockState) (o : AxisOrder) (bd : Boundary)
    (hSgood : ∀ s ∈ S, goodMCState s = true)
    (hSdiff : ∀ a ∈ S, ∀ b ∈ S, (BlockState.difference a b).length ≤ 4096)
    (hSts : ∀ s ∈ S, (BlockState.to_string s).length < 2 ^ 31)
    (hSb : 2 * S.length + 4 < 2 ^ 31)
    (w : VXLWriter) (rp : List (Int × BlockState))
    (hsim : palSim S 0 w.running_palette rp)
    (hkeys : (w.running_palette.map Prod.fst).Nodup)
    (st : BlockState) (hst : st ∈ S)
    (len : Int) (hlen1 : 1 ≤ len) (hlen31 : len < 2 ^ 31) :
    ∃ (w₁ : VXLWriter) (Δ : List Nat) (rp' : List (Int × BlockState)) (st' : BlockState),
      writePaletteIdWithRLE w st len = .ok w₁ ∧
      w₁.out = w.out ++ Δ ∧ 1 ≤ Δ.length ∧
      w₁.written_blocks = w.written_blocks ∧ w₁.header_written = w.header_written ∧
      w₁.closed = w.closed ∧ w₁.axis_order = w.axis_order ∧ w₁.boundary = w.boundary ∧
      palSim S 0 w₁.running_palette rp' ∧
      (w₁.running_palette.map Prod.fst).Nodup ∧
      st'.name = st.name ∧ st'.properties.Perm st.properties ∧
      ∀ (rb : Nat) (cur : Option BlockState) (rem : Int) (rest : List Nat) (F : Nat),
        2 ≤ F →
        parseNextInstruction F
          (VXLReader.mk (Δ ++ rest) rp true (some o) (some bd) rb cur rem) =
        .ok (true, VXLReader.mk rest rp' true (some o) (some bd) rb (some st') len) := by
  obtain ⟨id, w₁p, Δp, rp', i, hi, hi', hpfs, hout, hnodup, hwb, hhw, hcl, hax, hbdy,
    hsim', hgid, hgst, k, hk, hparse⟩ :=
    paletteIdFromState_sim S o bd hSgood hSdiff hSts hSb w rp hsim hkeys st hst
  have hwlen' : w₁p.running_palette.length ≤ S.length :=
    palSim_len_le S _ rp' hsim' hnodup
  have hrun := parse_run_header S o bd w₁p.running_palette rp' hsim' hSb hwlen'
    i hi hi' len hlen1 hlen31
  rw [hgid] at hrun
  have hgp' := palSim_get S 0 w₁p.running_palette rp' hsim' i hi hi'
  have hid : id = (((i : Nat) : Int) + 1) * 2 := by
    rw [← hgid]
    have := hgp'.1
    rw [Nat.zero_add] at this
    exact this
  have hid0 : 0 ≤ id := by rw [hid]; omega
  have hstname : (rp'.get ⟨i, hi'⟩).2.name = st.name := by
    rw [hgp'.2.2.1, hgst]
  have hstperm : (rp'.get ⟨i, hi'⟩).2.properties.Perm st.properties := by
    have := hgp'.2.2.2
    rw [hgst] at this
    exact this
  by_cases hone : 1 < len
  · refine ⟨{ w₁p with out := w₁p.out ++ natVarInt (id + 1).toNat ++ natVarInt len.toNat },
      Δp ++ (natVarInt (id + 1).toNat ++ natVarInt len.toNat), rp',
      (rp'.get ⟨i, hi'⟩).2, ?_, ?_, ?_, hwb, hhw, hcl, hax, hbdy, hsim', hnodup,
      hstname, hstperm, ?_⟩
    · rw [writePaletteIdWithRLE, hpfs]
      simp only []
      rw [if_pos hone]
      rw [writeVarInt_nonneg _ (by omega)]
      simp only []
      rw [writeVarInt_nonneg _ (by omega)]
    · rw [hout]
      simp [List.append_assoc]
    · calc 1 ≤ (natVarInt (id + 1).toNat).length := natVarInt_length_pos _
        _ ≤ _ := by rw [List.length_append, List.length_append]; omega
    · intro rb cur rem rest F hF
      have hFk : F = (F - 1 - k) + 1 + k := by omega
      rw [hFk]
      rw [show (Δp ++ (natVarInt (id + 1).toNat ++ natVarInt len.toNat)) ++ rest =
        Δp ++ ((natVarInt (id + 1).toNat ++ natVarInt len.toNat) ++ rest) by
        simp [List.append_assoc]]
      rw [hparse rb cur rem ((natVarInt (id + 1).toNat ++ natVarInt len.toNat) ++ rest)
        (F - 1 - k + 1)]
      have := hrun rb cur rem rest (F - 1 - k)
      rw [if_pos hone] at this
      exact this
  · refine ⟨{ w₁p with out := w₁p.out ++ natVarInt id.toNat },
      Δp ++ natVarInt id.toNat, rp',
      (rp'.get ⟨i, hi'⟩).2, ?_, ?_, ?_, hwb, hhw, hcl, hax, hbdy, hsim', hnodup,
      hstname, hstperm, ?_⟩
    · rw [writePaletteIdWithRLE, hpfs]
      simp only []
      rw [if_neg hone]
      rw [writeVarInt_nonneg _ hid0]
    · rw [hout]
      simp [List.append_assoc]
    · calc 1 ≤ (natVarInt id.toNat).length := natVarInt_length_pos _
        _ ≤ _ := by rw [List.length_append]; omega
    · intro rb cur rem rest F hF
      have hFk : F = (F - 1 - k) + 1 + k := by omega
      rw [hFk]
      rw [show (Δp ++ natVarInt id.toNat) ++ rest =
        Δp ++ (natVarInt id.toNat ++ rest) by simp [List.append_assoc]]
      rw [hparse rb cur rem (natVarInt id.toNat ++ rest) (F - 1 - k + 1)]
      have := hrun rb cur rem rest (F - 1 - k)
      rw [if_neg hone] at this
      exact this

/-! ### The write/read loop simulation -/

/-- The writer's flat index of a block. -/
def flatOf (o : AxisOrder) (bd : Boundary) (blk : Block) : Nat :=
  usizeOfInt (AxisOrder.index o blk.position bd)

/-- Blocks arrive in traversal order at distinct positions: each flat
index is at least the cursor, and the indices strictly increase. -/
def ordFrom (o : AxisOrder) (bd : Boundary) : Nat → List Block → Prop
| _, [] => True
| c, blk :: rest => c ≤ flatOf o bd blk ∧ ordFrom o bd (flatOf o bd blk + 1) rest

theorem forall₂_mem_right {α β : Type} {R : α → β → Prop} :
    ∀ {l₁ : List α} {l₂ : List β}, List.Forall₂ R l₁ l₂ →
      ∀ b ∈ l₂, ∃ a ∈ l₁, R a b := by
  intro l₁ l₂ h
  induction h with
  | nil => intro b hb; simp at hb
  | cons hr _ ih =>
    intro b hb
    rcases List.mem_cons.mp hb with rfl | hb
    · exact ⟨_, by simp, hr⟩
    · obtain ⟨a, ha, har⟩ := ih b hb
      exact ⟨a, by simp [ha], har⟩

/-- The run detected by the writer: states equal to the run state at
consecutive flat indices from the cursor. -/
theorem runLenFrom_take (st : BlockState) (o : AxisOrder) (bd : Boundary) :
    ∀ (blocks : List Block) (cursor : Nat),
      (∀ blk ∈ blocks, bd.containsPos blk.position) →
      List.Forall₂ (fun blk k => blk.state = st ∧ flatOf o bd blk = k ∧
          bd.containsPos blk.position)
        (blocks.take (runLenFrom st o bd cursor blocks))
        (List.range' cursor (runLenFrom st o bd cursor blocks)) := by
  intro blocks
  induction blocks with
  | nil =>
    intro cursor _
    rw [show runLenFrom st o bd cursor [] = 0 from rfl]
    exact List.Forall₂.nil
  | cons blk rest ih =>
    intro cursor hcont
    by_cases hst : blk.state = st
    · by_cases hfl : usizeOfInt (AxisOrder.index o blk.position bd) = cursor
      · rw [show runLenFrom st o bd cursor (blk :: rest) =
          runLenFrom st o bd (cursor + 1) rest + 1 from by
            rw [runLenFrom, if_pos hst, if_pos hfl]]
        rw [show (blk :: rest).take (runLenFrom st o bd (cursor + 1) rest + 1) =
          blk :: rest.take (runLenFrom st o bd (cursor + 1) rest) from rfl]
        rw [show List.range' cursor (runLenFrom st o bd (cursor + 1) rest + 1) =
          cursor :: List.range' (cursor + 1) (runLenFrom st o bd (cursor + 1) rest)
          from rfl]
        exact List.Forall₂.cons ⟨hst, hfl, hcont blk (by simp)⟩
          (ih (cursor + 1) (fun b hb => hcont b (by simp [hb])))
      · rw [show runLenFrom st o bd cursor (blk :: rest) = 0 from by
          rw [runLenFrom, if_pos hst, if_neg hfl]]
        exact List.Forall₂.nil
    · rw [show runLenFrom st o bd cursor (blk :: rest) = 0 from by
        rw [runLenFrom, if_neg hst]]
      exact List.Forall₂.nil

theorem runLenFrom_le (st : BlockState) (o : AxisOrder) (bd : Boundary) :
    ∀ (blocks : List Block) (cursor : Nat),
      runLenFrom st o bd cursor blocks ≤ blocks.length := by
  intro blocks
  induction blocks with
  | nil => intro cursor; rw [show runLenFrom st o bd cursor [] = 0 from rfl]; simp
  | cons blk rest ih =>
    intro cursor
    rw [runLenFrom]
    by_cases hst : blk.state = st
    · rw [if_pos hst]
      by_cases hfl : usizeOfInt (AxisOrder.index o blk.position bd) = cursor
      · rw [if_pos hfl]
        have := ih (cursor + 1)
        simp only [List.length_cons]
        omega
      · rw [if_neg hfl]
        simp
    · rw [if_neg hst]
      simp

theorem runLenFrom_pos (st : BlockState) (o : AxisOrder) (bd : Boundary)
    (blk : Block) (rest : List Block) (cursor : Nat)
    (hst : blk.state = st) (hfl : usizeOfInt (AxisOrder.index o blk.position bd) = cursor) :
    1 ≤ runLenFrom st o bd cursor (blk :: rest) := by
  rw [runLenFrom, if_pos hst, if_pos hfl]
  omega

/-- After the run, the remaining blocks are ordered from the advanced
cursor. -/
theorem runLenFrom_ord (st : BlockState) (o : AxisOrder) (bd : Boundary) :
    ∀ (blocks : List Block) (cursor : Nat), ordFrom o bd cursor blocks →
      ordFrom o bd (cursor + runLenFrom st o bd cursor blocks)
        (blocks.drop (runLenFrom st o bd cursor blocks)) := by
  intro blocks
  induction blocks with
  | nil =>
    intro cursor _
    exact trivial
  | cons blk rest ih =>
    intro cursor hord
    rw [ordFrom] at hord
    by_cases hst : blk.state = st
    · by_cases hfl : usizeOfInt (AxisOrder.index o blk.position bd) = cursor
      · rw [show runLenFrom st o bd cursor (blk :: rest) =
          runLenFrom st o bd (cursor + 1) rest + 1 from by
            rw [runLenFrom, if_pos hst, if_pos hfl]]
        rw [show (blk :: rest).drop (runLenFrom st o bd (cursor + 1) rest + 1) =
          rest.drop (runLenFrom st o bd (cursor + 1) rest) from rfl]
        have hord2 : ordFrom o bd (cursor + 1) rest := by
          have := hord.2
          rw [show flatOf o bd blk = cursor from hfl] at this
          exact this
        have := ih (cursor + 1) hord2
        rw [show cursor + (runLenFrom st o bd (cursor + 1) rest + 1) =
          cursor + 1 + runLenFrom st o bd (cursor + 1) rest by omega]
        exact this
      · rw [show runLenFrom st o bd cursor (blk :: rest) = 0 from by
          rw [runLenFrom, if_pos hst, if_neg hfl]]
        rw [List.drop_zero, Nat.add_zero]
        rw [ordFrom]
        exact hord
    · rw [show runLenFrom st o bd cursor (blk :: rest) = 0 from by
        rw [runLenFrom, if_neg hst]]
      rw [List.drop_zero, Nat.add_zero]
      rw [ordFrom]
      exact hord

theorem is_air_name (a b : BlockState) (h : a.name = b.name) :
    a.is_air = b.is_air := by
  rw [BlockState.is_air, BlockState.is_air, h]

theorem filter_const_state (st : BlockState) :
    ∀ l : List Block, (∀ x ∈ l, x.state = st) →
      l.filter (fun b => !b.state.is_air) = (if st.is_air = true then [] else l) := by
  intro l
  induction l with
  | nil =>
    intro _
    cases hair : st.is_air
    · rw [if_neg Bool.false_ne_true]
      rfl
    · rw [if_pos rfl]
      rfl
  | cons x rest ih =>
    intro hall
    have hx : x.state = st := hall x (by simp)
    have hrest := ih (fun y hy => hall y (by simp [hy]))
    rw [List.filter_cons, hrest]
    cases hair : st.is_air
    · rw [if_pos (show (!x.state.is_air) = true by rw [hx, hair]; rfl)]
      rw [if_neg Bool.false_ne_true, if_neg Bool.false_ne_true]
    · rw [if_neg (show ¬ ((!x.state.is_air) = true) by rw [hx, hair]; simp)]
      rw [if_pos rfl, if_pos rfl]

/-- The blocks the reader emits for one run are the run's blocks with the
reader's copy of the run state. -/
theorem emitted_matches (o : AxisOrder) (bd : Boundary)
    (h0 : 0 < dimOf bd o.axisTriple.1) (h1 : 0 < dimOf bd o.axisTriple.2.1)
    (h2 : 0 < dimOf bd o.axisTriple.2.2)
    (hN : dim0 bd o * dim1 bd o * dim2 bd o < 2 ^ 31)
    (st st' : BlockState) (hname : st'.name = st.name)
    (hperm : st'.properties.Perm st.properties) :
    ∀ (pre : List Block) (c : Nat),
      List.Forall₂ (fun (blk : Block) (k : Nat) => blk.state = st ∧ flatOf o bd blk = k ∧
          bd.containsPos blk.position) pre (List.range' c pre.length) →
      List.Forall₂ (fun (cb ob : Block) => cb.position = ob.position ∧
          cb.state.name = ob.state.name ∧
          cb.state.properties.Perm ob.state.properties)
        ((List.range' c pre.length).map (fun k => (⟨posAt bd o k, st'⟩ : Block))) pre := by
  intro pre
  induction pre with
  | nil => intro c _; exact List.Forall₂.nil
  | cons blk rest ih =>
    intro c hf2
    rw [show List.range' c (blk :: rest).length =
      c :: List.range' (c + 1) rest.length from rfl] at hf2 ⊢
    rcases hf2 with - | ⟨⟨hst, hfl, hcont⟩, htail⟩
    rw [List.map_cons]
    refine List.Forall₂.cons ⟨?_, ?_, ?_⟩ (ih (c + 1) htail)
    · show posAt bd o c = blk.position
      obtain ⟨k, hkN, hkpos, hkflat⟩ := flat_of_contained bd o h0 h1 h2 hN
        blk.position hcont
      have hfl' : usizeOfInt (AxisOrder.index o blk.position bd) = c := by
        rw [flatOf] at hfl
        exact hfl
      have hkc : k = c := hkflat.symm.trans hfl'
      rw [← hkc]
      exact hkpos
    · show st'.name = blk.state.name
      rw [hname, hst]
    · show st'.properties.Perm blk.state.properties
      rw [hst]
      exact hperm

/-- End of stream: with no input left, one more loop round returns the
accumulated buffer (either by the `blocks_written == length` exit or by
the end-of-stream break). -/
theorem vxlReadLoop_end (bd : Boundary) (o : AxisOrder) (N : Nat)
    (rp : List (Int × BlockState)) (c : Nat) (cur : Option BlockState)
    (bw : Nat) (buf : List Block) (f : Nat) :
    ∃ r', vxlReadLoop bd o N (f + 1)
      (VXLReader.mk [] rp true (some o) (some bd) c cur 0) bw buf =
      .ok (r', bw, buf) := by
  by_cases hbw : bw < N
  · refine ⟨VXLReader.mk [] rp true (some o) (some bd) c cur 0, ?_⟩
    rw [vxlReadLoop]
    simp only []
    rw [if_pos hbw]
    rw [if_pos (show (0 : Int) ≤ 0 from le_refl 0)]
    rw [parseNextInstruction]
    rw [show readVarInt ([] : List Nat) 0 0 =
      .error (str ("failed to fill whole buffer")) from rfl]
  · refine ⟨VXLReader.mk [] rp true (some o) (some bd) c cur 0, ?_⟩
    rw [vxlReadLoop]
    simp only []
    rw [if_neg hbw]

/-- One loop round of `read` against one writer run record: parse the
instruction chunk, emit the whole run, continue. -/
theorem vxlReadLoop_chunk (bd : Boundary) (o : AxisOrder)
    (h0 : 0 < dimOf bd o.axisTriple.1) (h1 : 0 < dimOf bd o.axisTriple.2.1)
    (h2 : 0 < dimOf bd o.axisTriple.2.2)
    (N : Nat) (hNeq : N = dim0 bd o * dim1 bd o * dim2 bd o) (hN31 : N < 2 ^ 31)
    (Δc restB : List Nat) (rp rp' : List (Int × BlockState)) (st' : BlockState)
    (Lnat c₀ bw : Nat) (cur : Option BlockState) (buf : List Block) (f : Nat)
    (hL1 : 1 ≤ Lnat) (hcL : c₀ + Lnat ≤ N) (hbw : bw ≤ c₀) (hΔ1 : 1 ≤ Δc.length)
    (hparse : ∀ (rb : Nat) (cur2 : Option BlockState) (rem : Int) (F : Nat), 2 ≤ F →
      parseNextInstruction F
        (VXLReader.mk (Δc ++ restB) rp true (some o) (some bd) rb cur2 rem) =
      .ok (true, VXLReader.mk restB rp' true (some o) (some bd) rb (some st')
        ((Lnat : Nat) : Int))) :
    vxlReadLoop bd o N (f + 1)
      (VXLReader.mk (Δc ++ restB) rp true (some o) (some bd) c₀ cur 0) bw buf =
    vxlReadLoop bd o N f
      (VXLReader.mk restB rp' true (some o) (some bd) (c₀ + Lnat) (some st') 0)
      (bw + (if st'.is_air = true then 0 else Lnat))
      (buf ++ (if st'.is_air = true then []
        else (List.range' c₀ Lnat).map (fun k => (⟨posAt bd o k, st'⟩ : Block)))) := by
  have hbwN : bw < N := by omega
  rw [vxlReadLoop]
  simp only []
  rw [if_pos hbwN]
  rw [if_pos (show (0 : Int) ≤ 0 from le_refl 0)]
  rw [hparse c₀ cur 0 ((Δc ++ restB).length + 1) (by
    rw [List.length_append]
    omega)]
  simp only []
  have hatt : usizeOfInt (min (i32OfNat (N - bw)) ((Lnat : Nat) : Int)) = Lnat := by
    rw [i32OfNat_small (show N - bw < 2 ^ 31 by omega)]
    rw [min_eq_right (show ((Lnat : Nat) : Int) ≤ ((N - bw : Nat) : Int) by
      exact_mod_cast by omega)]
    exact usizeOfInt_natCast _ (by omega)
  rw [hatt]
  rw [iterSkip_eq_steps]
  rw [vxlEmitRun_spec bd o h0 h1 h2 Lnat c₀ (by omega) bw buf st']
  have hrem : ((Lnat : Nat) : Int) - i32OfNat Lnat = 0 := by
    rw [i32OfNat_small (by omega)]
    omega
  cases hair : st'.is_air
  · rw [if_neg Bool.false_ne_true, if_neg Bool.false_ne_true,
      if_neg Bool.false_ne_true]
    simp only []
    rw [hrem]
  · rw [if_pos rfl, if_pos rfl, if_pos rfl]
    simp only []
    rw [hrem, Nat.add_zero, List.append_nil]

theorem forall₂_mem_left {α β : Type} {R : α → β → Prop} :
    ∀ {l₁ : List α} {l₂ : List β}, List.Forall₂ R l₁ l₂ →
      ∀ a ∈ l₁, ∃ b ∈ l₂, R a b := by
  intro l₁ l₂ h
  induction h with
  | nil => intro a ha; simp at ha
  | cons hr _ ih =>
    intro a ha
    rcases List.mem_cons.mp ha with rfl | ha
    · exact ⟨_, by simp, hr⟩
    · obtain ⟨b, hb, hbr⟩ := ih a ha
      exact ⟨b, by simp [hb], hbr⟩

/-- The main simulation: the `write_blocks` loop on an ordered block list
against the reader's `read` loop on the emitted bytes. -/
theorem vxl_sim (S : List BlockState) (o : AxisOrder) (bd : Boundary)
    (hSgood : ∀ s ∈ S, goodMCState s = true)
    (hSdiff : ∀ a ∈ S, ∀ b ∈ S, (BlockState.difference a b).length ≤ 4096)
    (hSts : ∀ s ∈ S, (BlockState.to_string s).length < 2 ^ 31)
    (hSb : 2 * S.length + 4 < 2 ^ 31)
    (h0 : 0 < dimOf bd o.axisTriple.1) (h1 : 0 < dimOf bd o.axisTriple.2.1)
    (h2 : 0 < dimOf bd o.axisTriple.2.2)
    (N : Nat) (hNeq : N = dim0 bd o * dim1 bd o * dim2 bd o) (hN31 : N < 2 ^ 31)
    (hairS : BlockState.air ∈ S) :
    ∀ (fuelW : Nat) (blocks : List Block) (w : VXLWriter) (rp : List (Int × BlockState)),
      blocks.length < fuelW →
      w.axis_order = o → w.boundary = bd → w.header_written = true → w.closed = false →
      w.written_blocks ≤ N →
      palSim S 0 w.running_palette rp →
      (w.running_palette.map Prod.fst).Nodup →
      (∀ blk ∈ blocks, blk.state ∈ S) →
      (∀ blk ∈ blocks, bd.containsPos blk.position) →
      ordFrom o bd w.written_blocks blocks →
      ∃ (w' : VXLWriter) (Δ : List Nat),
        writeBlocksLoop fuelW w blocks = .ok w' ∧
        w'.out = w.out ++ Δ ∧
        ∀ (bw : Nat) (buf : List Block) (cur : Option BlockState) (fuelR : Nat),
          bw ≤ w.written_blocks → Δ.length + 1 ≤ fuelR →
          ∃ (r' : VXLReader) (nb : List Block),
            vxlReadLoop bd o N fuelR
              (VXLReader.mk Δ rp true (some o) (some bd) w.written_blocks cur 0)
              bw buf = .ok (r', bw + nb.length, buf ++ nb) ∧
            List.Forall₂ (fun (cb ob : Block) => cb.position = ob.position ∧
              cb.state.name = ob.state.name ∧
              cb.state.properties.Perm ob.state.properties)
              nb (blocks.filter (fun blk => !blk.state.is_air)) := by
  intro fuelW
  induction fuelW with
  | zero =>
    intro blocks w rp hfW
    omega
  | succ fuelW ih =>
    intro blocks w rp hfW hax hbdy hhw hcl hwN hsim hkeys hmemS hcont hord
    cases blocks with
    | nil =>
      refine ⟨w, [], ?_, by simp, ?_⟩
      · rw [writeBlocksLoop]
      · intro bw buf cur fuelR hbw hfR
        obtain ⟨fr, rfl⟩ : ∃ fr, fuelR = fr + 1 := ⟨fuelR - 1, by omega⟩
        obtain ⟨r', hr'⟩ := vxlReadLoop_end bd o N rp w.written_blocks cur bw buf fr
        refine ⟨r', [], by simpa using hr', by simp⟩
    | cons blk rest =>
      rw [ordFrom] at hord
      obtain ⟨hordlow, hordrest⟩ := hord
      have hcontb : bd.containsPos blk.position := hcont blk (by simp)
      obtain ⟨kf, hkfN0, hkfpos, hkfflat⟩ := flat_of_contained bd o h0 h1 h2
        (hNeq ▸ hN31) blk.position hcontb
      have hkfN : kf < N := by rw [hNeq]; exact hkfN0
      have hflatb : flatOf o bd blk = kf := hkfflat
      rw [hflatb] at hordlow
      rw [hflatb] at hordrest
      -- the run at the cursor kf
      have hordkf : ordFrom o bd kf (blk :: rest) := by
        rw [ordFrom, hflatb]
        exact ⟨le_refl kf, hordrest⟩
      have hrr1 : 1 ≤ runLenFrom blk.state o bd kf (blk :: rest) :=
        runLenFrom_pos blk.state o bd blk rest kf rfl hkfflat
      have hrrle : runLenFrom blk.state o bd kf (blk :: rest) ≤ (blk :: rest).length :=
        runLenFrom_le blk.state o bd (blk :: rest) kf
      have hrunF2 := runLenFrom_take blk.state o bd (blk :: rest) kf hcont
      have htklen : ((blk :: rest).take (runLenFrom blk.state o bd kf (blk :: rest))).length
          = runLenFrom blk.state o bd kf (blk :: rest) := by
        rw [List.length_take]
        omega
      have hkfr : kf + runLenFrom blk.state o bd kf (blk :: rest) ≤ N := by
        have hmem : kf + runLenFrom blk.state o bd kf (blk :: rest) - 1 ∈
            List.range' kf (runLenFrom blk.state o bd kf (blk :: rest)) := by
          rw [List.mem_range'_1]
          omega
        obtain ⟨b2, -, -, hbfl, hbcont⟩ := forall₂_mem_right hrunF2 _ hmem
        obtain ⟨k2, hk2N, -, hk2flat⟩ := flat_of_contained bd o h0 h1 h2
          (hNeq ▸ hN31) b2.position hbcont
        have hk2eq : k2 = kf + runLenFrom blk.state o bd kf (blk :: rest) - 1 :=
          hk2flat.symm.trans hbfl
        rw [hNeq]
        omega
      have hrr31 : runLenFrom blk.state o bd kf (blk :: rest) < 2 ^ 31 := by omega
      have hordtail : ordFrom o bd (kf + runLenFrom blk.state o bd kf (blk :: rest))
          ((blk :: rest).drop (runLenFrom blk.state o bd kf (blk :: rest))) :=
        runLenFrom_ord blk.state o bd (blk :: rest) kf hordkf
      have hstS : blk.state ∈ S := hmemS blk (by simp)
      by_cases hgap : w.written_blocks < kf
      · -- gap: an air run precedes the block run
        have hgap31 : kf - w.written_blocks < 2 ^ 31 := by omega
        obtain ⟨w1, Δ1, rp1, air', hwr1, hout1, hΔ1len, hwb1, hhw1, hcl1, hax1, hbdy1,
          hsim1, hkeys1, hairname, -, hparse1⟩ :=
          chunk_sim S o bd hSgood hSdiff hSts hSb w rp hsim hkeys BlockState.air hairS
            (((kf - w.written_blocks : Nat) : Int)) (by
              have h1le : 1 ≤ kf - w.written_blocks := by omega
              exact_mod_cast h1le) (by exact_mod_cast hgap31)
        have hairt : air'.is_air = true := by
          rw [is_air_name air' BlockState.air hairname]
          decide
        have hax1' : w1.axis_order = o := hax1.trans hax
        have hbdy1' : w1.boundary = bd := hbdy1.trans hbdy
        have hw1w : w1.written_blocks + (kf - w.written_blocks) = kf := by
          rw [hwb1]
          omega
        -- writer state after the block run
        obtain ⟨w2, Δ2, rp2, st', hwr2, hout2, hΔ2len, hwb2, hhw2, hcl2, hax2, hbdy2,
          hsim2, hkeys2, hstname, hstperm, hparse2⟩ :=
          chunk_sim S o bd hSgood hSdiff hSts hSb
            (VXLWriter.mk w1.out w1.running_palette w1.header_written w1.closed o bd kf)
            rp1 hsim1 hkeys1 blk.state hstS
            (((runLenFrom blk.state o bd kf (blk :: rest) : Nat) : Int))
            (by exact_mod_cast hrr1) (by exact_mod_cast hrr31)
        have hwb2' : w2.written_blocks = kf := hwb2
        have hax2' : w2.axis_order = o := hax2
        have hbdy2' : w2.boundary = bd := hbdy2
        have hhw2' : w2.header_written = true := hhw2.trans (hhw1.trans hhw)
        have hcl2' : w2.closed = false := hcl2.trans (hcl1.trans hcl)
        have hout2' : w2.out = w1.out ++ Δ2 := hout2
        obtain ⟨w', Δ3, hloop, hout3, hread3⟩ := ih
          ((blk :: rest).drop (runLenFrom blk.state o bd kf (blk :: rest)))
          { w2 with written_blocks :=
              w2.written_blocks + runLenFrom blk.state o bd kf (blk :: rest) }
          rp2
          (by
            rw [List.length_drop]
            omega)
          hax2' hbdy2' hhw2' hcl2'
          (by
            show w2.written_blocks + runLenFrom blk.state o bd kf (blk :: rest) ≤ N
            rw [hwb2']
            exact hkfr)
          hsim2 hkeys2
          (fun blk' hb => hmemS blk' (List.drop_subset _ _ hb))
          (fun blk' hb => hcont blk' (List.drop_subset _ _ hb))
          (by
            show ordFrom o bd
              (w2.written_blocks + runLenFrom blk.state o bd kf (blk :: rest))
              ((blk :: rest).drop (runLenFrom blk.state o bd kf (blk :: rest)))
            rw [hwb2']
            exact hordtail)
        refine ⟨w', Δ1 ++ (Δ2 ++ Δ3), ?_, ?_, ?_⟩
        · rw [writeBlocksLoop]
          simp only []
          rw [show usizeOfInt (AxisOrder.index w.axis_order blk.position w.boundary)
            = kf by rw [hax, hbdy]; exact hkfflat]
          rw [if_neg (show ¬ kf < w.written_blocks by omega)]
          rw [if_pos hgap]
          rw [i32OfNat_small hgap31, hwr1]
          simp only []
          rw [hax1', hbdy1', hw1w]
          rw [i32OfNat_small hrr31, hwr2]
          simp only []
          exact hloop
        · have hout3' : w'.out = w2.out ++ Δ3 := hout3
          rw [hout3', hout2', hout1]
          simp [List.append_assoc]
        · intro bw buf cur fuelR hbw hfR
          rw [List.length_append, List.length_append] at hfR
          have hparse1' := fun rb cur2 rem F hF => hparse1 rb cur2 rem (Δ2 ++ Δ3) F hF
          have hstep1 := vxlReadLoop_chunk bd o h0 h1 h2 N hNeq hN31 Δ1 (Δ2 ++ Δ3)
            rp rp1 air' (kf - w.written_blocks) w.written_blocks bw cur buf
            (fuelR - 1) (by omega) (by omega) hbw hΔ1len hparse1'
          rw [show fuelR - 1 + 1 = fuelR by omega] at hstep1
          simp only [if_pos hairt, Nat.add_zero, List.append_nil] at hstep1
          rw [show w.written_blocks + (kf - w.written_blocks) = kf by omega] at hstep1
          have hparse2' := fun rb cur2 rem F hF => hparse2 rb cur2 rem Δ3 F hF
          have hstep2 := vxlReadLoop_chunk bd o h0 h1 h2 N hNeq hN31 Δ2 Δ3
            rp1 rp2 st' (runLenFrom blk.state o bd kf (blk :: rest)) kf bw
            (some air') buf (fuelR - 2) hrr1 hkfr (by omega) hΔ2len hparse2'
          rw [show fuelR - 2 + 1 = fuelR - 1 by omega] at hstep2
          have hstatesTake : ∀ x ∈
              (blk :: rest).take (runLenFrom blk.state o bd kf (blk :: rest)),
              x.state = blk.state := by
            intro x hx
            obtain ⟨k, -, hxs, -, -⟩ := forall₂_mem_left hrunF2 x hx
            exact hxs
          have hfilttake := filter_const_state blk.state _ hstatesTake
          have hfiltsplit : (blk :: rest).filter (fun b => !b.state.is_air) =
              ((blk :: rest).take (runLenFrom blk.state o bd kf (blk :: rest))).filter
                (fun b => !b.state.is_air) ++
              ((blk :: rest).drop (runLenFrom blk.state o bd kf (blk :: rest))).filter
                (fun b => !b.state.is_air) := by
            conv_lhs => rw [← List.take_append_drop
              (runLenFrom blk.state o bd kf (blk :: rest)) (blk :: rest)]
            rw [List.filter_append]
          by_cases hairst : st'.is_air = true
          · simp only [if_pos hairst, Nat.add_zero, List.append_nil] at hstep2
            obtain ⟨r', nb3, hloopT, hF2T⟩ := hread3 bw buf (some st') (fuelR - 2)
              (by
                show bw ≤ w2.written_blocks + runLenFrom blk.state o bd kf (blk :: rest)
                rw [hwb2']
                omega)
              (by omega)
            simp only [] at hloopT
            rw [hwb2'] at hloopT
            refine ⟨r', nb3, hstep1.trans (hstep2.trans hloopT), ?_⟩
            have hbsair : blk.state.is_air = true := by
              rw [← is_air_name st' blk.state hstname]
              exact hairst
            rw [hfiltsplit, hfilttake, if_pos hbsair, List.nil_append]
            exact hF2T
          · simp only [if_neg hairst] at hstep2
            obtain ⟨r', nb3, hloopT, hF2T⟩ := hread3
              (bw + runLenFrom blk.state o bd kf (blk :: rest))
              (buf ++ (List.range' kf (runLenFrom blk.state o bd kf (blk :: rest))).map
                (fun k => (⟨posAt bd o k, st'⟩ : Block)))
              (some st') (fuelR - 2)
              (by
                show bw + runLenFrom blk.state o bd kf (blk :: rest) ≤
                  w2.written_blocks + runLenFrom blk.state o bd kf (blk :: rest)
                rw [hwb2']
                omega)
              (by omega)
            simp only [] at hloopT
            rw [hwb2'] at hloopT
            refine ⟨r', (List.range' kf (runLenFrom blk.state o bd kf (blk :: rest))).map
              (fun k => (⟨posAt bd o k, st'⟩ : Block)) ++ nb3, ?_, ?_⟩
            · rw [List.length_append, List.length_map, List.length_range']
              rw [← Nat.add_assoc, ← List.append_assoc buf]
              exact hstep1.trans (hstep2.trans hloopT)
            · obtain hEM := emitted_matches o bd h0 h1 h2 (hNeq ▸ hN31) blk.state st'
                hstname hstperm
                ((blk :: rest).take (runLenFrom blk.state o bd kf (blk :: rest))) kf
                (by rw [htklen]; exact hrunF2)
              rw [htklen] at hEM
              have hbsair : blk.state.is_air = false := by
                rw [← is_air_name st' blk.state hstname]
                exact Bool.eq_false_iff.mpr hairst
              have hbsne : ¬ (blk.state.is_air = true) := by
                rw [hbsair]
                exact Bool.false_ne_true
              rw [hfiltsplit, hfilttake, if_neg hbsne]
              exact List.rel_append hEM hF2T
      · -- no gap: the cursor is already at the block's flat index
        have hwkf : w.written_blocks = kf := by omega
        obtain ⟨w2, Δ2, rp2, st', hwr2, hout2, hΔ2len, hwb2, hhw2, hcl2, hax2, hbdy2,
          hsim2, hkeys2, hstname, hstperm, hparse2⟩ :=
          chunk_sim S o bd hSgood hSdiff hSts hSb w rp hsim hkeys blk.state hstS
            (((runLenFrom blk.state o bd kf (blk :: rest) : Nat) : Int))
            (by exact_mod_cast hrr1) (by exact_mod_cast hrr31)
        have hwb2' : w2.written_blocks = kf := hwb2.trans hwkf
        have hax2' : w2.axis_order = o := hax2.trans hax
        have hbdy2' : w2.boundary = bd := hbdy2.trans hbdy
        have hhw2' : w2.header_written = true := hhw2.trans hhw
        have hcl2' : w2.closed = false := hcl2.trans hcl
        obtain ⟨w', Δ3, hloop, hout3, hread3⟩ := ih
          ((blk :: rest).drop (runLenFrom blk.state o bd kf (blk :: rest)))
          { w2 with written_blocks :=
              w2.written_blocks + runLenFrom blk.state o bd kf (blk :: rest) }
          rp2
          (by
            rw [List.length_drop]
            omega)
          hax2' hbdy2' hhw2' hcl2'
          (by
            show w2.written_blocks + runLenFrom blk.state o bd kf (blk :: rest) ≤ N
            rw [hwb2']
            exact hkfr)
          hsim2 hkeys2
          (fun blk' hb => hmemS blk' (List.drop_subset _ _ hb))
          (fun blk' hb => hcont blk' (List.drop_subset _ _ hb))
          (by
            show ordFrom o bd
              (w2.written_blocks + runLenFrom blk.state o bd kf (blk :: rest))
              ((blk :: rest).drop (runLenFrom blk.state o bd kf (blk :: rest)))
            rw [hwb2']
            exact hordtail)
        refine ⟨w', Δ2 ++ Δ3, ?_, ?_, ?_⟩
        · rw [writeBlocksLoop]
          simp only []
          rw [show usizeOfInt (AxisOrder.index w.axis_order blk.position w.boundary)
            = kf by rw [hax, hbdy]; exact hkfflat]
          rw [if_neg (show ¬ kf < w.written_blocks by omega)]
          rw [if_neg hgap]
          simp only []
          rw [hax, hbdy, hwkf]
          rw [i32OfNat_small hrr31, hwr2]
          simp only []
          exact hloop
        · have hout3' : w'.out = w2.out ++ Δ3 := hout3
          rw [hout3', hout2]
          simp [List.append_assoc]
        · intro bw buf cur fuelR hbw hfR
          rw [List.length_append] at hfR
          rw [hwkf] at hbw
          rw [hwkf]
          have hparse2' := fun rb cur2 rem F hF => hparse2 rb cur2 rem Δ3 F hF
          have hstep2 := vxlReadLoop_chunk bd o h0 h1 h2 N hNeq hN31 Δ2 Δ3
            rp rp2 st' (runLenFrom blk.state o bd kf (blk :: rest)) kf bw
            cur buf (fuelR - 1) hrr1 hkfr hbw hΔ2len hparse2'
          rw [show fuelR - 1 + 1 = fuelR by omega] at hstep2
          have hstatesTake : ∀ x ∈
              (blk :: rest).take (runLenFrom blk.state o bd kf (blk :: rest)),
              x.state = blk.state := by
            intro x hx
            obtain ⟨k, -, hxs, -, -⟩ := forall₂_mem_left hrunF2 x hx
            exact hxs
          have hfilttake := filter_const_state blk.state _ hstatesTake
          have hfiltsplit : (blk :: rest).filter (fun b => !b.state.is_air) =
              ((blk :: rest).take (runLenFrom blk.state o bd kf (blk :: rest))).filter
                (fun b => !b.state.is_air) ++
              ((blk :: rest).drop (runLenFrom blk.state o bd kf (blk :: rest))).filter
                (fun b => !b.state.is_air) := by
            conv_lhs => rw [← List.take_append_drop
              (runLenFrom blk.state o bd kf (blk :: rest)) (blk :: rest)]
            rw [List.filter_append]
          by_cases hairst : st'.is_air = true
          · simp only [if_pos hairst, Nat.add_zero, List.append_nil] at hstep2
            obtain ⟨r', nb3, hloopT, hF2T⟩ := hread3 bw buf (some st') (fuelR - 1)
              (by
                show bw ≤ w2.written_blocks + runLenFrom blk.state o bd kf (blk :: rest)
                rw [hwb2']
                omega)
              (by omega)
            simp only [] at hloopT
            rw [hwb2'] at hloopT
            refine ⟨r', nb3, hstep2.trans hloopT, ?_⟩
            have hbsair : blk.state.is_air = true := by
              rw [← is_air_name st' blk.state hstname]
              exact hairst
            rw [hfiltsplit, hfilttake, if_pos hbsair, List.nil_append]
            exact hF2T
          · simp only [if_neg hairst] at hstep2
            obtain ⟨r', nb3, hloopT, hF2T⟩ := hread3
              (bw + runLenFrom blk.state o bd kf (blk :: rest))
              (buf ++ (List.range' kf (runLenFrom blk.state o bd kf (blk :: rest))).map
                (fun k => (⟨posAt bd o k, st'⟩ : Block)))
              (some st') (fuelR - 1)
              (by
                show bw + runLenFrom blk.state o bd kf (blk :: rest) ≤
                  w2.written_blocks + runLenFrom blk.state o bd kf (blk :: rest)
                rw [hwb2']
                omega)
              (by omega)
            simp only [] at hloopT
            rw [hwb2'] at hloopT
            refine ⟨r', (List.range' kf (runLenFrom blk.state o bd kf (blk :: rest))).map
              (fun k => (⟨posAt bd o k, st'⟩ : Block)) ++ nb3, ?_, ?_⟩
            · rw [List.length_append, List.length_map, List.length_range']
              rw [← Nat.add_assoc, ← List.append_assoc buf]
              exact hstep2.trans hloopT
            · obtain hEM := emitted_matches o bd h0 h1 h2 (hNeq ▸ hN31) blk.state st'
                hstname hstperm
                ((blk :: rest).take (runLenFrom blk.state o bd kf (blk :: rest))) kf
                (by rw [htklen]; exact hrunF2)
              rw [htklen] at hEM
              have hbsair : blk.state.is_air = false := by
                rw [← is_air_name st' blk.state hstname]
                exact Bool.eq_false_iff.mpr hairst
              have hbsne : ¬ (blk.state.is_air = true) := by
                rw [hbsair]
                exact Bool.false_ne_true
              rw [hfiltsplit, hfilttake, if_neg hbsne]
              exact List.rel_append hEM hF2T

/-- C2: VXL codec round trip modulo air. For a boundary with positive extents
inside the encodable range and blocks supplied in traversal order at distinct
in-bounds positions (with their states well-formed for the text codec),
`write` followed by `complete` succeeds, and `read` on the produced bytes
succeeds and yields exactly the non-air blocks of the input sequence at the
same positions; the decoded states carry the same name and the same multiset
of properties as the originals (equality under the program's order-sensitive
`PartialEq` can still fail, because palette entries travel through
`to_string`/`difference`, which reorder property lists — see the
counterexample). The `Ok(None)` end-of-stream convention is also captured. -/
theorem C2_vxl_round_trip (o : AxisOrder) (bd : Boundary) (blocks : List Block)
    (hminx : 0 ≤ bd.min_x) (hminy : 0 ≤ bd.min_y) (hminz : 0 ≤ bd.min_z)
    (hdx : 0 < bd.d_x) (hdy : 0 < bd.d_y) (hdz : 0 < bd.d_z)
    (hbx : bd.min_x + bd.d_x ≤ 2 ^ 31) (hby : bd.min_y + bd.d_y ≤ 2 ^ 31)
    (hbz : bd.min_z + bd.d_z ≤ 2 ^ 31)
    (hvol31 : bd.d_x * bd.d_y * bd.d_z < 2 ^ 31)
    (hSgood : ∀ s ∈ BlockState.air :: blocks.map (fun b => b.state),
      goodMCState s = true)
    (hSdiff : ∀ a ∈ BlockState.air :: blocks.map (fun b => b.state),
      ∀ b ∈ BlockState.air :: blocks.map (fun b => b.state),
      (BlockState.difference a b).length ≤ 4096)
    (hSts : ∀ s ∈ BlockState.air :: blocks.map (fun b => b.state),
      (BlockState.to_string s).length < 2 ^ 31)
    (hSb : 2 * (BlockState.air :: blocks.map (fun b => b.state)).length + 4 < 2 ^ 31)
    (hcont : ∀ blk ∈ blocks, bd.containsPos blk.position)
    (hord : ordFrom o bd 0 blocks) :
    ∃ (bytes : List Nat) (buf : List Block),
      vxlWrite o bd blocks = .ok bytes ∧
      vxlRead bytes bd.volume =
        .ok (if buf.length = 0 then none else some buf.length, buf) ∧
      List.Forall₂ (fun (cb ob : Block) => cb.position = ob.position ∧
        cb.state.name = ob.state.name ∧
        cb.state.properties.Perm ob.state.properties)
        buf (blocks.filter (fun blk => !blk.state.is_air)) := by
  have h0 := dimOf_pos bd hdx hdy hdz o.axisTriple.1
  have h1 := dimOf_pos bd hdx hdy hdz o.axisTriple.2.1
  have h2 := dimOf_pos bd hdx hdy hdz o.axisTriple.2.2
  have hN31 := dimsN_lt bd o hdx.le hdy.le hdz.le hvol31
  have hvol := volume_eq bd hdx.le hdy.le hdz.le hvol31 o
  have hNpos : 0 < dim0 bd o * dim1 bd o * dim2 bd o := by
    rcases Nat.eq_zero_or_pos (dim0 bd o * dim1 bd o * dim2 bd o) with hzn | hp
    · exfalso
      have hprod := dims_natCast bd o hdx.le hdy.le hdz.le
      rw [hzn] at hprod
      simp only [Nat.cast_zero] at hprod
      have hppos : (0 : Int) < bd.d_x * bd.d_y * bd.d_z := by positivity
      omega
    · exact hp
  obtain ⟨hdr, hwrhdr, hrdhdr⟩ :=
    vxl_header_roundtrip o bd hminx hminy hminz hdx hdy hdz hbx hby hbz
  obtain ⟨w', Δ, hloop, hout, hread⟩ := vxl_sim
    (BlockState.air :: blocks.map (fun b => b.state)) o bd hSgood hSdiff hSts hSb
    h0 h1 h2 (dim0 bd o * dim1 bd o * dim2 bd o) rfl hN31
    (List.mem_cons_self _ _)
    (blocks.length + 1) blocks (VXLWriter.mk hdr [] true false o bd 0) []
    (by omega) rfl rfl rfl rfl (Nat.zero_le _)
    trivial
    (by simp)
    (fun blk hb => List.mem_cons_of_mem _ (List.mem_map.mpr ⟨blk, hb, rfl⟩))
    hcont
    hord
  obtain ⟨r', nb, hloopR, hF2⟩ := hread 0 [] none
    (Δ.length + (dim0 bd o * dim1 bd o * dim2 bd o) + 2)
    (Nat.zero_le _) (by omega)
  have hwb : VXLWriter.write_blocks (VXLWriter.mk hdr [] true false o bd 0) blocks
      = .ok w' := by
    rw [VXLWriter.write_blocks]
    rw [if_neg (show ¬ ((!(VXLWriter.mk hdr [] true false o bd
      0).header_written) = true) from Bool.false_ne_true)]
    rw [if_neg (show ¬ ((VXLWriter.mk hdr [] true false o bd 0).closed = true)
      from Bool.false_ne_true)]
    exact hloop
  have hwrite : VXLWriter.write (VXLWriter.new o bd) blocks = .ok w' := by
    rw [VXLWriter.write]
    rw [show VXLWriter.new o bd = VXLWriter.mk [] [] false false o bd 0 from rfl]
    rw [if_neg (show ¬ ((VXLWriter.mk [] [] false false o bd 0).header_written
      = true) from Bool.false_ne_true)]
    rw [show vxlWriteHeader (VXLWriter.mk [] [] false false o bd 0) =
      .ok (VXLWriter.mk hdr [] true false o bd 0) from hwrhdr]
    simp only []
    exact hwb
  refine ⟨hdr ++ Δ, nb, ?_, ?_, hF2⟩
  · rw [vxlWrite, hwrite]
    simp only []
    rw [hout]
  · rw [vxlRead]
    rw [hrdhdr Δ]
    simp only []
    rw [hvol]
    rw [hloopR]
    simp only [Nat.zero_add, List.nil_append]
    by_cases hnb : nb.length = 0
    · rw [if_pos (show nb.length = 0 ∧
        0 < dim0 bd o * dim1 bd o * dim2 bd o from ⟨hnb, hNpos⟩)]
      rw [if_pos hnb]
    · rw [if_neg (show ¬ (nb.length = 0 ∧
        0 < dim0 bd o * dim1 bd o * dim2 bd o) from fun h => hnb h.1)]
      rw [if_neg hnb]

/-- A 2×1×1 boundary for exercising the round trip. -/
def C2WitBd : Boundary := ⟨0, 0, 0, 2, 1, 1⟩

/-- A single stone block at flat index 1 (the writer must fill the gap at
index 0 with an air run). -/
def C2WitBlk : Block := ⟨⟨1, 0, 0⟩, ⟨str ("minecraft:stone"), []⟩⟩

theorem C2_witness :
    ∃ (bytes : List Nat) (buf : List Block),
      vxlWrite AxisOrder.XYZ C2WitBd [C2WitBlk] = .ok bytes ∧
      vxlRead bytes C2WitBd.volume =
        .ok (if buf.length = 0 then none else some buf.length, buf) ∧
      List.Forall₂ (fun (cb ob : Block) => cb.position = ob.position ∧
        cb.state.name = ob.state.name ∧
        cb.state.properties.Perm ob.state.properties)
        buf ([C2WitBlk].filter (fun blk => !blk.state.is_air)) :=
  C2_vxl_round_trip AxisOrder.XYZ C2WitBd [C2WitBlk]
    (by decide) (by decide) (by decide) (by decide) (by decide) (by decide)
    (by decide) (by decide) (by decide) (by decide)
    (by decide) (by decide) (by decide) (by decide)
    (by decide) ⟨Nat.zero_le _, trivial⟩

/-- A unit boundary for the counterexample. -/
def C2CexBd : Boundary := ⟨0, 0, 0, 1, 1, 1⟩

/-- A block whose state lists its properties in non-sorted order. -/
def C2CexBlk : Block := ⟨⟨0, 0, 0⟩, ⟨str ("minecraft:x"),
  [(str ("b"), str ("1")), (str ("a"), str ("2"))]⟩⟩

/-- The state the decoder actually returns for `C2CexBlk`: the palette
entry went through `to_string`, which sorts the `k=v` fragments. -/
def C2CexDecoded : BlockState := ⟨str ("minecraft:x"),
  [(str ("a"), str ("2")), (str ("b"), str ("1"))]⟩

/-- C2 counterexample: encoding a single block whose properties are not in
sorted order and decoding the bytes yields a block at the same position
whose state has the same name and the same multiset of properties but is
not equal to the original state under the program's order-sensitive
equality — the spec's "equal states" reading of the round trip fails. -/
theorem C2_counterexample :
    ((vxlWrite AxisOrder.XYZ C2CexBd [C2CexBlk]).bind
        (fun bytes => vxlRead bytes C2CexBd.volume)).toOption =
      some (some 1, [⟨⟨0, 0, 0⟩, C2CexDecoded⟩]) ∧
    C2CexDecoded.name = C2CexBlk.state.name ∧
    C2CexDecoded.properties.Perm C2CexBlk.state.properties ∧
    C2CexDecoded ≠ C2CexBlk.state := by
  refine ⟨by decide, by rfl, by decide, by decide⟩
end Voxels
